import Mathlib

/-!
Simulated network transport (`channel/Channel.go`)

A shallow embedding of the Go package `channel` and a verification of its
natural-language specification.

Modelling conventions.

* Go `int`/`int64` values are `Int`.  The products `processNumber * processNumber` of
  `NewChannel` and `time.Duration(randInt) * time.Millisecond` of `generateDeliveryTime` are
  wrapped to 64 bits (`wrap64`).  The counters are only ever incremented by one and are kept
  exact.  Clock values are exact integers of nanoseconds: `Time.Add` and `Time.Before` are
  the addition and the strict order of the integers (the `time` package keeps seconds and
  nanoseconds apart and does not wrap on the delays a 64-bit `Duration` can hold).
* The buffered Go channel `gochannel` is the list of the messages it holds, oldest first;
  its capacity is the field `capacity`.
* `time.Now()` and the random draw of `generateDeliveryTime` are inputs of the program.
  They are supplied by an `Env`: `env.now k` is the clock reading (in nanoseconds) of the
  `k`-th effectful step of an operation and `env.randInt k` is the value that the
  floating-point expression `int64(rand.NormFloat64() * float64(variance) + float64(mean))`
  takes at that step when it depends on the sample (see `drawRandInt`).  Every operation
  threads a cursor `k : Nat` through its clock readings.
* A run-time panic (index out of range, `make` size out of range) or a channel send that
  would block forever is a `Res.fault`.  The size checks of `make` are those of the Go
  runtime on a 64-bit platform (`maxAlloc`); an allocation that passes them succeeds.
* Runs are sequential, so the mutexes do not influence the result of an operation; the
  lock discipline is described apart, by the sequence of mutex operations and bookkeeping
  writes of each operation (`Access`).
-/

namespace Channel

/-! ## Results -/

/-- The ways in which an operation can fail to return. -/
inductive Fault where
  | indexOutOfRange
  | chanSizeOutOfRange
  | sliceLenOutOfRange
  | blocked
  deriving DecidableEq, Repr

/-- Outcome of an operation: a value, or a fault that aborts the program. -/
inductive Res (α : Type) where
  | ok (a : α)
  | fault (f : Fault)
  deriving DecidableEq, Repr

/-! ## Messages -/

/-- Go `type MessageType int` with the constants `REPORT` and `PROPOSAL`. -/
inductive MessageType where
  | REPORT
  | PROPOSAL
  deriving DecidableEq, Repr

/-- Go `type Message struct`. -/
structure Message where
  senderId : Int
  receiverId : Int
  messageType : MessageType
  round : Int
  estimate : Int
  deriving DecidableEq, Repr

/-- Function `NewMessage`. -/
def NewMessage (senderId receiverId : Int) (messageType : MessageType) (round estimate : Int) :
    Message :=
  ⟨senderId, receiverId, messageType, round, estimate⟩

/-- Method `(*Message).GetSender`. -/
def Message.GetSender (message : Message) : Int := message.senderId

/-- Method `(*Message).GetReceiver`. -/
def Message.GetReceiver (message : Message) : Int := message.receiverId

/-- Go `type MessageDeliveryTime struct`; the time is in nanoseconds. -/
structure MessageDeliveryTime where
  message : Message
  deliveryTime : Int
  deriving DecidableEq, Repr

/-- Function `newMessageDeliveryTime`. -/
def newMessageDeliveryTime (message : Message) (deliveryTime : Int) : MessageDeliveryTime :=
  ⟨message, deliveryTime⟩

/-! ## The environment: clock and random source -/

/-- Clock readings and random draws, indexed by the effectful steps of an operation:
`now k` is the reading of `time.Now()` at step `k`, in nanoseconds, and `randInt k` is the
value of the local `randInt` of `generateDeliveryTime` at step `k` when the sample of
`rand.NormFloat64()` bears on it. -/
structure Env where
  now : Nat → Int
  randInt : Nat → Int

/-- Constant `time.Millisecond`, in nanoseconds. -/
def Millisecond : Int := 1000000

/-! ## MessagesQueue -/

/-- Go `type MessagesQueue struct`: the slice `queue`, oldest element first. -/
abbrev MessagesQueue := List MessageDeliveryTime

/-- Function `NewMessagesQueue`. -/
def NewMessagesQueue : MessagesQueue := []

/-- Method `(*MessagesQueue).size`. -/
def MessagesQueue.size (messageQueue : MessagesQueue) : Int := messageQueue.length

/-- Method `(*MessagesQueue).IsEmpty`. -/
def MessagesQueue.IsEmpty (messageQueue : MessagesQueue) : Bool := messageQueue.size == 0

/-- Method `(*MessagesQueue).Add`. -/
def MessagesQueue.Add (messageQueue : MessagesQueue) (message : MessageDeliveryTime) :
    MessagesQueue :=
  messageQueue ++ [message]

/-- Method `(*MessagesQueue).Pop`: result, new queue and new clock cursor.  The clock is read
only when the queue is not empty; `Before` is a strict comparison. -/
def MessagesQueue.Pop (env : Env) (messageQueue : MessagesQueue) (k : Nat) :
    Option Message × MessagesQueue × Nat :=
  if messageQueue.IsEmpty then (none, messageQueue, k)
  else
    match messageQueue with
    | [] => (none, messageQueue, k)
    | head :: rest =>
      if head.deliveryTime < env.now k then (some head.message, rest, k + 1)
      else (none, head :: rest, k + 1)

/-! ## Channel -/

end Channel

/-- Go `type Channel struct` (without its mutex). -/
structure Channel where
  processesNumber : Int
  capacity : Int
  gochannel : List Channel.Message
  messagesBuffer : List Channel.MessagesQueue
  mean : Int
  variance : Int
  sendMessagesCount : Int
  deliverMessagesCount : Int
  nilMessagesCount : Int
  lastClient : Int
  deriving DecidableEq, Repr

namespace Channel

/-- Two's-complement wrap of an integer to 64 bits. -/
def wrap64 (x : Int) : Int := (x + 2 ^ 63) % 2 ^ 64 - 2 ^ 63

/-- The largest size in bytes that the Go runtime allocates on a 64-bit platform
(`maxAlloc`, 2^48 on linux/amd64). -/
def maxAlloc : Int := 2 ^ 48

/-- Size in bytes of the runtime header of a channel (`hchanSize`). -/
def hchanSize : Int := 96

/-- Size in bytes of a `Message`: five 64-bit integers. -/
def messageSize : Int := 40

/-- Size in bytes of a `MessagesQueue`: a slice header and a mutex. -/
def queueSize : Int := 32

/-- The test of `make(chan Message, size)`: it panics with `makechan: size out of range`
when the size is negative or the buffer would exceed `maxAlloc - hchanSize` bytes. -/
def chanSizeOk (size : Int) : Bool :=
  decide (0 ≤ size) && decide (messageSize * size ≤ maxAlloc - hchanSize)

/-- The test of `make([]MessagesQueue, len)`: it panics with `makeslice: len out of range`
when the length is negative or the slice would exceed `maxAlloc` bytes. -/
def sliceLenOk (len : Int) : Bool :=
  decide (0 ≤ len) && decide (queueSize * len ≤ maxAlloc)

/-- Function `NewChannel`.  The two calls of `make`, the one for the wire first, panic on a
size out of range. -/
def NewChannel (processNumber mean variance : Int) : Res Channel :=
  let channelCapacity := wrap64 (processNumber * processNumber)
  if ¬ chanSizeOk channelCapacity = true then Res.fault Fault.chanSizeOutOfRange
  else if ¬ sliceLenOk processNumber = true then Res.fault Fault.sliceLenOutOfRange
  else
    Res.ok
      { processesNumber := processNumber
        capacity := channelCapacity
        gochannel := []
        messagesBuffer := List.replicate processNumber.toNat NewMessagesQueue
        mean := mean
        variance := variance
        sendMessagesCount := 0
        deliverMessagesCount := 0
        nilMessagesCount := 0
        lastClient := -1 }

/-- The local `randInt` of `generateDeliveryTime` at step `k`:
`int64(rand.NormFloat64() * float64(variance) + float64(mean))`.  With variance 0 the product
of the (finite) sample by `0.0` is a zero and the sum is `float64(mean)`, which converts back
to `mean` when `mean` is exactly representable (at most `2^53` in absolute value); in every
other case the value depends on the sample and on the rounding, and is the input
`env.randInt k`. -/
def drawRandInt (env : Env) (mean variance : Int) (k : Nat) : Int :=
  if variance = 0 ∧ -(2 ^ 53) ≤ mean ∧ mean ≤ 2 ^ 53 then mean else env.randInt k

/-- The local `delay` of `generateDeliveryTime` at step `k`:
`time.Duration(randInt) * time.Millisecond`, a 64-bit product. -/
def delayAt (env : Env) (mean variance : Int) (k : Nat) : Int :=
  wrap64 (drawRandInt env mean variance k * Millisecond)

/-- Method `(*Channel).generateDeliveryTime` at step `k`, for a channel with the fields
`mean` and `variance`: `time.Now().Add(delay)`. -/
def generateDeliveryTime (env : Env) (mean variance : Int) (k : Nat) : Int :=
  env.now k + delayAt env mean variance k

/-- Method `(*Channel).isEmpty`. -/
def isEmpty (channel : Channel) : Bool := channel.gochannel.length == 0

/-- Method `(*Channel).isFull`. -/
def isFull (channel : Channel) : Bool := (channel.gochannel.length : Int) == channel.capacity

/-- Read `messagesBuffer[i]` for a Go index `i`. -/
def bufferAt (buffers : List MessagesQueue) (i : Int) : Option MessagesQueue :=
  if 0 ≤ i then buffers[i.toNat]? else none

/-- The statement `messagesBuffer[i].Add(x)`; `none` is the index-out-of-range panic. -/
def addAt (buffers : List MessagesQueue) (i : Int) (x : MessageDeliveryTime) :
    Option (List MessagesQueue) :=
  match bufferAt buffers i with
  | none => none
  | some q => some (buffers.set i.toNat (q.Add x))

/-- The loop of `receive` on a channel with the fields `mean` and `variance`, by recursion
on the content of the wire: `lastId` is the loop variable, the result is the remaining wire,
the buffers and the clock cursor. -/
def receiveLoop (env : Env) (mean variance : Int) (id : Int) :
    Int → List Message → List MessagesQueue → Nat → Res (List Message × List MessagesQueue × Nat)
  | _, [], buffers, k => Res.ok ([], buffers, k)
  | lastId, message :: rest, buffers, k =>
    if lastId = id then Res.ok (message :: rest, buffers, k)
    else
      match addAt buffers message.GetReceiver
          (newMessageDeliveryTime message (generateDeliveryTime env mean variance k)) with
      | none => Res.fault Fault.indexOutOfRange
      | some buffers1 =>
        receiveLoop env mean variance id message.GetReceiver rest buffers1 (k + 1)

/-- Method `(*Channel).receive`. -/
def receive (env : Env) (id : Int) (channel : Channel) (k : Nat) : Res (Channel × Nat) :=
  let channel1 := { channel with lastClient := id }
  match receiveLoop env channel1.mean channel1.variance id (-1) channel1.gochannel
      channel1.messagesBuffer k with
  | Res.fault f => Res.fault f
  | Res.ok (wire, buffers, k1) =>
    Res.ok ({ channel1 with gochannel := wire, messagesBuffer := buffers }, k1)

/-- Method `(*Channel).receiveAll`. -/
def receiveAll (env : Env) (channel : Channel) (k : Nat) : Res (Channel × Nat) :=
  receive env (-2) channel k

/-- The validity test of `Send`. -/
def validIds (channel : Channel) (message : Message) : Bool :=
  decide (message.GetSender > -1) && decide (message.GetSender < channel.processesNumber) &&
    decide (message.GetReceiver > -1) && decide (message.GetReceiver < channel.processesNumber)

/-- Method `(*Channel).Send`.  The push `gochannel <- *message` stores a copy of the message; it
would block forever on a wire that has no free slot. -/
def Send (env : Env) (message : Message) (channel : Channel) (k : Nat) :
    Res (Bool × Channel × Nat) :=
  let channel1 := { channel with lastClient := message.senderId }
  match (if isFull channel1 then receiveAll env channel1 k else Res.ok (channel1, k)) with
  | Res.fault f => Res.fault f
  | Res.ok (channel2, k2) =>
    if isFull channel2 then Res.ok (false, channel2, k2)
    else if validIds channel2 message then
      if (channel2.gochannel.length : Int) < channel2.capacity then
        Res.ok (true,
          { channel2 with
            gochannel := channel2.gochannel ++ [message]
            sendMessagesCount := channel2.sendMessagesCount + 1 }, k2)
      else Res.fault Fault.blocked
    else Res.ok (false, channel2, k2)

/-- State of the loop of `BroadcastSend`: the local `res`, the caller's message (mutated
in place), the channel, the clock cursor, and two ghost logs, which the Go function does not
return: the calls of `Send` made so far (destination id and returned value), and the
destination ids `i` for which the error `ERROR broadcast send to i failed` has been built
(by `fmt.Errorf`, whose value the function drops). -/
structure BroadcastState where
  res : Bool
  message : Message
  channel : Channel
  k : Nat
  calls : List (Int × Bool)
  errors : List Int
  deriving DecidableEq, Repr

/-- The loop `for i := 0; i < processesNumber; i++` of `BroadcastSend`, with `fuel` the
number of iterations left.  `res && channel.Send(message)` calls `Send` only when `res`
is still true; the error of destination `i` is built whenever `res` is false after it. -/
def broadcastLoop (env : Env) : Nat → Int → BroadcastState → Res BroadcastState
  | 0, _, s => Res.ok s
  | fuel + 1, i, s =>
    let message1 := { s.message with receiverId := i }
    if s.res then
      match Send env message1 s.channel s.k with
      | Res.fault f => Res.fault f
      | Res.ok (b, channel1, k1) =>
        broadcastLoop env fuel (i + 1)
          { res := b, message := message1, channel := channel1, k := k1,
            calls := s.calls ++ [(i, b)],
            errors := if b then s.errors else s.errors ++ [i] }
    else
      broadcastLoop env fuel (i + 1)
        { s with res := false, message := message1, errors := s.errors ++ [i] }

/-- Method `(*Channel).BroadcastSend`. -/
def BroadcastSend (env : Env) (message : Message) (channel : Channel) (k : Nat) :
    Res BroadcastState :=
  broadcastLoop env channel.processesNumber.toNat 0
    { res := true, message := message, channel := channel, k := k, calls := [], errors := [] }

/-- Method `(*Channel).Deliver`. -/
def Deliver (env : Env) (processId : Int) (channel : Channel) (k : Nat) :
    Res (Option Message × Channel × Nat) :=
  let channel1 := { channel with lastClient := processId }
  match bufferAt channel1.messagesBuffer processId with
  | none => Res.fault Fault.indexOutOfRange
  | some queue =>
    match (if queue.IsEmpty then receive env processId channel1 k else Res.ok (channel1, k)) with
    | Res.fault f => Res.fault f
    | Res.ok (channel2, k2) =>
      match bufferAt channel2.messagesBuffer processId with
      | none => Res.fault Fault.indexOutOfRange
      | some queue2 =>
        match queue2.Pop env k2 with
        | (some res, queue3, k3) =>
          Res.ok (some res,
            { channel2 with
              messagesBuffer := channel2.messagesBuffer.set processId.toNat queue3
              deliverMessagesCount := channel2.deliverMessagesCount + 1 }, k3)
        | (none, queue3, k3) =>
          Res.ok (none,
            { channel2 with
              messagesBuffer := channel2.messagesBuffer.set processId.toNat queue3
              nilMessagesCount := channel2.nilMessagesCount + 1 }, k3)

end Channel

/-! ## Specification vocabulary -/

namespace Channel

/-- The messages held in the delivery buffers, buffer after buffer. -/
def buffered (buffers : List MessagesQueue) : List Message :=
  buffers.flatten.map (fun x => x.message)

/-- Total number of messages in all delivery buffers. -/
def bufferedCount (channel : Channel) : Nat :=
  (channel.messagesBuffer.map List.length).sum

/-- The messages in flight: on the wire or in some delivery buffer. -/
def inFlight (channel : Channel) : Multiset Message :=
  (channel.gochannel : Multiset Message) + (buffered channel.messagesBuffer : Multiset Message)

/-- A returned envelope as a multiset: empty for `nil`. -/
def delivered (res : Option Message) : Multiset Message :=
  match res with
  | none => 0
  | some message => {message}

/-- The copies pushed by the calls of `Send` logged in `calls` that returned true, for a
broadcast of `message`. -/
def sentCopies (message : Message) (calls : List (Int × Bool)) : List Message :=
  (calls.filter (fun c => c.2)).map (fun c => { message with receiverId := c.1 })

/-- States reachable from `NewChannel n mean variance` by sequential calls of `Send`,
`BroadcastSend` and `Deliver` (the latter with `0 ≤ processId < n`), under any clock and
any random draws. -/
inductive Reachable (n mean variance : Int) : Channel → Prop
  | init (channel : Channel) (h : NewChannel n mean variance = Res.ok channel) :
      Reachable n mean variance channel
  | send (env : Env) (message : Message) (channel : Channel) (k : Nat) (b : Bool)
      (channel1 : Channel) (k1 : Nat) (hr : Reachable n mean variance channel)
      (h : Send env message channel k = Res.ok (b, channel1, k1)) :
      Reachable n mean variance channel1
  | broadcast (env : Env) (message : Message) (channel : Channel) (k : Nat)
      (s : BroadcastState) (hr : Reachable n mean variance channel)
      (h : BroadcastSend env message channel k = Res.ok s) :
      Reachable n mean variance s.channel
  | deliver (env : Env) (processId : Int) (channel : Channel) (k : Nat) (res : Option Message)
      (channel1 : Channel) (k1 : Nat) (hr : Reachable n mean variance channel)
      (h0 : 0 ≤ processId) (hn : processId < n)
      (h : Deliver env processId channel k = Res.ok (res, channel1, k1)) :
      Reachable n mean variance channel1

end Channel

namespace Channel

/-- The shortest initial segment of the wire that ends with the first message addressed to
`id`; the whole wire when no message is addressed to `id`. -/
def movedPrefix (id : Int) : List Message → List Message
  | [] => []
  | message :: rest =>
    if message.receiverId = id then [message] else message :: movedPrefix id rest

/-- The messages of `moved` with the delivery times generated at steps `k`, `k + 1`, ... on
a channel with the fields `mean` and `variance`. -/
def stampFrom (env : Env) (mean variance : Int) :
    Nat → List Message → List MessageDeliveryTime
  | _, [] => []
  | k, message :: rest =>
    newMessageDeliveryTime message (generateDeliveryTime env mean variance k) ::
      stampFrom env mean variance (k + 1) rest

/-- Every buffer, numbered from `i` on, extended by the elements of `xs` addressed to it,
in the order of `xs`. -/
def depositFrom (xs : List MessageDeliveryTime) : Nat → List MessagesQueue → List MessagesQueue
  | _, [] => []
  | i, q :: qs =>
    (q ++ xs.filter (fun x => decide (x.message.receiverId = (i : Int)))) ::
      depositFrom xs (i + 1) qs

/-- Every message on the wire is addressed to an existing buffer. -/
def Routed (channel : Channel) : Prop :=
  ∀ message ∈ channel.gochannel,
    0 ≤ message.receiverId ∧ message.receiverId < channel.messagesBuffer.length

instance (channel : Channel) : Decidable (Routed channel) := by
  unfold Routed
  infer_instance

end Channel

namespace Channel

/-- Consistency of a channel state: one buffer per process, a wire within its capacity whose
messages are addressed to processes, and in buffer `i` only messages addressed to `i`. -/
structure WellFormed (channel : Channel) : Prop where
  nonneg : 0 ≤ channel.processesNumber
  buffers : channel.messagesBuffer.length = channel.processesNumber.toNat
  bounded : (channel.gochannel.length : Int) ≤ channel.capacity
  wire : ∀ m ∈ channel.gochannel, 0 ≤ m.receiverId ∧ m.receiverId < channel.processesNumber
  sorted : ∀ (i : Nat) (q : MessagesQueue), channel.messagesBuffer[i]? = some q →
    ∀ x ∈ q, x.message.receiverId = (i : Int)

end Channel

namespace Channel

/-- The messages addressed to process `p` that are still to be delivered, oldest first:
those of buffer `p`, then those on the wire. -/
def pending (p : Int) (channel : Channel) : List Message :=
  ((bufferAt channel.messagesBuffer p).getD []).map (fun x => x.message)
    ++ channel.gochannel.filter (fun m => decide (m.receiverId = p))

end Channel

namespace Channel

/-- Sequential runs from `NewChannel n mean variance`, with their history: the messages
whose `Send` returned true, in send order, and the envelopes returned by `Deliver`, each
with the polling process id, in delivery order. -/
inductive Run (n mean variance : Int) : Channel → List Message → List (Int × Message) → Prop
  | init (channel : Channel) (h : NewChannel n mean variance = Res.ok channel) :
      Run n mean variance channel [] []
  | send (env : Env) (message : Message) (channel : Channel) (k : Nat) (b : Bool)
      (channel1 : Channel) (k1 : Nat) (sent : List Message) (got : List (Int × Message))
      (hr : Run n mean variance channel sent got)
      (h : Send env message channel k = Res.ok (b, channel1, k1)) :
      Run n mean variance channel1 (if b then sent ++ [message] else sent) got
  | broadcast (env : Env) (message : Message) (channel : Channel) (k : Nat)
      (s : BroadcastState) (sent : List Message) (got : List (Int × Message))
      (hr : Run n mean variance channel sent got)
      (h : BroadcastSend env message channel k = Res.ok s) :
      Run n mean variance s.channel (sent ++ sentCopies message s.calls) got
  | deliver (env : Env) (processId : Int) (channel : Channel) (k : Nat) (res : Option Message)
      (channel1 : Channel) (k1 : Nat) (sent : List Message) (got : List (Int × Message))
      (hr : Run n mean variance channel sent got)
      (h0 : 0 ≤ processId) (hn : processId < n)
      (h : Deliver env processId channel k = Res.ok (res, channel1, k1)) :
      Run n mean variance channel1 sent (got ++ res.toList.map (fun m => (processId, m)))

/-- The envelopes returned by the calls `Deliver p` of a history, in order. -/
def returnedTo (p : Int) (got : List (Int × Message)) : List Message :=
  (got.filter (fun e => decide (e.1 = p))).map Prod.snd

/-- The successfully sent messages of a history addressed to `p`, in send order. -/
def sentTo (p : Int) (sent : List Message) : List Message :=
  sent.filter (fun m => decide (m.receiverId = p))

end Channel

namespace Channel

/-- The delivery buffer of process `p`; empty when `p` is not a buffer index. -/
def bufferOf (p : Int) (channel : Channel) : MessagesQueue :=
  (bufferAt channel.messagesBuffer p).getD []

/-- A bound on the number of polls process `p` needs to receive everything pending for it:
two per message on the wire (one to drain it, one to pop it), one per buffered message. -/
def backlog (p : Int) (channel : Channel) : Nat :=
  2 * (channel.gochannel.filter (fun m => decide (m.receiverId = p))).length
    + (bufferOf p channel).length

/-- The run of `count` successive calls `Deliver p`, the `j`-th of them (numbered from `start`) with
the environment `envs j` read from its first step: the returned values in order, and the
final state. -/
def polls (envs : Nat → Env) (p : Int) : Nat → Nat → Channel → Res (List (Option Message) × Channel)
  | 0, _, channel => Res.ok ([], channel)
  | count + 1, start, channel =>
    match Deliver (envs start) p channel 0 with
    | Res.fault f => Res.fault f
    | Res.ok (res, channel1, _) =>
      match polls envs p count (start + 1) channel1 with
      | Res.fault f => Res.fault f
      | Res.ok (rs, channel2) => Res.ok (res :: rs, channel2)

end Channel

/-! ## Sample inputs -/

namespace Channel

/-- A clock that advances by one nanosecond per reading; a draw that depends on the sample
is 10 ms. -/
def tickingEnv : Env := ⟨fun k => 100 + (k : Int), fun _ => 10⟩

/-- The state returned by `NewChannel 1 10 0`. -/
def fresh1 : Channel :=
  { processesNumber := 1, capacity := 1, gochannel := [], messagesBuffer := [[]], mean := 10,
    variance := 0, sendMessagesCount := 0, deliverMessagesCount := 0, nilMessagesCount := 0,
    lastClient := -1 }

/-- The state returned by `NewChannel 2 10 0`. -/
def fresh2 : Channel :=
  { processesNumber := 2, capacity := 4, gochannel := [], messagesBuffer := [[], []],
    mean := 10, variance := 0, sendMessagesCount := 0, deliverMessagesCount := 0,
    nilMessagesCount := 0, lastClient := -1 }

/-- A report of process 0 to itself. -/
def report00 : Message := NewMessage 0 0 MessageType.REPORT 1 5

/-- A report of process 0 to process 1. -/
def report01 : Message := NewMessage 0 1 MessageType.REPORT 1 5

/-- A report whose sender id 5 is not a process id of a one- or two-process channel. -/
def strayReport : Message := NewMessage 5 0 MessageType.REPORT 1 5

/-- The state `fresh1` after `Send report00`: the wire is at capacity. -/
def full1 : Channel :=
  { fresh1 with gochannel := [report00], sendMessagesCount := 1, lastClient := 0 }

/-- The state `full1` after its wire has been drained at clock step 0: the message is in
buffer 0, due 10 ms after the reading 100. -/
def drained1 : Channel :=
  { full1 with
    gochannel := []
    messagesBuffer := [[⟨report00, 10000100⟩]]
    lastClient := -2 }

/-- A clock that advances by 20 ms per reading; a draw that depends on the sample is
10 ms. -/
def leapingEnv : Env := ⟨fun k => 100 + 20000000 * (k : Int), fun _ => 10⟩

/-- The state `fresh2` after `Send report00`, `Send report00`, `Send report01`. -/
def loaded2 : Channel :=
  { fresh2 with
    gochannel := [report00, report00, report01], sendMessagesCount := 3, lastClient := 0 }

/-- The state `fresh2` after `Send report01`. -/
def posted2 : Channel :=
  { fresh2 with gochannel := [report01], sendMessagesCount := 1, lastClient := 0 }

/-- The state `posted2` after a `Deliver 1` that has returned the message. -/
def polled2 : Channel :=
  { fresh2 with sendMessagesCount := 1, deliverMessagesCount := 1, lastClient := 1 }

/-- Environments of successive polls: the `i`-th poll happens at time `100 + i * 20 ms`; a
draw that depends on the sample is 10 ms. -/
def spacedEnvs (i : Nat) : Env := ⟨fun _ => 100 + 20000000 * (i : Int), fun _ => 10⟩

/-- The state `drained1` after a second `Send report00`: one message in buffer 0, due at
10000100, and one on the wire. -/
def reposted1 : Channel :=
  { drained1 with gochannel := [report00], sendMessagesCount := 2, lastClient := 0 }

/-- A report whose sender id -1 is not a process id. -/
def unsetReport : Message := NewMessage (-1) 0 MessageType.REPORT 1 5

end Channel

/-! ## Sequences of sends -/

namespace Channel

/-- Successive calls `Send` for the messages of a list, in order, the clock cursor being
threaded from one call to the next: the returned values in order, and the final state. -/
def sendAll (env : Env) : List Message → Channel → Nat → Res (List Bool × Channel × Nat)
  | [], channel, k => Res.ok ([], channel, k)
  | message :: rest, channel, k =>
    match Send env message channel k with
    | Res.fault f => Res.fault f
    | Res.ok (b, channel1, k1) =>
      match sendAll env rest channel1 k1 with
      | Res.fault f => Res.fault f
      | Res.ok (bs, channel2, k2) => Res.ok (b :: bs, channel2, k2)

/-- The number `2^32` of processes, whose square is `2^64`. -/
def twoPow32 : Int := 4294967296

end Channel

namespace Channel

/-- The state returned by `NewChannel twoPow32 10 0`: the product `2^32 * 2^32` wraps to 0,
so the wire has capacity 0. -/
def wide : Channel :=
  { processesNumber := twoPow32, capacity := 0, gochannel := [],
    messagesBuffer := List.replicate twoPow32.toNat NewMessagesQueue, mean := 10,
    variance := 0, sendMessagesCount := 0, deliverMessagesCount := 0, nilMessagesCount := 0,
    lastClient := -1 }

end Channel

/-! ## Lock discipline -/

namespace Channel

/-- An operation on the mutex of the channel, or a write of one of its bookkeeping fields
`lastClient`, `sendMessagesCount`, `deliverMessagesCount`, `nilMessagesCount`. -/
inductive Access where
  | lock
  | unlock
  | setLastClient
  | incSend
  | incDeliver
  | incNil
  deriving DecidableEq, Repr

/-- The accesses of `receive` in program order: `lastClient = id`, then `mutex.Lock()`, the
loop (which writes none of the bookkeeping fields), then `mutex.Unlock()`. -/
def receiveAccesses : List Access := [Access.setLastClient, Access.lock, Access.unlock]

/-- The accesses of `Send` in program order: `lastClient = message.senderId`; those of
`receiveAll` when the wire is full; and, when the message is pushed, `mutex.Lock()`,
`sendMessagesCount++`, `mutex.Unlock()`. -/
def SendAccesses (env : Env) (message : Message) (channel : Channel) (k : Nat) : List Access :=
  let channel1 := { channel with lastClient := message.senderId }
  [Access.setLastClient] ++ (if isFull channel1 then receiveAccesses else []) ++
    (match (if isFull channel1 then receiveAll env channel1 k else Res.ok (channel1, k)) with
      | Res.fault _ => []
      | Res.ok (channel2, _) =>
        if isFull channel2 then []
        else if validIds channel2 message then [Access.lock, Access.incSend, Access.unlock]
        else [])

/-- The accesses of `Deliver` in program order: `lastClient = processId`; those of `receive`
when the buffer of the caller is empty; then `deliverMessagesCount++` or
`nilMessagesCount++`. -/
def DeliverAccesses (env : Env) (processId : Int) (channel : Channel) (k : Nat) : List Access :=
  [Access.setLastClient] ++
    (match bufferAt channel.messagesBuffer processId with
      | none => []
      | some queue =>
        (if queue.IsEmpty then receiveAccesses else []) ++
          (match Deliver env processId channel k with
            | Res.fault _ => []
            | Res.ok (some _, _, _) => [Access.incDeliver]
            | Res.ok (none, _, _) => [Access.incNil]))

/-- Whether every write of a bookkeeping field in a sequence of accesses happens while the
mutex is held, `held` telling whether it is held at the start. -/
def guardedFrom : Bool → List Access → Bool
  | _, [] => true
  | _, Access.lock :: rest => guardedFrom true rest
  | _, Access.unlock :: rest => guardedFrom false rest
  | held, _ :: rest => held && guardedFrom held rest

/-- Whether every write of a bookkeeping field happens while the mutex is held, in a
sequence of accesses that starts with the mutex free. -/
def guarded (accesses : List Access) : Bool := guardedFrom false accesses

end Channel

/-! ## More sample inputs -/

namespace Channel

/-- The state returned by `NewChannel 3 10 0`. -/
def fresh3 : Channel :=
  { processesNumber := 3, capacity := 9, gochannel := [], messagesBuffer := [[], [], []],
    mean := 10, variance := 0, sendMessagesCount := 0, deliverMessagesCount := 0,
    nilMessagesCount := 0, lastClient := -1 }

/-- The proposal of process 0 to process 1, for round 1, with estimate 5. -/
def proposal01 : Message := NewMessage 0 1 MessageType.PROPOSAL 1 5

/-- The state `fresh3` after `Send proposal01`. -/
def posted3 : Channel :=
  { fresh3 with gochannel := [proposal01], sendMessagesCount := 1, lastClient := 0 }

/-- The state `posted3` after a `Deliver 1` that has drained the proposal, stamped it with
the delivery time `due` and returned nil. -/
def waiting3 (due : Int) : Channel :=
  { posted3 with
    gochannel := [], messagesBuffer := [[], [⟨proposal01, due⟩], []], nilMessagesCount := 1,
    lastClient := 1 }

/-- The state `waiting3` after a `Deliver 1` that has returned the proposal. -/
def served3 : Channel :=
  { posted3 with
    gochannel := [], nilMessagesCount := 1, deliverMessagesCount := 1, lastClient := 1 }

/-- A clock that stands at `time`; a draw that depends on the sample is 10 ms. -/
def frozenEnv (time : Int) : Env := ⟨fun _ => time, fun _ => 10⟩

/-- The state returned by `NewChannel 2 mean 0`: every delay is `mean` ms. -/
def fresh2With (mean : Int) : Channel := { fresh2 with mean := mean }

/-- The state `fresh2With mean` after `Send report01`. -/
def posted2With (mean : Int) : Channel :=
  { fresh2With mean with gochannel := [report01], sendMessagesCount := 1, lastClient := 0 }

/-- The state `posted2With mean` after a `Deliver 1` that has returned the message. -/
def polled2With (mean : Int) : Channel :=
  { fresh2With mean with sendMessagesCount := 1, deliverMessagesCount := 1, lastClient := 1 }

/-- A clock that advances by one nanosecond per reading; a draw that depends on the sample
is 9223372036855 ms, whose number of nanoseconds does not fit 64 bits. -/
def farEnv : Env := ⟨fun k => 100 + (k : Int), fun _ => 9223372036855⟩

/-- The number of processes 3000000, whose square does not fit the largest channel buffer
that the runtime allocates. -/
def threeMillion : Int := 3000000

/-- The state `full1` after a second `Send report00`: the first message has been drained
into buffer 0, the second is on the wire, and the last client is the drain-all id -2. -/
def refilled1 : Channel :=
  { full1 with
    gochannel := [report00], messagesBuffer := [[⟨report00, 10000100⟩]],
    sendMessagesCount := 2, lastClient := -2 }

end Channel

/-! ## Buffers -/

namespace Channel

theorem bufferAt_eq_some {buffers : List MessagesQueue} {i : Int} {q : MessagesQueue}
    (h : bufferAt buffers i = some q) : 0 ≤ i ∧ buffers[i.toNat]? = some q := by
  unfold bufferAt at h
  split at h
  · exact ⟨by assumption, h⟩
  · cases h

theorem bufferAt_of_lt {buffers : List MessagesQueue} {i : Int} (h0 : 0 ≤ i)
    (h1 : i < buffers.length) : ∃ q, bufferAt buffers i = some q ∧ buffers[i.toNat]? = some q := by
  have hlt : i.toNat < buffers.length := by omega
  refine ⟨buffers[i.toNat], ?_, ?_⟩
  · simp [bufferAt, h0, List.getElem?_eq_getElem hlt]
  · simp [List.getElem?_eq_getElem hlt]

theorem set_same (buffers : List MessagesQueue) (n : Nat) (q : MessagesQueue)
    (h : buffers[n]? = some q) : buffers.set n q = buffers := by
  apply List.ext_getElem?
  intro j
  rw [List.getElem?_set]
  by_cases hj : n = j
  · subst hj
    have hlt : n < buffers.length := (List.getElem?_eq_some.mp h).1
    simp [hlt, h]
  · simp [hj]

theorem buffered_set_perm (buffers : List MessagesQueue) (n : Nat) (q q1 : MessagesQueue)
    (h : buffers[n]? = some q) :
    (buffered (buffers.set n q1) ++ q.map (fun x => x.message)).Perm
      (buffered buffers ++ q1.map (fun x => x.message)) := by
  induction buffers generalizing n with
  | nil => simp at h
  | cons b bs ih =>
    cases n with
    | zero =>
      simp at h
      subst h
      simp only [List.set_cons_zero, buffered, List.flatten_cons, List.map_append]
      rw [← Multiset.coe_eq_coe]
      simp only [← Multiset.coe_add]
      abel
    | succ n =>
      simp at h
      have := ih n h
      simp only [List.set_cons_succ, buffered, List.flatten_cons, List.map_append,
        List.append_assoc] at this ⊢
      exact List.Perm.append_left _ this

theorem buffered_add (buffers : List MessagesQueue) (n : Nat) (q : MessagesQueue)
    (x : MessageDeliveryTime) (h : buffers[n]? = some q) :
    (buffered (buffers.set n (q ++ [x])) : Multiset Message)
      = x.message ::ₘ (buffered buffers : Multiset Message) := by
  have hp := buffered_set_perm buffers n q (q ++ [x]) h
  rw [← Multiset.coe_eq_coe] at hp
  simp only [← Multiset.coe_add, List.map_append, List.map_cons, List.map_nil] at hp
  apply add_right_cancel (b := ((q.map (fun x => x.message) : List Message) : Multiset Message))
  rw [hp, ← Multiset.singleton_add, ← Multiset.coe_singleton]
  abel

theorem buffered_remove (buffers : List MessagesQueue) (n : Nat) (q : MessagesQueue)
    (x : MessageDeliveryTime) (h : buffers[n]? = some (x :: q)) :
    (buffered buffers : Multiset Message)
      = x.message ::ₘ (buffered (buffers.set n q) : Multiset Message) := by
  have hp := buffered_set_perm buffers n (x :: q) q h
  rw [← Multiset.coe_eq_coe] at hp
  simp only [← Multiset.coe_add, List.map_cons] at hp
  apply add_right_cancel (b := ((q.map (fun x => x.message) : List Message) : Multiset Message))
  rw [← hp, ← Multiset.cons_coe]
  simp only [← Multiset.singleton_add]
  abel

theorem sum_length_set (buffers : List MessagesQueue) (n : Nat) (q q1 : MessagesQueue)
    (h : buffers[n]? = some q) :
    ((buffers.set n q1).map List.length).sum + q.length
      = (buffers.map List.length).sum + q1.length := by
  induction buffers generalizing n with
  | nil => simp at h
  | cons b bs ih =>
    cases n with
    | zero =>
      simp at h
      subst h
      simp
      omega
    | succ n =>
      simp at h
      have := ih n h
      simp only [List.set_cons_succ, List.map_cons, List.sum_cons]
      omega

theorem addAt_eq_some {buffers buffers1 : List MessagesQueue} {i : Int}
    {x : MessageDeliveryTime} (h : addAt buffers i x = some buffers1) :
    ∃ q, 0 ≤ i ∧ buffers[i.toNat]? = some q ∧ buffers1 = buffers.set i.toNat (q ++ [x]) := by
  unfold addAt at h
  cases hb : bufferAt buffers i with
  | none => simp [hb] at h
  | some q =>
    simp [hb, MessagesQueue.Add] at h
    obtain ⟨h0, hq⟩ := bufferAt_eq_some hb
    exact ⟨q, h0, hq, h.symm⟩

/-- With variance 0 and a mean that a `float64` holds exactly the delay is the mean, in
milliseconds, whatever the sample. -/
theorem delayAt_exact (env : Env) (mean : Int) (k : Nat) (h0 : -(2 ^ 53) ≤ mean)
    (h1 : mean ≤ 2 ^ 53) : delayAt env mean 0 k = wrap64 (mean * Millisecond) := by
  unfold delayAt drawRandInt
  rw [if_pos ⟨rfl, h0, h1⟩]

end Channel

/-! ## The drain loop -/

namespace Channel

theorem receiveLoop_stop (env : Env) (mean variance : Int) (id : Int) (wire : List Message)
    (buffers : List MessagesQueue) (k : Nat) :
    receiveLoop env mean variance id id wire buffers k = Res.ok (wire, buffers, k) := by
  cases wire <;> simp [receiveLoop]

theorem depositFrom_nil (i : Nat) (buffers : List MessagesQueue) :
    depositFrom [] i buffers = buffers := by
  induction buffers generalizing i with
  | nil => rfl
  | cons q qs ih => simp [depositFrom, ih]

theorem length_depositFrom (xs : List MessageDeliveryTime) (i : Nat)
    (buffers : List MessagesQueue) : (depositFrom xs i buffers).length = buffers.length := by
  induction buffers generalizing i with
  | nil => rfl
  | cons q qs ih => simp [depositFrom, ih]

theorem getElem?_depositFrom (xs : List MessageDeliveryTime) (i j : Nat)
    (buffers : List MessagesQueue) :
    (depositFrom xs i buffers)[j]? =
      (buffers[j]?).map
        (fun q => q ++ xs.filter (fun x => decide (x.message.receiverId = ((i + j : Nat) : Int)))) := by
  induction buffers generalizing i j with
  | nil => simp [depositFrom]
  | cons q qs ih =>
    cases j with
    | zero => simp [depositFrom]
    | succ j =>
      simp only [depositFrom, List.getElem?_cons_succ, ih]
      have : i + 1 + j = i + (j + 1) := by omega
      rw [this]

theorem depositFrom_set (xs : List MessageDeliveryTime) (x : MessageDeliveryTime) (i r : Nat)
    (buffers : List MessagesQueue) (q : MessagesQueue) (hq : buffers[r]? = some q)
    (hx : x.message.receiverId = ((i + r : Nat) : Int)) :
    depositFrom xs i (buffers.set r (q ++ [x])) = depositFrom (x :: xs) i buffers := by
  apply List.ext_getElem?
  intro j
  rw [getElem?_depositFrom, getElem?_depositFrom, List.getElem?_set]
  have hr : r < buffers.length := by
    rcases List.getElem?_eq_some.mp hq with ⟨h, _⟩
    exact h
  by_cases hj : r = j
  · subst hj
    simp [hr, hq, List.filter_cons, hx]
  · have hne : ¬ x.message.receiverId = (i : Int) + (j : Int) := by
      rw [hx]
      push_cast
      omega
    simp [hj, List.filter_cons, hne]

theorem length_movedPrefix_le (id : Int) (wire : List Message) :
    (movedPrefix id wire).length ≤ wire.length := by
  induction wire with
  | nil => simp [movedPrefix]
  | cons m rest ih =>
    simp only [movedPrefix]
    split
    · simp
    · simp only [List.length_cons]
      omega

theorem movedPrefix_append_drop (id : Int) (wire : List Message) :
    movedPrefix id wire ++ wire.drop (movedPrefix id wire).length = wire := by
  induction wire with
  | nil => simp [movedPrefix]
  | cons m rest ih =>
    simp only [movedPrefix]
    split
    · simp
    · simp [ih]

/-- The loop of `receive` on a wire whose messages are all addressed to existing buffers. -/
theorem receiveLoop_eq (env : Env) (mean variance : Int) (id lastId : Int) (wire : List Message)
    (buffers : List MessagesQueue) (k : Nat) (hne : lastId ≠ id)
    (hr : ∀ m ∈ wire, 0 ≤ m.receiverId ∧ m.receiverId < buffers.length) :
    receiveLoop env mean variance id lastId wire buffers k =
      Res.ok (wire.drop (movedPrefix id wire).length,
        depositFrom (stampFrom env mean variance k (movedPrefix id wire)) 0 buffers,
        k + (movedPrefix id wire).length) := by
  induction wire generalizing lastId buffers k with
  | nil => simp [receiveLoop, movedPrefix, stampFrom, depositFrom_nil]
  | cons m rest ih =>
    obtain ⟨h0, h1⟩ := hr m (List.mem_cons_self _ _)
    obtain ⟨q, hb, hq⟩ := bufferAt_of_lt h0 h1
    have hcast :
        (newMessageDeliveryTime m (generateDeliveryTime env mean variance k)).message.receiverId
          = ((0 + m.receiverId.toNat : Nat) : Int) := by
      show m.receiverId = _
      rw [Nat.zero_add]
      exact (Int.toNat_of_nonneg h0).symm
    simp only [receiveLoop, if_neg hne, addAt, Message.GetReceiver, hb, MessagesQueue.Add]
    by_cases hm : m.receiverId = id
    · rw [hm, receiveLoop_stop]
      simp only [movedPrefix, if_pos hm, stampFrom, List.length_singleton, List.drop_succ_cons,
        List.drop_zero]
      rw [← depositFrom_set [] _ 0 m.receiverId.toNat buffers q hq hcast,
        depositFrom_nil, hm]
    · have hr1 : ∀ m1 ∈ rest, 0 ≤ m1.receiverId ∧
          m1.receiverId < (buffers.set m.receiverId.toNat (q ++ [newMessageDeliveryTime m
            (generateDeliveryTime env mean variance k)])).length := by
        intro m1 hm1
        rw [List.length_set]
        exact hr m1 (List.mem_cons_of_mem _ hm1)
      rw [ih m.receiverId _ (k + 1) hm hr1]
      simp only [movedPrefix, if_neg hm, stampFrom, List.length_cons, List.drop_succ_cons]
      rw [depositFrom_set _ _ 0 m.receiverId.toNat buffers q hq hcast]
      have : k + 1 + (movedPrefix id rest).length = k + ((movedPrefix id rest).length + 1) := by
        omega
      rw [this]

/-- A drain that returns has moved messages from the wire to the buffers without losing or
duplicating any. -/
theorem receiveLoop_conserve (env : Env) (mean variance : Int) (id lastId : Int)
    (wire wire1 : List Message) (buffers buffers1 : List MessagesQueue) (k k1 : Nat)
    (h : receiveLoop env mean variance id lastId wire buffers k = Res.ok (wire1, buffers1, k1)) :
    buffers1.length = buffers.length ∧
      (wire1 ++ buffered buffers1).Perm (wire ++ buffered buffers) ∧
      wire1.length + (buffers1.map List.length).sum
        = wire.length + (buffers.map List.length).sum := by
  induction wire generalizing lastId buffers k with
  | nil =>
    simp [receiveLoop] at h
    obtain ⟨rfl, rfl, rfl⟩ := h
    simp
  | cons m rest ih =>
    simp only [receiveLoop] at h
    split at h
    · simp at h
      obtain ⟨rfl, rfl, rfl⟩ := h
      simp
    · split at h
      · cases h
      · rename_i buffers2 hadd
        obtain ⟨q, _, hq, rfl⟩ := addAt_eq_some hadd
        obtain ⟨hl, hp, hs⟩ := ih _ _ _ h
        refine ⟨by simpa using hl, ?_, ?_⟩
        · refine hp.trans ?_
          have e3 := buffered_add buffers m.GetReceiver.toNat q
            (newMessageDeliveryTime m (generateDeliveryTime env mean variance k)) hq
          rw [← Multiset.coe_eq_coe]
          simp only [← Multiset.coe_add]
          rw [e3]
          simp [newMessageDeliveryTime]
        · have := sum_length_set buffers m.GetReceiver.toNat q
            (q ++ [newMessageDeliveryTime m (generateDeliveryTime env mean variance k)]) hq
          rw [List.length_append, List.length_singleton] at this
          rw [List.length_cons]
          omega

end Channel

/-! ## Case analysis of the operations -/

namespace Channel

theorem IsEmpty_cons (x : MessageDeliveryTime) (rest : MessagesQueue) :
    MessagesQueue.IsEmpty (x :: rest) = false := by
  simp only [MessagesQueue.IsEmpty, MessagesQueue.size, List.length_cons, beq_eq_false_iff_ne]
  push_cast
  omega

theorem IsEmpty_nil : MessagesQueue.IsEmpty [] = true := by
  simp [MessagesQueue.IsEmpty, MessagesQueue.size]

theorem Pop_cases (env : Env) (q : MessagesQueue) (k : Nat) :
    (q = [] ∧ q.Pop env k = (none, q, k)) ∨
    (∃ x rest, q = x :: rest ∧ ¬ x.deliveryTime < env.now k ∧ q.Pop env k = (none, q, k + 1)) ∨
    (∃ x rest, q = x :: rest ∧ x.deliveryTime < env.now k ∧
      q.Pop env k = (some x.message, rest, k + 1)) := by
  cases q with
  | nil => left; simp [MessagesQueue.Pop, IsEmpty_nil]
  | cons x rest =>
    right
    by_cases h : x.deliveryTime < env.now k
    · right
      exact ⟨x, rest, rfl, h, by simp [MessagesQueue.Pop, IsEmpty_cons, h]⟩
    · left
      exact ⟨x, rest, rfl, h, by simp [MessagesQueue.Pop, IsEmpty_cons, h]⟩

theorem IsEmpty_iff (q : MessagesQueue) : q.IsEmpty = true ↔ q = [] := by
  cases q with
  | nil => simp [IsEmpty_nil]
  | cons x rest => simp [IsEmpty_cons]

theorem receive_ok {env : Env} {id : Int} {channel channel1 : Channel} {k k1 : Nat}
    (h : receive env id channel k = Res.ok (channel1, k1)) :
    ∃ wire buffers,
      receiveLoop env channel.mean channel.variance id (-1) channel.gochannel
          channel.messagesBuffer k
        = Res.ok (wire, buffers, k1) ∧
      channel1 = { channel with lastClient := id, gochannel := wire, messagesBuffer := buffers } := by
  unfold receive at h
  simp only at h
  split at h
  · cases h
  · rename_i wire buffers k2 heq
    simp only [Res.ok.injEq, Prod.mk.injEq] at h
    obtain ⟨rfl, rfl⟩ := h
    exact ⟨wire, buffers, heq, rfl⟩

/-- What a call of `Send` that returns has done: an optional full drain, then either a
refusal or a push. -/
theorem Send_ok {env : Env} {message : Message} {channel channel1 : Channel} {k k1 : Nat}
    {b : Bool} (h : Send env message channel k = Res.ok (b, channel1, k1)) :
    ∃ channel2,
      ((isFull channel = false ∧ channel2 = { channel with lastClient := message.senderId } ∧
          k1 = k) ∨
        (isFull channel = true ∧
          receive env (-2) { channel with lastClient := message.senderId } k
            = Res.ok (channel2, k1))) ∧
      ((b = false ∧ channel1 = channel2 ∧
          (isFull channel2 = true ∨ validIds channel2 message = false)) ∨
        (b = true ∧ isFull channel2 = false ∧ validIds channel2 message = true ∧
          (channel2.gochannel.length : Int) < channel2.capacity ∧
          channel1 = { channel2 with
            gochannel := channel2.gochannel ++ [message]
            sendMessagesCount := channel2.sendMessagesCount + 1 })) := by
  unfold Send at h
  simp only at h
  split at h
  · cases h
  · rename_i channel2 k2 heq
    refine ⟨channel2, ?_, ?_⟩
    · by_cases hf : isFull channel = true
      · right
        have hf1 : isFull { channel with lastClient := message.senderId } = true := hf
        rw [if_pos hf1] at heq
        have hk : k2 = k1 := by
          split at h
          · simp at h; exact h.2.2
          · split at h
            · split at h
              · simp at h; exact h.2.2
              · cases h
            · simp at h; exact h.2.2
        subst hk
        exact ⟨hf, heq⟩
      · left
        have hf1 : ¬ isFull { channel with lastClient := message.senderId } = true := hf
        rw [if_neg hf1] at heq
        simp only [Res.ok.injEq, Prod.mk.injEq] at heq
        obtain ⟨rfl, rfl⟩ := heq
        have hk : k = k1 := by
          split at h
          · simp at h; exact h.2.2
          · split at h
            · split at h
              · simp at h; exact h.2.2
              · cases h
            · simp at h; exact h.2.2
        exact ⟨by simpa using hf, rfl, hk.symm⟩
    · split at h
      · rename_i hfull
        simp only [Res.ok.injEq, Prod.mk.injEq] at h
        obtain ⟨rfl, rfl, _⟩ := h
        exact Or.inl ⟨rfl, rfl, Or.inl hfull⟩
      · rename_i hfull
        split at h
        · rename_i hvalid
          split at h
          · rename_i hlen
            simp only [Res.ok.injEq, Prod.mk.injEq] at h
            obtain ⟨rfl, rfl, _⟩ := h
            exact Or.inr ⟨rfl, by simpa using hfull, hvalid, hlen, rfl⟩
          · cases h
        · rename_i hvalid
          simp only [Res.ok.injEq, Prod.mk.injEq] at h
          obtain ⟨rfl, rfl, _⟩ := h
          exact Or.inl ⟨rfl, rfl, Or.inr (by simpa using hvalid)⟩

/-- What a call of `Deliver` that returns has done: an optional drain, then a `Pop`. -/
theorem Deliver_ok {env : Env} {processId : Int} {channel channel1 : Channel} {k k1 : Nat}
    {res : Option Message} (h : Deliver env processId channel k = Res.ok (res, channel1, k1)) :
    ∃ queue channel2 k2 queue2 queue3,
      bufferAt channel.messagesBuffer processId = some queue ∧
      ((queue ≠ [] ∧ channel2 = { channel with lastClient := processId } ∧ k2 = k) ∨
        (queue = [] ∧
          receive env processId { channel with lastClient := processId } k
            = Res.ok (channel2, k2))) ∧
      bufferAt channel2.messagesBuffer processId = some queue2 ∧
      queue2.Pop env k2 = (res, queue3, k1) ∧
      channel1 = { channel2 with
        messagesBuffer := channel2.messagesBuffer.set processId.toNat queue3
        deliverMessagesCount := channel2.deliverMessagesCount + (if res.isSome then 1 else 0)
        nilMessagesCount := channel2.nilMessagesCount + (if res.isSome then 0 else 1) } := by
  unfold Deliver at h
  simp only at h
  split at h
  · cases h
  · rename_i queue hq
    split at h
    · cases h
    · rename_i channel2 k2 heq
      split at h
      · cases h
      · rename_i queue2 hq2
        have hfirst : (queue ≠ [] ∧ channel2 = { channel with lastClient := processId } ∧ k2 = k) ∨
            (queue = [] ∧
              receive env processId { channel with lastClient := processId } k
                = Res.ok (channel2, k2)) := by
          by_cases he : queue = []
          · right
            rw [if_pos ((IsEmpty_iff queue).mpr he)] at heq
            exact ⟨he, heq⟩
          · left
            have : ¬ queue.IsEmpty = true := fun hh => he ((IsEmpty_iff queue).mp hh)
            rw [if_neg this] at heq
            simp only [Res.ok.injEq, Prod.mk.injEq] at heq
            exact ⟨he, heq.1.symm, heq.2.symm⟩
        rcases hp : queue2.Pop env k2 with ⟨r, q3, k3⟩
        rw [hp] at h
        cases r with
        | none =>
          simp only [Res.ok.injEq, Prod.mk.injEq] at h
          obtain ⟨rfl, rfl, rfl⟩ := h
          exact ⟨queue, channel2, k2, queue2, q3, hq, hfirst, hq2, hp, by simp⟩
        | some r =>
          simp only [Res.ok.injEq, Prod.mk.injEq] at h
          obtain ⟨rfl, rfl, rfl⟩ := h
          exact ⟨queue, channel2, k2, queue2, q3, hq, hfirst, hq2, hp, by simp⟩

end Channel

/-! ## Conservation of messages -/

namespace Channel

theorem receive_conserve {env : Env} {id : Int} {channel channel1 : Channel} {k k1 : Nat}
    (h : receive env id channel k = Res.ok (channel1, k1)) :
    inFlight channel1 = inFlight channel ∧
      channel1.gochannel.length + bufferedCount channel1
        = channel.gochannel.length + bufferedCount channel ∧
      channel1.sendMessagesCount = channel.sendMessagesCount ∧
      channel1.deliverMessagesCount = channel.deliverMessagesCount ∧
      channel1.nilMessagesCount = channel.nilMessagesCount ∧
      channel1.processesNumber = channel.processesNumber ∧
      channel1.capacity = channel.capacity ∧
      channel1.messagesBuffer.length = channel.messagesBuffer.length := by
  obtain ⟨wire, buffers, hloop, rfl⟩ := receive_ok h
  obtain ⟨hl, hp, hs⟩ := receiveLoop_conserve _ _ _ _ _ _ _ _ _ _ _ hloop
  refine ⟨?_, hs, rfl, rfl, rfl, rfl, rfl, hl⟩
  simp only [inFlight, Multiset.coe_add, Multiset.coe_eq_coe]
  exact hp

theorem Send_conserve {env : Env} {message : Message} {channel channel1 : Channel} {k k1 : Nat}
    {b : Bool} (h : Send env message channel k = Res.ok (b, channel1, k1)) :
    inFlight channel1 = inFlight channel + (if b then {message} else 0) ∧
      channel1.gochannel.length + bufferedCount channel1
        = channel.gochannel.length + bufferedCount channel + (if b then 1 else 0) ∧
      channel1.sendMessagesCount = channel.sendMessagesCount + (if b then 1 else 0) ∧
      channel1.deliverMessagesCount = channel.deliverMessagesCount ∧
      channel1.nilMessagesCount = channel.nilMessagesCount ∧
      channel1.processesNumber = channel.processesNumber ∧
      channel1.capacity = channel.capacity ∧
      channel1.messagesBuffer.length = channel.messagesBuffer.length := by
  obtain ⟨channel2, h1, h2⟩ := Send_ok h
  have hc2 : inFlight channel2 = inFlight channel ∧
      channel2.gochannel.length + bufferedCount channel2
        = channel.gochannel.length + bufferedCount channel ∧
      channel2.sendMessagesCount = channel.sendMessagesCount ∧
      channel2.deliverMessagesCount = channel.deliverMessagesCount ∧
      channel2.nilMessagesCount = channel.nilMessagesCount ∧
      channel2.processesNumber = channel.processesNumber ∧
      channel2.capacity = channel.capacity ∧
      channel2.messagesBuffer.length = channel.messagesBuffer.length := by
    rcases h1 with ⟨_, rfl, _⟩ | ⟨_, hrec⟩
    · exact ⟨rfl, rfl, rfl, rfl, rfl, rfl, rfl, rfl⟩
    · exact receive_conserve hrec
  obtain ⟨c1, c2, c3, c4, c5, c6, c7, c8⟩ := hc2
  rcases h2 with ⟨rfl, rfl, _⟩ | ⟨rfl, _, _, _, rfl⟩
  · simp only [Bool.false_eq_true, if_false, add_zero]
    exact ⟨c1, c2, c3, c4, c5, c6, c7, c8⟩
  · simp only [if_true]
    refine ⟨?_, ?_, by rw [← c3], c4, c5, c6, c7, c8⟩
    · rw [← c1]
      simp only [inFlight, ← Multiset.coe_add, ← Multiset.coe_singleton]
      abel
    · simp only [bufferedCount, List.length_append, List.length_singleton] at c2 ⊢
      omega

theorem Deliver_conserve {env : Env} {processId : Int} {channel channel1 : Channel} {k k1 : Nat}
    {res : Option Message} (h : Deliver env processId channel k = Res.ok (res, channel1, k1)) :
    inFlight channel = delivered res + inFlight channel1 ∧
      channel.gochannel.length + bufferedCount channel
        = channel1.gochannel.length + bufferedCount channel1 + (if res.isSome then 1 else 0) ∧
      channel1.sendMessagesCount = channel.sendMessagesCount ∧
      channel1.deliverMessagesCount
        = channel.deliverMessagesCount + (if res.isSome then 1 else 0) ∧
      channel1.nilMessagesCount = channel.nilMessagesCount + (if res.isSome then 0 else 1) ∧
      channel1.processesNumber = channel.processesNumber ∧
      channel1.capacity = channel.capacity ∧
      channel1.messagesBuffer.length = channel.messagesBuffer.length := by
  obtain ⟨queue, channel2, k2, queue2, queue3, hq, h1, hq2, hpop, rfl⟩ := Deliver_ok h
  have hc2 : inFlight channel2 = inFlight channel ∧
      channel2.gochannel.length + bufferedCount channel2
        = channel.gochannel.length + bufferedCount channel ∧
      channel2.sendMessagesCount = channel.sendMessagesCount ∧
      channel2.deliverMessagesCount = channel.deliverMessagesCount ∧
      channel2.nilMessagesCount = channel.nilMessagesCount ∧
      channel2.processesNumber = channel.processesNumber ∧
      channel2.capacity = channel.capacity ∧
      channel2.messagesBuffer.length = channel.messagesBuffer.length := by
    rcases h1 with ⟨_, rfl, _⟩ | ⟨_, hrec⟩
    · exact ⟨rfl, rfl, rfl, rfl, rfl, rfl, rfl, rfl⟩
    · exact receive_conserve hrec
  obtain ⟨c1, c2, c3, c4, c5, c6, c7, c8⟩ := hc2
  obtain ⟨_, hget⟩ := bufferAt_eq_some hq2
  rcases Pop_cases env queue2 k2 with ⟨_, hp⟩ | ⟨x, rest, _, _, hp⟩ | ⟨x, rest, hx, _, hp⟩
  all_goals
    rw [hp] at hpop
    simp only [Prod.mk.injEq] at hpop
    obtain ⟨rfl, rfl, rfl⟩ := hpop
  · have hset : channel2.messagesBuffer.set processId.toNat queue2 = channel2.messagesBuffer :=
      set_same _ _ _ hget
    simp only [hset, delivered, Option.isSome_none, Bool.false_eq_true, if_false, add_zero,
      zero_add]
    refine ⟨c1.symm, ?_, c3, c4, by rw [← c5], c6, c7, c8⟩
    simpa [bufferedCount] using c2.symm
  · have hset : channel2.messagesBuffer.set processId.toNat queue2 = channel2.messagesBuffer :=
      set_same _ _ _ hget
    simp only [hset, delivered, Option.isSome_none, Bool.false_eq_true, if_false, add_zero,
      zero_add]
    refine ⟨c1.symm, ?_, c3, c4, by rw [← c5], c6, c7, c8⟩
    simpa [bufferedCount] using c2.symm
  · subst hx
    simp only [delivered, Option.isSome_some, if_true, add_zero]
    refine ⟨?_, ?_, c3, by rw [← c4], by rw [← c5], c6, c7, by simpa using c8⟩
    · rw [← c1]
      simp only [inFlight]
      rw [buffered_remove channel2.messagesBuffer processId.toNat rest x hget,
        ← Multiset.singleton_add]
      abel
    · have := sum_length_set channel2.messagesBuffer processId.toNat (x :: rest) rest hget
      simp only [bufferedCount, List.length_cons] at c2 this ⊢
      omega

/-- The delay parameters of the channel are never written after construction. -/
theorem receive_params {env : Env} {id : Int} {channel channel1 : Channel} {k k1 : Nat}
    (h : receive env id channel k = Res.ok (channel1, k1)) :
    channel1.mean = channel.mean ∧ channel1.variance = channel.variance := by
  obtain ⟨wire, buffers, _, rfl⟩ := receive_ok h
  exact ⟨rfl, rfl⟩

theorem Send_params {env : Env} {message : Message} {channel channel1 : Channel} {k k1 : Nat}
    {b : Bool} (h : Send env message channel k = Res.ok (b, channel1, k1)) :
    channel1.mean = channel.mean ∧ channel1.variance = channel.variance := by
  obtain ⟨channel2, h1, h2⟩ := Send_ok h
  have hc2 : channel2.mean = channel.mean ∧ channel2.variance = channel.variance := by
    rcases h1 with ⟨_, rfl, _⟩ | ⟨_, hrec⟩
    · exact ⟨rfl, rfl⟩
    · have hp := receive_params hrec
      exact ⟨hp.1, hp.2⟩
  rcases h2 with ⟨_, rfl, _⟩ | ⟨_, _, _, _, rfl⟩
  · exact hc2
  · exact hc2

theorem Deliver_params {env : Env} {processId : Int} {channel channel1 : Channel} {k k1 : Nat}
    {res : Option Message} (h : Deliver env processId channel k = Res.ok (res, channel1, k1)) :
    channel1.mean = channel.mean ∧ channel1.variance = channel.variance := by
  obtain ⟨queue, channel2, k2, queue2, queue3, _, h1, _, _, rfl⟩ := Deliver_ok h
  rcases h1 with ⟨_, rfl, _⟩ | ⟨_, hrec⟩
  · exact ⟨rfl, rfl⟩
  · have hp := receive_params hrec
    exact ⟨hp.1, hp.2⟩

end Channel

/-! ## The broadcast loop -/

namespace Channel

theorem range_shift (i : Int) (j : Nat) :
    (List.range (j + 1)).map (fun (t : Nat) => i + (t : Int))
      = i :: (List.range j).map (fun (t : Nat) => i + 1 + (t : Int)) := by
  rw [List.range_succ_eq_map, List.map_cons, List.map_map]
  congr 1
  · simp
  · apply List.map_congr_left
    intro t _
    show i + ((t + 1 : Nat) : Int) = i + 1 + (t : Int)
    push_cast
    ring

theorem broadcastLoop_false (env : Env) (fuel : Nat) (i : Int) (s : BroadcastState)
    (h : s.res = false) :
    broadcastLoop env fuel i s =
      Res.ok { s with
        message := if fuel = 0 then s.message
          else { s.message with receiverId := i + (fuel : Int) - 1 }
        errors := s.errors ++ (List.range fuel).map (fun (t : Nat) => i + (t : Int)) } := by
  induction fuel generalizing i s with
  | zero => simp [broadcastLoop]
  | succ fuel ih =>
    simp only [broadcastLoop, h, Bool.false_eq_true, if_false]
    rw [ih (i + 1) _ rfl, range_shift]
    by_cases hf : fuel = 0
    · subst hf
      simp
    · simp only [hf, if_false, Nat.succ_ne_zero, Nat.cast_add, Nat.cast_one]
      have : i + 1 + (fuel : Int) - 1 = i + ((fuel : Int) + 1) - 1 := by ring
      rw [this]
      simp

theorem broadcastLoop_step {env : Env} {fuel : Nat} {i : Int} {s s1 : BroadcastState}
    (h : s.res = true) (hrun : broadcastLoop env (fuel + 1) i s = Res.ok s1) :
    ∃ b channel1 k1,
      Send env { s.message with receiverId := i } s.channel s.k = Res.ok (b, channel1, k1) ∧
      broadcastLoop env fuel (i + 1)
        { res := b, message := { s.message with receiverId := i }, channel := channel1,
          k := k1, calls := s.calls ++ [(i, b)],
          errors := if b then s.errors else s.errors ++ [i] } = Res.ok s1 := by
  simp only [broadcastLoop, h, if_true] at hrun
  split at hrun
  · cases hrun
  · rename_i b channel1 k1 hsend
    exact ⟨b, channel1, k1, hsend, hrun⟩

/-- Shape of the call log: `Send` is called for the destinations `i`, `i + 1`, ... in this
order, and never again after a call that returned false. -/
theorem broadcastLoop_calls {env : Env} {fuel : Nat} {i : Int} {s s1 : BroadcastState}
    (h : s.res = true) (hrun : broadcastLoop env fuel i s = Res.ok s1) :
    (s1.res = true ∧
        s1.calls = s.calls ++ (List.range fuel).map (fun (t : Nat) => (i + (t : Int), true))) ∨
      (s1.res = false ∧ ∃ j, j < fuel ∧
        s1.calls = s.calls ++ (List.range j).map (fun (t : Nat) => (i + (t : Int), true))
          ++ [(i + (j : Int), false)]) := by
  induction fuel generalizing i s with
  | zero =>
    simp only [broadcastLoop, Res.ok.injEq] at hrun
    subst hrun
    left
    simp [h]
  | succ fuel ih =>
    obtain ⟨b, channel1, k1, _, hloop⟩ := broadcastLoop_step h hrun
    cases b with
    | false =>
      rw [broadcastLoop_false env fuel (i + 1) _ rfl] at hloop
      simp only [Res.ok.injEq] at hloop
      subst hloop
      right
      exact ⟨rfl, 0, Nat.succ_pos _, by simp⟩
    | true =>
      have hshift : ∀ j : Nat, (List.range (j + 1)).map (fun (t : Nat) => (i + (t : Int), true))
          = (i, true) :: (List.range j).map (fun (t : Nat) => (i + 1 + (t : Int), true)) := by
        intro j
        rw [List.range_succ_eq_map, List.map_cons, List.map_map]
        congr 1
        · simp
        · apply List.map_congr_left
          intro t _
          show (i + ((t + 1 : Nat) : Int), true) = (i + 1 + (t : Int), true)
          congr 1
          push_cast
          ring
      rcases ih rfl hloop with ⟨hres, hcalls⟩ | ⟨hres, j, hj, hcalls⟩
      · left
        refine ⟨hres, ?_⟩
        rw [hcalls, hshift]
        simp
      · right
        refine ⟨hres, j + 1, Nat.succ_lt_succ hj, ?_⟩
        have e : i + ((j + 1 : Nat) : Int) = i + 1 + (j : Int) := by
          push_cast
          ring
        rw [hcalls, hshift, e]
        simp

/-- The caller's message after the loop: its receiver is the last destination id. -/
theorem broadcastLoop_message {env : Env} {fuel : Nat} {i : Int} {s s1 : BroadcastState}
    (hrun : broadcastLoop env fuel i s = Res.ok s1) :
    s1.message = if fuel = 0 then s.message
      else { s.message with receiverId := i + (fuel : Int) - 1 } := by
  induction fuel generalizing i s with
  | zero =>
    simp only [broadcastLoop, Res.ok.injEq] at hrun
    subst hrun
    simp
  | succ fuel ih =>
    cases hres : s.res with
    | false =>
      rw [broadcastLoop_false env _ i s hres] at hrun
      simp only [Res.ok.injEq] at hrun
      subst hrun
      rfl
    | true =>
      obtain ⟨b, channel1, k1, _, hloop⟩ := broadcastLoop_step hres hrun
      rw [ih hloop]
      by_cases hf : fuel = 0
      · subst hf
        simp
      · simp only [hf, if_false, Nat.succ_ne_zero, Nat.cast_add, Nat.cast_one]
        have : i + 1 + (fuel : Int) - 1 = i + ((fuel : Int) + 1) - 1 := by ring
        rw [this]

/-- A property of the channel kept by every call of `Send` is kept by the loop. -/
theorem broadcastLoop_preserves (P : Channel → Prop)
    (hP : ∀ env message channel k b channel1 k1, P channel →
      Send env message channel k = Res.ok (b, channel1, k1) → P channel1)
    {env : Env} {fuel : Nat} {i : Int} {s s1 : BroadcastState}
    (hrun : broadcastLoop env fuel i s = Res.ok s1) (h : P s.channel) : P s1.channel := by
  induction fuel generalizing i s with
  | zero =>
    simp only [broadcastLoop, Res.ok.injEq] at hrun
    subst hrun
    exact h
  | succ fuel ih =>
    cases hres : s.res with
    | false =>
      rw [broadcastLoop_false env _ i s hres] at hrun
      simp only [Res.ok.injEq] at hrun
      subst hrun
      exact h
    | true =>
      obtain ⟨b, channel1, k1, hsend, hloop⟩ := broadcastLoop_step hres hrun
      exact ih hloop (hP _ _ _ _ _ _ _ h hsend)

theorem sentCopies_append (message : Message) (calls calls1 : List (Int × Bool)) :
    sentCopies message (calls ++ calls1) = sentCopies message calls ++ sentCopies message calls1 := by
  simp [sentCopies]

/-- The loop adds to the messages in flight one copy per logged call that returned true,
and counts each of them in `sendMessagesCount`. -/
theorem broadcastLoop_conserve {env : Env} {fuel : Nat} {i : Int} {s s1 : BroadcastState}
    (hrun : broadcastLoop env fuel i s = Res.ok s1) :
    ∃ calls1, s1.calls = s.calls ++ calls1 ∧
      inFlight s1.channel = inFlight s.channel + (sentCopies s.message calls1 : Multiset Message) ∧
      s1.channel.gochannel.length + bufferedCount s1.channel
        = s.channel.gochannel.length + bufferedCount s.channel
          + (sentCopies s.message calls1).length ∧
      s1.channel.sendMessagesCount
        = s.channel.sendMessagesCount + ((sentCopies s.message calls1).length : Int) ∧
      s1.channel.deliverMessagesCount = s.channel.deliverMessagesCount ∧
      s1.channel.nilMessagesCount = s.channel.nilMessagesCount := by
  induction fuel generalizing i s with
  | zero =>
    simp only [broadcastLoop, Res.ok.injEq] at hrun
    subst hrun
    exact ⟨[], by simp [sentCopies]⟩
  | succ fuel ih =>
    cases hres : s.res with
    | false =>
      rw [broadcastLoop_false env _ i s hres] at hrun
      simp only [Res.ok.injEq] at hrun
      subst hrun
      exact ⟨[], by simp [sentCopies]⟩
    | true =>
      obtain ⟨b, channel1, k1, hsend, hloop⟩ := broadcastLoop_step hres hrun
      obtain ⟨calls1, hc, hin, hlen, hcount, hd, hnil⟩ := ih hloop
      obtain ⟨e1, e2, e3, e4, e5, _⟩ := Send_conserve hsend
      refine ⟨(i, b) :: calls1, by simpa using hc, ?_, ?_, ?_, by rw [hd, e4], by rw [hnil, e5]⟩
      · rw [hin, e1]
        cases b <;> simp [sentCopies, add_assoc]
      · rw [hlen, e2]
        cases b <;> simp [sentCopies, add_assoc, add_comm]
      · rw [hcount, e3]
        cases b <;> simp [sentCopies, add_assoc, add_comm]

/-- Shape of the error log: no error is built while the calls return true; from the first
call that returns false on, the error of every remaining destination is built, `Send` having
been called for the first of them only. -/
theorem broadcastLoop_errors {env : Env} {fuel : Nat} {i : Int} {s s1 : BroadcastState}
    (h : s.res = true) (hrun : broadcastLoop env fuel i s = Res.ok s1) :
    (s1.res = true ∧ s1.errors = s.errors) ∨
      (s1.res = false ∧ ∃ j, j < fuel ∧ s1.calls.length = s.calls.length + j + 1 ∧
        s1.errors = s.errors
          ++ (List.range (fuel - j)).map (fun (t : Nat) => i + (j : Int) + (t : Int))) := by
  induction fuel generalizing i s with
  | zero =>
    simp only [broadcastLoop, Res.ok.injEq] at hrun
    subst hrun
    left
    exact ⟨h, rfl⟩
  | succ fuel ih =>
    obtain ⟨b, channel1, k1, _, hloop⟩ := broadcastLoop_step h hrun
    cases b with
    | false =>
      rw [broadcastLoop_false env fuel (i + 1) _ rfl] at hloop
      simp only [Res.ok.injEq] at hloop
      subst hloop
      right
      refine ⟨rfl, 0, Nat.succ_pos _, by simp, ?_⟩
      simp only [Bool.false_eq_true, if_false, Nat.sub_zero, Nat.cast_zero, add_zero]
      rw [range_shift, List.append_assoc, List.singleton_append]
    | true =>
      rcases ih rfl hloop with ⟨hres, herr⟩ | ⟨hres, j, hj, hcalls, herr⟩
      · left
        exact ⟨hres, by simpa using herr⟩
      · right
        refine ⟨hres, j + 1, Nat.succ_lt_succ hj, ?_, ?_⟩
        · rw [hcalls]
          simp only [List.length_append, List.length_singleton]
          omega
        · have e : i + ((j + 1 : Nat) : Int) = i + 1 + (j : Int) := by
            push_cast
            ring
          rw [herr, e, Nat.succ_sub_succ]
          simp

end Channel

/-! ## Well-formed states -/

namespace Channel

theorem WellFormed.routed {channel : Channel} (h : WellFormed channel) : Routed channel := by
  intro m hm
  obtain ⟨h0, h1⟩ := h.wire m hm
  refine ⟨h0, ?_⟩
  rw [h.buffers, Int.toNat_of_nonneg h.nonneg]
  exact h1

theorem NewChannel_ok {n mean variance : Int} {channel : Channel}
    (h : NewChannel n mean variance = Res.ok channel) :
    0 ≤ n ∧ channel =
      { processesNumber := n, capacity := wrap64 (n * n), gochannel := [],
        messagesBuffer := List.replicate n.toNat NewMessagesQueue, mean := mean,
        variance := variance, sendMessagesCount := 0, deliverMessagesCount := 0,
        nilMessagesCount := 0, lastClient := -1 } ∧ 0 ≤ wrap64 (n * n) := by
  unfold NewChannel at h
  simp only at h
  split at h
  · cases h
  · rename_i hc
    split at h
    · cases h
    · rename_i hl
      simp only [Res.ok.injEq] at h
      simp only [not_not, chanSizeOk, Bool.and_eq_true, decide_eq_true_eq] at hc
      simp only [not_not, sliceLenOk, Bool.and_eq_true, decide_eq_true_eq] at hl
      exact ⟨hl.1, h.symm, hc.1⟩

/-- A constructor call that returns has passed the size checks of the two `make` calls. -/
theorem NewChannel_size {n mean variance : Int} {channel : Channel}
    (h : NewChannel n mean variance = Res.ok channel) :
    messageSize * wrap64 (n * n) ≤ maxAlloc - hchanSize ∧ queueSize * n ≤ maxAlloc := by
  unfold NewChannel at h
  simp only at h
  split at h
  · cases h
  · rename_i hc
    split at h
    · cases h
    · rename_i hl
      simp only [not_not, chanSizeOk, Bool.and_eq_true, decide_eq_true_eq] at hc
      simp only [not_not, sliceLenOk, Bool.and_eq_true, decide_eq_true_eq] at hl
      exact ⟨hc.2, hl.2⟩

theorem NewChannel_wellFormed {n mean variance : Int} {channel : Channel}
    (h : NewChannel n mean variance = Res.ok channel) :
    WellFormed channel ∧ channel.processesNumber = n := by
  obtain ⟨h0, rfl, hc⟩ := NewChannel_ok h
  refine ⟨⟨h0, by simp, by simpa using hc, by simp, ?_⟩, rfl⟩
  intro i q hq x hx
  simp only [List.getElem?_replicate] at hq
  split at hq
  · simp only [Option.some.injEq] at hq
    subst hq
    simp [NewMessagesQueue] at hx
  · cases hq

/-- The drain `receive id` on a routed state, for an `id` other than the initial value `-1`
of the loop variable: it returns, having moved `movedPrefix id` of the wire. -/
theorem receive_eq (env : Env) (id : Int) (channel : Channel) (k : Nat) (hid : id ≠ -1)
    (hr : Routed channel) :
    receive env id channel k =
      Res.ok ({ channel with
          lastClient := id
          gochannel := channel.gochannel.drop (movedPrefix id channel.gochannel).length
          messagesBuffer :=
            depositFrom
              (stampFrom env channel.mean channel.variance k
                (movedPrefix id channel.gochannel)) 0
              channel.messagesBuffer },
        k + (movedPrefix id channel.gochannel).length) := by
  unfold receive
  simp only
  rw [receiveLoop_eq env channel.mean channel.variance id (-1) channel.gochannel
    channel.messagesBuffer k
    (fun h => hid h.symm) hr]

theorem receive_initial (env : Env) (channel : Channel) (k : Nat) :
    receive env (-1) channel k = Res.ok ({ channel with lastClient := -1 }, k) := by
  unfold receive
  simp only
  rw [receiveLoop_stop]

theorem mem_stampFrom {env : Env} {mean variance : Int} {k : Nat} {moved : List Message}
    {x : MessageDeliveryTime}
    (h : x ∈ stampFrom env mean variance k moved) : x.message ∈ moved := by
  induction moved generalizing k with
  | nil => simp [stampFrom] at h
  | cons m rest ih =>
    simp only [stampFrom, List.mem_cons] at h
    rcases h with rfl | h
    · simp [newMessageDeliveryTime]
    · exact List.mem_cons_of_mem _ (ih h)

theorem receive_wellFormed {env : Env} {id : Int} {channel channel1 : Channel} {k k1 : Nat}
    (hw : WellFormed channel) (h : receive env id channel k = Res.ok (channel1, k1)) :
    WellFormed channel1 := by
  by_cases hid : id = -1
  · subst hid
    rw [receive_initial] at h
    simp only [Res.ok.injEq, Prod.mk.injEq] at h
    obtain ⟨rfl, _⟩ := h
    exact ⟨hw.nonneg, hw.buffers, hw.bounded, hw.wire, hw.sorted⟩
  · rw [receive_eq env id channel k hid hw.routed] at h
    simp only [Res.ok.injEq, Prod.mk.injEq] at h
    obtain ⟨rfl, _⟩ := h
    refine ⟨hw.nonneg, ?_, ?_, ?_, ?_⟩
    · simp only [length_depositFrom]
      exact hw.buffers
    · have := hw.bounded
      simp only [List.length_drop]
      omega
    · intro m hm
      exact hw.wire m (List.mem_of_mem_drop hm)
    · intro i q hq x hx
      simp only [getElem?_depositFrom, Option.map_eq_some'] at hq
      obtain ⟨q0, hq0, rfl⟩ := hq
      rw [List.mem_append] at hx
      rcases hx with hx | hx
      · exact hw.sorted i q0 hq0 x hx
      · simpa using (List.mem_filter.mp hx).2

theorem Send_wellFormed {env : Env} {message : Message} {channel channel1 : Channel}
    {k k1 : Nat} {b : Bool} (hw : WellFormed channel)
    (h : Send env message channel k = Res.ok (b, channel1, k1)) : WellFormed channel1 := by
  obtain ⟨channel2, h1, h2⟩ := Send_ok h
  have hw2 : WellFormed channel2 := by
    rcases h1 with ⟨_, rfl, _⟩ | ⟨_, hrec⟩
    · exact ⟨hw.nonneg, hw.buffers, hw.bounded, hw.wire, hw.sorted⟩
    · exact receive_wellFormed ⟨hw.nonneg, hw.buffers, hw.bounded, hw.wire, hw.sorted⟩ hrec
  rcases h2 with ⟨_, rfl, _⟩ | ⟨_, _, hvalid, hlen, rfl⟩
  · exact hw2
  · refine ⟨hw2.nonneg, hw2.buffers, ?_, ?_, hw2.sorted⟩
    · simp only [List.length_append, List.length_singleton]
      push_cast
      omega
    · intro m hm
      simp only [List.mem_append, List.mem_singleton] at hm
      rcases hm with hm | rfl
      · exact hw2.wire m hm
      · simp only [validIds, Message.GetSender, Message.GetReceiver, Bool.and_eq_true,
          decide_eq_true_eq] at hvalid
        show 0 ≤ m.receiverId ∧ m.receiverId < channel2.processesNumber
        omega

theorem Deliver_wellFormed {env : Env} {processId : Int} {channel channel1 : Channel}
    {k k1 : Nat} {res : Option Message} (hw : WellFormed channel)
    (h : Deliver env processId channel k = Res.ok (res, channel1, k1)) :
    WellFormed channel1 := by
  obtain ⟨queue, channel2, k2, queue2, queue3, hq, h1, hq2, hpop, rfl⟩ := Deliver_ok h
  have hw2 : WellFormed channel2 := by
    rcases h1 with ⟨_, rfl, _⟩ | ⟨_, hrec⟩
    · exact ⟨hw.nonneg, hw.buffers, hw.bounded, hw.wire, hw.sorted⟩
    · exact receive_wellFormed ⟨hw.nonneg, hw.buffers, hw.bounded, hw.wire, hw.sorted⟩ hrec
  obtain ⟨_, hget⟩ := bufferAt_eq_some hq2
  have hsub : ∀ x ∈ queue3, x ∈ queue2 := by
    rcases Pop_cases env queue2 k2 with ⟨_, hp⟩ | ⟨x, rest, _, _, hp⟩ | ⟨x, rest, hx, _, hp⟩
    all_goals
      rw [hp] at hpop
      simp only [Prod.mk.injEq] at hpop
      obtain ⟨_, rfl, _⟩ := hpop
    · exact fun x hx => hx
    · exact fun x hx => hx
    · subst hx
      exact fun y hy => List.mem_cons_of_mem _ hy
  refine ⟨hw2.nonneg, by simpa using hw2.buffers, hw2.bounded, hw2.wire, ?_⟩
  intro i q hq x hx
  simp only [List.getElem?_set] at hq
  split at hq
  · rename_i hi
    split at hq
    · simp only [Option.some.injEq] at hq
      subst hq
      subst hi
      exact hw2.sorted _ queue2 hget x (hsub x hx)
    · cases hq
  · exact hw2.sorted i q hq x hx

theorem Reachable.wellFormed {n mean variance : Int} {channel : Channel}
    (h : Reachable n mean variance channel) :
    WellFormed channel ∧ channel.processesNumber = n := by
  induction h with
  | init channel h => exact NewChannel_wellFormed h
  | send env message channel k b channel1 k1 _ h ih =>
    exact ⟨Send_wellFormed ih.1 h, by rw [(Send_conserve h).2.2.2.2.2.1, ih.2]⟩
  | broadcast env message channel k s _ h ih =>
    exact broadcastLoop_preserves (fun c => WellFormed c ∧ c.processesNumber = n)
      (fun env message channel k b channel1 k1 hp hs =>
        ⟨Send_wellFormed hp.1 hs, by rw [(Send_conserve hs).2.2.2.2.2.1, hp.2]⟩) h ih
  | deliver env processId channel k res channel1 k1 _ _ _ h ih =>
    exact ⟨Deliver_wellFormed ih.1 h, by rw [(Deliver_conserve h).2.2.2.2.2.1, ih.2]⟩

end Channel

/-! ## Operations on routed and well-formed states -/

namespace Channel

theorem movedPrefix_eq_self (id : Int) (wire : List Message)
    (h : ∀ m ∈ wire, m.receiverId ≠ id) : movedPrefix id wire = wire := by
  induction wire with
  | nil => rfl
  | cons m rest ih =>
    have hm : ¬ m.receiverId = id := h m (List.mem_cons_self _ _)
    simp only [movedPrefix, if_neg hm]
    rw [ih (fun m1 hm1 => h m1 (List.mem_cons_of_mem _ hm1))]

/-- The full drain `receiveAll` on a routed state empties the wire. -/
theorem receiveAll_eq (env : Env) (channel : Channel) (k : Nat) (hr : Routed channel) :
    receive env (-2) channel k =
      Res.ok ({ channel with
          lastClient := -2
          gochannel := []
          messagesBuffer :=
            depositFrom (stampFrom env channel.mean channel.variance k channel.gochannel) 0
              channel.messagesBuffer },
        k + channel.gochannel.length) := by
  have hall : movedPrefix (-2) channel.gochannel = channel.gochannel := by
    apply movedPrefix_eq_self
    intro m hm h
    have := (hr m hm).1
    omega
  rw [receive_eq env (-2) channel k (by decide) hr, hall]
  simp

theorem isFull_lastClient (channel : Channel) (c : Int) :
    isFull { channel with lastClient := c } = isFull channel := rfl

theorem validIds_iff (channel : Channel) (message : Message) :
    validIds channel message = true ↔
      (0 ≤ message.senderId ∧ message.senderId < channel.processesNumber) ∧
        (0 ≤ message.receiverId ∧ message.receiverId < channel.processesNumber) := by
  simp only [validIds, Message.GetSender, Message.GetReceiver, Bool.and_eq_true,
    decide_eq_true_eq]
  omega

/-- Totality: `Send` returns on every well-formed state. -/
theorem Send_total (env : Env) (message : Message) (channel : Channel) (k : Nat)
    (hw : WellFormed channel) :
    ∃ b channel1 k1, Send env message channel k = Res.ok (b, channel1, k1) := by
  have hw1 : WellFormed { channel with lastClient := message.senderId } :=
    ⟨hw.nonneg, hw.buffers, hw.bounded, hw.wire, hw.sorted⟩
  have hdrain : ∃ channel2 k2,
      (if isFull { channel with lastClient := message.senderId } then
        receiveAll env { channel with lastClient := message.senderId } k
        else Res.ok ({ channel with lastClient := message.senderId }, k))
        = Res.ok (channel2, k2) ∧ WellFormed channel2 := by
    by_cases hf : isFull { channel with lastClient := message.senderId } = true
    · rw [if_pos hf]
      have he := receiveAll_eq env { channel with lastClient := message.senderId } k hw1.routed
      exact ⟨_, _, he, receive_wellFormed hw1 he⟩
    · rw [if_neg hf]
      exact ⟨_, _, rfl, hw1⟩
  obtain ⟨channel2, k2, he, hw2⟩ := hdrain
  unfold Send
  simp only [he]
  by_cases hf2 : isFull channel2 = true
  · simp [hf2]
  · by_cases hv : validIds channel2 message = true
    · have hlt : (channel2.gochannel.length : Int) < channel2.capacity := by
        have h1 := hw2.bounded
        have h2 : ¬ (channel2.gochannel.length : Int) = channel2.capacity := by
          simpa [isFull] using hf2
        omega
      simp [hf2, hv, hlt]
    · simp [hf2, hv]

/-- Totality: `BroadcastSend` returns on every well-formed state. -/
theorem broadcastLoop_total (env : Env) (fuel : Nat) (i : Int) (s : BroadcastState)
    (hw : WellFormed s.channel) : ∃ s1, broadcastLoop env fuel i s = Res.ok s1 := by
  induction fuel generalizing i s with
  | zero => exact ⟨s, rfl⟩
  | succ fuel ih =>
    cases hres : s.res with
    | false => exact ⟨_, broadcastLoop_false env _ i s hres⟩
    | true =>
      obtain ⟨b, channel1, k1, hsend⟩ :=
        Send_total env { s.message with receiverId := i } s.channel s.k hw
      simp only [broadcastLoop, hres, if_true, hsend]
      exact ih _ _ (Send_wellFormed hw hsend)

/-- Totality: `Deliver` returns on every well-formed state when called with a process id. -/
theorem Deliver_total (env : Env) (processId : Int) (channel : Channel) (k : Nat)
    (hw : WellFormed channel) (h0 : 0 ≤ processId) (hn : processId < channel.processesNumber) :
    ∃ res channel1 k1, Deliver env processId channel k = Res.ok (res, channel1, k1) := by
  have hw1 : WellFormed { channel with lastClient := processId } :=
    ⟨hw.nonneg, hw.buffers, hw.bounded, hw.wire, hw.sorted⟩
  have hlen : processId < (channel.messagesBuffer.length : Int) := by
    rw [hw.buffers, Int.toNat_of_nonneg hw.nonneg]
    exact hn
  obtain ⟨queue, hq, _⟩ := bufferAt_of_lt h0 hlen
  have hdrain : ∃ channel2 k2,
      (if queue.IsEmpty then receive env processId { channel with lastClient := processId } k
        else Res.ok ({ channel with lastClient := processId }, k))
        = Res.ok (channel2, k2) ∧ WellFormed channel2 ∧
          channel2.processesNumber = channel.processesNumber := by
    by_cases hf : queue.IsEmpty = true
    · rw [if_pos hf]
      have he := receive_eq env processId { channel with lastClient := processId } k
        (by omega) hw1.routed
      exact ⟨_, _, he, receive_wellFormed hw1 he, rfl⟩
    · rw [if_neg hf]
      exact ⟨_, _, rfl, hw1, rfl⟩
  obtain ⟨channel2, k2, he, hw2, hp2⟩ := hdrain
  have hlen2 : processId < (channel2.messagesBuffer.length : Int) := by
    rw [hw2.buffers, Int.toNat_of_nonneg hw2.nonneg, hp2]
    exact hn
  obtain ⟨queue2, hq2, _⟩ := bufferAt_of_lt h0 hlen2
  unfold Deliver
  simp only [hq, he, hq2]
  rcases hp : queue2.Pop env k2 with ⟨r, q3, k3⟩
  cases r <;> simp

end Channel

/-! ## Pending messages of a process -/

namespace Channel

theorem stampFrom_filter_map (env : Env) (mean variance : Int) (k : Nat)
    (moved : List Message) (p : Int) :
    ((stampFrom env mean variance k moved).filter (fun x => decide (x.message.receiverId = p))).map
        (fun x => x.message)
      = moved.filter (fun m => decide (m.receiverId = p)) := by
  induction moved generalizing k with
  | nil => simp [stampFrom]
  | cons m rest ih =>
    simp only [stampFrom, newMessageDeliveryTime, List.filter_cons]
    by_cases hm : m.receiverId = p
    · simp [hm, ih]
    · simp [hm, ih]

theorem length_stampFrom (env : Env) (mean variance : Int) (k : Nat) (moved : List Message) :
    (stampFrom env mean variance k moved).length = moved.length := by
  induction moved generalizing k with
  | nil => simp [stampFrom]
  | cons m rest ih => simp [stampFrom, ih]

theorem bufferAt_depositFrom (xs : List MessageDeliveryTime) (buffers : List MessagesQueue)
    (p : Int) :
    bufferAt (depositFrom xs 0 buffers) p =
      (bufferAt buffers p).map
        (fun q => q ++ xs.filter (fun x => decide (x.message.receiverId = p))) := by
  unfold bufferAt
  by_cases h0 : 0 ≤ p
  · simp only [h0, if_true, getElem?_depositFrom, Nat.zero_add, Int.toNat_of_nonneg h0]
  · simp [h0]

theorem bufferAt_lastClient (channel : Channel) (c p : Int) :
    bufferAt ({ channel with lastClient := c }).messagesBuffer p
      = bufferAt channel.messagesBuffer p := rfl

theorem pending_lastClient (channel : Channel) (c p : Int) :
    pending p { channel with lastClient := c } = pending p channel := rfl

/-- A drain does not change what is pending for any process. -/
theorem receive_pending {env : Env} {id : Int} {channel channel1 : Channel} {k k1 : Nat}
    (hr : Routed channel) (h : receive env id channel k = Res.ok (channel1, k1))
    (q : Int) (h0 : 0 ≤ q) (h1 : q < channel.messagesBuffer.length) :
    pending q channel1 = pending q channel := by
  by_cases hid : id = -1
  · subst hid
    rw [receive_initial] at h
    simp only [Res.ok.injEq, Prod.mk.injEq] at h
    obtain ⟨rfl, _⟩ := h
    rfl
  · rw [receive_eq env id channel k hid hr] at h
    simp only [Res.ok.injEq, Prod.mk.injEq] at h
    obtain ⟨rfl, _⟩ := h
    obtain ⟨b, hb, _⟩ := bufferAt_of_lt h0 h1
    simp only [pending, bufferAt_depositFrom, hb, Option.map_some', Option.getD_some,
      List.map_append, stampFrom_filter_map, List.append_assoc, ← List.filter_append,
      movedPrefix_append_drop]

theorem bufferAt_set_self (buffers : List MessagesQueue) (p : Int) (q q1 : MessagesQueue)
    (h : bufferAt buffers p = some q) : bufferAt (buffers.set p.toNat q1) p = some q1 := by
  obtain ⟨h0, hq⟩ := bufferAt_eq_some h
  have hlt : p.toNat < buffers.length := (List.getElem?_eq_some.mp hq).1
  simp [bufferAt, h0, List.getElem?_set, hlt]

theorem bufferAt_set_other (buffers : List MessagesQueue) (p r : Int) (q1 : MessagesQueue)
    (h0 : 0 ≤ p) (hr0 : 0 ≤ r) (hne : r ≠ p) :
    bufferAt (buffers.set p.toNat q1) r = bufferAt buffers r := by
  have : p.toNat ≠ r.toNat := by omega
  simp [bufferAt, hr0, List.getElem?_set, this]

/-- A poll returns nothing and keeps what is pending for its process, or returns the oldest
pending message of its process; what is pending for the other processes is kept. -/
theorem Deliver_pending {env : Env} {processId : Int} {channel channel1 : Channel} {k k1 : Nat}
    {res : Option Message} (hw : WellFormed channel)
    (h : Deliver env processId channel k = Res.ok (res, channel1, k1)) :
    pending processId channel = res.toList ++ pending processId channel1 ∧
      ∀ r, 0 ≤ r → r < channel.processesNumber → r ≠ processId →
        pending r channel1 = pending r channel := by
  obtain ⟨queue, channel2, k2, queue2, queue3, hq, h1, hq2, hpop, rfl⟩ := Deliver_ok h
  obtain ⟨hp0, hget⟩ := bufferAt_eq_some hq
  have hlen : (channel.messagesBuffer.length : Int) = channel.processesNumber := by
    rw [hw.buffers, Int.toNat_of_nonneg hw.nonneg]
  have hplt : processId < channel.processesNumber := by
    have := (List.getElem?_eq_some.mp hget).1
    omega
  have hw1 : WellFormed { channel with lastClient := processId } :=
    ⟨hw.nonneg, hw.buffers, hw.bounded, hw.wire, hw.sorted⟩
  have h2 : ∀ r, 0 ≤ r → r < channel.processesNumber → pending r channel2 = pending r channel := by
    intro r hr0 hr1
    rcases h1 with ⟨_, rfl, _⟩ | ⟨_, hrec⟩
    · rfl
    · exact receive_pending hw1.routed hrec r hr0 (by rw [← hlen] at hr1; exact hr1)
  constructor
  · rw [← h2 processId hp0 hplt]
    simp only [pending, hq2, Option.getD_some, bufferAt_set_self _ _ _ queue3 hq2]
    rcases Pop_cases env queue2 k2 with ⟨_, hp⟩ | ⟨x, rest, _, _, hp⟩ | ⟨x, rest, hx, _, hp⟩
    all_goals
      rw [hp] at hpop
      simp only [Prod.mk.injEq] at hpop
      obtain ⟨rfl, rfl, rfl⟩ := hpop
    · simp
    · simp
    · subst hx
      simp
  · intro r hr0 hr1 hne
    rw [← h2 r hr0 hr1]
    simp only [pending, bufferAt_set_other _ _ _ queue3 hp0 hr0 hne]

end Channel

/-! ## The moved segment of the wire -/

namespace Channel

theorem movedPrefix_dropLast (id : Int) (wire : List Message) :
    ∀ m ∈ (movedPrefix id wire).dropLast, m.receiverId ≠ id := by
  induction wire with
  | nil => simp [movedPrefix]
  | cons a rest ih =>
    intro m hm
    by_cases ha : a.receiverId = id
    · simp [movedPrefix, ha] at hm
    · simp only [movedPrefix, if_neg ha] at hm
      cases hrest : movedPrefix id rest with
      | nil => simp [hrest] at hm
      | cons b l =>
        rw [hrest, List.dropLast_cons₂, List.mem_cons] at hm
        rcases hm with rfl | hm
        · exact ha
        · exact ih m (by rw [hrest]; exact hm)

theorem movedPrefix_getLast (id : Int) (wire : List Message)
    (h : ∃ m ∈ wire, m.receiverId = id) :
    ∃ m, (movedPrefix id wire).getLast? = some m ∧ m.receiverId = id := by
  induction wire with
  | nil => simp at h
  | cons a rest ih =>
    by_cases ha : a.receiverId = id
    · exact ⟨a, by simp [movedPrefix, ha], ha⟩
    · have hrest : ∃ m ∈ rest, m.receiverId = id := by
        obtain ⟨m, hm, hmid⟩ := h
        rcases List.mem_cons.mp hm with rfl | hm
        · exact absurd hmid ha
        · exact ⟨m, hm, hmid⟩
      obtain ⟨m, hlast, hmid⟩ := ih hrest
      refine ⟨m, ?_, hmid⟩
      simp only [movedPrefix, if_neg ha]
      cases hmp : movedPrefix id rest with
      | nil => simp [hmp] at hlast
      | cons b l =>
        rw [hmp] at hlast
        rw [List.getLast?_cons_cons]
        exact hlast

end Channel

/-! ## Per-destination order -/

namespace Channel

/-- A `Send` that returns true appends its message to what is pending for the receiver. -/
theorem Send_pending {env : Env} {message : Message} {channel channel1 : Channel} {k k1 : Nat}
    {b : Bool} (hw : WellFormed channel)
    (h : Send env message channel k = Res.ok (b, channel1, k1))
    (q : Int) (h0 : 0 ≤ q) (h1 : q < channel.processesNumber) :
    pending q channel1 = pending q channel ++ sentTo q (if b then [message] else []) := by
  obtain ⟨channel2, hd, h2⟩ := Send_ok h
  have hlen : (channel.messagesBuffer.length : Int) = channel.processesNumber := by
    rw [hw.buffers, Int.toNat_of_nonneg hw.nonneg]
  have hw1 : WellFormed { channel with lastClient := message.senderId } :=
    ⟨hw.nonneg, hw.buffers, hw.bounded, hw.wire, hw.sorted⟩
  have hp2 : pending q channel2 = pending q channel := by
    rcases hd with ⟨_, rfl, _⟩ | ⟨_, hrec⟩
    · rfl
    · exact receive_pending hw1.routed hrec q h0 (by rw [← hlen] at h1; exact h1)
  rcases h2 with ⟨rfl, rfl, _⟩ | ⟨rfl, _, _, _, rfl⟩
  · simp [hp2, sentTo]
  · rw [← hp2]
    simp only [pending, sentTo, if_true, List.filter_append, List.append_assoc]

theorem sentTo_append (q : Int) (l l1 : List Message) :
    sentTo q (l ++ l1) = sentTo q l ++ sentTo q l1 := by
  simp [sentTo]

theorem returnedTo_append (q : Int) (l l1 : List (Int × Message)) :
    returnedTo q (l ++ l1) = returnedTo q l ++ returnedTo q l1 := by
  simp [returnedTo]

theorem sentCopies_cons (message : Message) (i : Int) (b : Bool) (calls : List (Int × Bool)) :
    sentCopies message ((i, b) :: calls) =
      (if b then [{ message with receiverId := i }] else []) ++ sentCopies message calls := by
  cases b <;> simp [sentCopies]

theorem sentCopies_receiver (message : Message) (i : Int) (calls : List (Int × Bool)) :
    sentCopies { message with receiverId := i } calls = sentCopies message calls := rfl

/-- The loop of `BroadcastSend` appends, for every process, the copies addressed to it. -/
theorem broadcastLoop_pending {env : Env} {fuel : Nat} {i : Int} {s s1 : BroadcastState}
    (hw : WellFormed s.channel) (hrun : broadcastLoop env fuel i s = Res.ok s1) :
    ∃ calls1, s1.calls = s.calls ++ calls1 ∧
      ∀ q, 0 ≤ q → q < s.channel.processesNumber →
        pending q s1.channel = pending q s.channel ++ sentTo q (sentCopies s.message calls1) := by
  induction fuel generalizing i s with
  | zero =>
    simp only [broadcastLoop, Res.ok.injEq] at hrun
    subst hrun
    exact ⟨[], by simp, fun q _ _ => by simp [sentCopies, sentTo]⟩
  | succ fuel ih =>
    cases hres : s.res with
    | false =>
      rw [broadcastLoop_false env _ i s hres] at hrun
      simp only [Res.ok.injEq] at hrun
      subst hrun
      exact ⟨[], by simp, fun q _ _ => by simp [sentCopies, sentTo]⟩
    | true =>
      obtain ⟨b, channel1, k1, hsend, hloop⟩ := broadcastLoop_step hres hrun
      have hw1 := Send_wellFormed hw hsend
      have hpn := (Send_conserve hsend).2.2.2.2.2.1
      obtain ⟨calls1, hc, hpend⟩ := ih hw1 hloop
      refine ⟨(i, b) :: calls1, by simpa using hc, ?_⟩
      intro q h0 h1
      have e1 := hpend q h0 (by simp only [hpn]; exact h1)
      have e2 := Send_pending hw hsend q h0 h1
      simp only at e1
      rw [e1, e2, sentCopies_cons, sentTo_append, List.append_assoc, sentCopies_receiver]

/-- Every run keeps, for every process `p`, the envelopes returned to `p` followed by what
is pending for `p` equal to the messages sent to `p`; and polls only by process ids. -/
theorem Run.order {n mean variance : Int} {channel : Channel} {sent : List Message}
    {got : List (Int × Message)} (h : Run n mean variance channel sent got) :
    (WellFormed channel ∧ channel.processesNumber = n) ∧
      (∀ e ∈ got, 0 ≤ e.1 ∧ e.1 < n) ∧
      ∀ p, 0 ≤ p → p < n → returnedTo p got ++ pending p channel = sentTo p sent := by
  induction h with
  | init channel h =>
    refine ⟨NewChannel_wellFormed h, by simp, ?_⟩
    intro p h0 h1
    obtain ⟨_, rfl, _⟩ := NewChannel_ok h
    have hlen : p < ((List.replicate n.toNat NewMessagesQueue).length : Int) := by
      rw [List.length_replicate]
      omega
    obtain ⟨q, hq, hget⟩ := bufferAt_of_lt h0 hlen
    have hqnil : q = [] := by
      have hmem : q ∈ List.replicate n.toNat NewMessagesQueue :=
        List.mem_iff_getElem?.mpr ⟨_, hget⟩
      exact List.eq_of_mem_replicate hmem
    simp [returnedTo, sentTo, pending, hq, hqnil]
  | send env message channel k b channel1 k1 sent got _ h ih =>
    obtain ⟨⟨hw, hpn⟩, hgot, hord⟩ := ih
    refine ⟨⟨Send_wellFormed hw h, by rw [(Send_conserve h).2.2.2.2.2.1, hpn]⟩, hgot, ?_⟩
    intro p h0 h1
    rw [Send_pending hw h p h0 (by rw [hpn]; exact h1), ← List.append_assoc, hord p h0 h1]
    cases b <;> simp [sentTo]
  | broadcast env message channel k s sent got _ h ih =>
    obtain ⟨⟨hw, hpn⟩, hgot, hord⟩ := ih
    refine ⟨broadcastLoop_preserves (fun c => WellFormed c ∧ c.processesNumber = n)
      (fun env message channel k b channel1 k1 hp hs =>
        ⟨Send_wellFormed hp.1 hs, by rw [(Send_conserve hs).2.2.2.2.2.1, hp.2]⟩) h ⟨hw, hpn⟩,
      hgot, ?_⟩
    intro p h0 h1
    obtain ⟨calls1, hc, hpend⟩ :=
      broadcastLoop_pending (s := ⟨true, message, channel, k, [], []⟩) hw h
    simp only [List.nil_append] at hc
    rw [hpend p h0 (by simp only [hpn]; exact h1), ← List.append_assoc, hord p h0 h1,
      sentTo_append, hc]
  | deliver env processId channel k res channel1 k1 sent got _ hp0 hpn1 h ih =>
    obtain ⟨⟨hw, hpn⟩, hgot, hord⟩ := ih
    refine ⟨⟨Deliver_wellFormed hw h, by rw [(Deliver_conserve h).2.2.2.2.2.1, hpn]⟩, ?_, ?_⟩
    · intro e he
      rcases List.mem_append.mp he with he | he
      · exact hgot e he
      · simp only [List.mem_map, Option.mem_toList, Option.mem_def] at he
        obtain ⟨m, _, rfl⟩ := he
        exact ⟨hp0, hpn1⟩
    · intro p h0 h1
      obtain ⟨hsame, hother⟩ := Deliver_pending hw h
      rw [← hord p h0 h1, returnedTo_append, List.append_assoc]
      congr 1
      by_cases hp : p = processId
      · subst hp
        rw [hsame]
        cases res <;> simp [returnedTo]
      · rw [hother p h0 (by rw [hpn]; exact h1) hp]
        have : returnedTo p (res.toList.map (fun m => (processId, m))) = [] := by
          cases res with
          | none => simp [returnedTo]
          | some m =>
            have hne : ¬ processId = p := fun h => hp h.symm
            simp [returnedTo, hne]
        rw [this, List.nil_append]

end Channel

/-! ## Progress of polling -/

namespace Channel

theorem pending_eq (p : Int) (channel : Channel) :
    pending p channel = (bufferOf p channel).map (fun x => x.message)
      ++ channel.gochannel.filter (fun m => decide (m.receiverId = p)) := rfl

theorem movedPrefix_filter (id : Int) (wire : List Message) :
    (movedPrefix id wire).filter (fun m => decide (m.receiverId = id))
      = (wire.filter (fun m => decide (m.receiverId = id))).take 1 := by
  induction wire with
  | nil => simp [movedPrefix]
  | cons a rest ih =>
    by_cases ha : a.receiverId = id
    · simp [movedPrefix, ha, List.filter_cons]
    · simp [movedPrefix, ha, List.filter_cons, ih]

theorem stampFrom_time {env : Env} {mean variance : Int} {k : Nat} {moved : List Message}
    {x : MessageDeliveryTime} (h : x ∈ stampFrom env mean variance k moved) :
    ∃ t, x.deliveryTime = generateDeliveryTime env mean variance t := by
  induction moved generalizing k with
  | nil => simp [stampFrom] at h
  | cons m rest ih =>
    simp only [stampFrom, List.mem_cons] at h
    rcases h with rfl | h
    · exact ⟨k, rfl⟩
    · exact ih h

/-- One poll on a well-formed state: it returns, keeps the state well-formed, returns nothing
or the oldest pending message, stamps only with delivery times it has generated, and does
not increase the backlog; it decreases the backlog when it had to drain for a pending
message and when the head of the buffer is due. -/
theorem Deliver_step (env : Env) (p : Int) (channel : Channel) (k : Nat)
    (hw : WellFormed channel) (h0 : 0 ≤ p) (hn : p < channel.processesNumber) :
    ∃ res channel1 k1, Deliver env p channel k = Res.ok (res, channel1, k1) ∧
      WellFormed channel1 ∧ channel1.processesNumber = channel.processesNumber ∧
      pending p channel = res.toList ++ pending p channel1 ∧
      (∀ x ∈ bufferOf p channel1,
        x ∈ bufferOf p channel ∨
          ∃ t, x.deliveryTime = generateDeliveryTime env channel.mean channel.variance t) ∧
      backlog p channel1 ≤ backlog p channel ∧
      (bufferOf p channel = [] → pending p channel ≠ [] →
        backlog p channel1 < backlog p channel) ∧
      (∀ x rest, bufferOf p channel = x :: rest → x.deliveryTime < env.now k →
        backlog p channel1 < backlog p channel) := by
  obtain ⟨res, channel1, k1, hd⟩ := Deliver_total env p channel k hw h0 hn
  refine ⟨res, channel1, k1, hd, Deliver_wellFormed hw hd, (Deliver_conserve hd).2.2.2.2.2.1,
    (Deliver_pending hw hd).1, ?_⟩
  obtain ⟨queue, channel2, k2, queue2, queue3, hq, h1, hq2, hpop, rfl⟩ := Deliver_ok hd
  have hw1 : WellFormed { channel with lastClient := p } :=
    ⟨hw.nonneg, hw.buffers, hw.bounded, hw.wire, hw.sorted⟩
  have hb : bufferOf p channel = queue := by simp [bufferOf, hq]
  have hb1 : ∀ c d e : Int, bufferOf p
      { channel2 with
        messagesBuffer := channel2.messagesBuffer.set p.toNat queue3
        deliverMessagesCount := d, nilMessagesCount := e, lastClient := c } = queue3 := by
    intro c d e
    simp [bufferOf, bufferAt_set_self _ _ _ queue3 hq2]
  have hpopcases : (res = none ∧ queue3 = queue2) ∨
      (∃ x, queue2 = x :: queue3 ∧ x.deliveryTime < env.now k2) := by
    rcases Pop_cases env queue2 k2 with ⟨_, hp⟩ | ⟨x, rest, _, _, hp⟩ | ⟨x, rest, hx, hdue, hp⟩
    all_goals
      rw [hp] at hpop
      simp only [Prod.mk.injEq] at hpop
      obtain ⟨rfl, rfl, rfl⟩ := hpop
    · exact Or.inl ⟨rfl, rfl⟩
    · exact Or.inl ⟨rfl, rfl⟩
    · exact Or.inr ⟨x, hx, hdue⟩
  have hsub : ∀ x ∈ queue3, x ∈ queue2 := by
    rcases hpopcases with ⟨_, rfl⟩ | ⟨x, rfl, _⟩
    · exact fun x hx => hx
    · exact fun y hy => List.mem_cons_of_mem _ hy
  have hlen3 : queue3.length ≤ queue2.length := by
    rcases hpopcases with ⟨_, rfl⟩ | ⟨x, rfl, _⟩
    · exact le_refl _
    · simp
  simp only [backlog, hb, hb1]
  rcases h1 with ⟨hne, rfl, rfl⟩ | ⟨hnil, hrec⟩
  · have hqq : queue2 = queue := by
      rw [bufferAt_lastClient] at hq2
      rw [hq] at hq2
      exact (Option.some.inj hq2).symm
    subst hqq
    refine ⟨fun x hx => Or.inl (hsub x hx), by simp only; omega,
      fun h => absurd h hne, ?_⟩
    intro x rest hx hdue
    subst hx
    rcases Pop_cases env (x :: rest) k2 with ⟨h, _⟩ | ⟨y, rest1, h, hnot, _⟩ | ⟨y, rest1, h, _, hp⟩
    · cases h
    · cases h
      exact absurd hdue hnot
    · cases h
      rw [hp] at hpop
      simp only [Prod.mk.injEq] at hpop
      obtain ⟨_, rfl, _⟩ := hpop
      simp only [List.length_cons]
      omega
  · subst hnil
    rw [receive_eq env p _ k (by omega) hw1.routed] at hrec
    simp only [Res.ok.injEq, Prod.mk.injEq] at hrec
    obtain ⟨rfl, rfl⟩ := hrec
    simp only [bufferAt_depositFrom, hq, Option.map_some', List.nil_append,
      Option.some.injEq] at hq2
    have hsplit := movedPrefix_append_drop p channel.gochannel
    have hfil : (channel.gochannel.filter (fun m => decide (m.receiverId = p))).length
        = ((movedPrefix p channel.gochannel).filter (fun m => decide (m.receiverId = p))).length
          + ((channel.gochannel.drop (movedPrefix p channel.gochannel).length).filter
              (fun m => decide (m.receiverId = p))).length := by
      conv_lhs => rw [← hsplit]
      rw [List.filter_append, List.length_append]
    have hq2len : queue2.length
        = ((movedPrefix p channel.gochannel).filter (fun m => decide (m.receiverId = p))).length := by
      rw [← hq2, ← stampFrom_filter_map env _ _ k, List.length_map]
    have hone : ((movedPrefix p channel.gochannel).filter
        (fun m => decide (m.receiverId = p))).length ≤ 1 := by
      rw [movedPrefix_filter, List.length_take]
      omega
    refine ⟨?_, by simp only; omega, ?_, ?_⟩
    · intro x hx
      right
      have hx2 := hsub x hx
      rw [← hq2] at hx2
      exact stampFrom_time (List.mem_filter.mp hx2).1
    · intro _ hpend
      have hpos : 0 < ((movedPrefix p channel.gochannel).filter
          (fun m => decide (m.receiverId = p))).length := by
        rw [movedPrefix_filter, List.length_take]
        have : (channel.gochannel.filter (fun m => decide (m.receiverId = p))) ≠ [] := by
          simpa [pending_eq, hb] using hpend
        have := List.length_pos.mpr this
        omega
      simp only
      omega
    · intro x rest hx
      cases hx

end Channel

/-! ## Sequences of polls -/

namespace Channel

theorem polls_succ (envs : Nat → Env) (p : Int) (count start : Nat) (channel channel1 : Channel)
    (res : Option Message) (k1 : Nat) (rs : List (Option Message)) (channel2 : Channel)
    (hd : Deliver (envs start) p channel 0 = Res.ok (res, channel1, k1))
    (hp : polls envs p count (start + 1) channel1 = Res.ok (rs, channel2)) :
    polls envs p (count + 1) start channel = Res.ok (res :: rs, channel2) := by
  simp [polls, hd, hp]

theorem polls_length {envs : Nat → Env} {p : Int} {count start : Nat} {channel channel2 : Channel}
    {rs : List (Option Message)} (h : polls envs p count start channel = Res.ok (rs, channel2)) :
    rs.length = count := by
  induction count generalizing start channel channel2 rs with
  | zero =>
    simp only [polls, Res.ok.injEq, Prod.mk.injEq] at h
    rw [← h.1]
    rfl
  | succ count ih =>
    simp only [polls] at h
    split at h
    · cases h
    · split at h
      · cases h
      · rename_i rs1 channel3 hp
        simp only [Res.ok.injEq, Prod.mk.injEq] at h
        rw [← h.1, List.length_cons, ih hp]

theorem concat_of_cons_eq {a m : Message} {l pre : List Message} (h : a :: l = pre ++ [m])
    (hl : l ≠ []) : ∃ pre1, pre = a :: pre1 ∧ l = pre1 ++ [m] := by
  cases pre with
  | nil =>
    simp only [List.nil_append, List.cons.injEq] at h
    exact absurd h.2 hl
  | cons b pre1 =>
    simp only [List.cons_append, List.cons.injEq] at h
    exact ⟨pre1, by rw [h.1], h.2⟩

/-- Polling a channel with the delay parameters `mean` and `variance` when everything in
the buffer of `p` is already due, the clock does not go back, every delay is at most `D` and
successive polls are more than `D` apart: within `backlog` polls everything pending for `p`
has been returned, in order, the last pending message by the last poll. -/
theorem polls_drain (envs : Nat → Env) (mean variance : Int) (p : Int) (D : Int)
    (hmono : ∀ i s t, (envs i).now s ≤ (envs (i + 1)).now t)
    (hdelay : ∀ i t, delayAt (envs i) mean variance t ≤ D)
    (hspace : ∀ i s t, (envs i).now s + D < (envs (i + 1)).now t) :
    ∀ (bound start : Nat) (channel : Channel) (pre : List Message) (m : Message),
      channel.mean = mean → channel.variance = variance →
      WellFormed channel → 0 ≤ p → p < channel.processesNumber →
      (∀ x ∈ bufferOf p channel, ∀ t, x.deliveryTime < (envs start).now t) →
      pending p channel = pre ++ [m] → backlog p channel ≤ bound →
      ∃ count rs channel2, count ≤ bound ∧
        polls envs p count start channel = Res.ok (rs ++ [some m], channel2) ∧
        (rs ++ [some m]).filterMap id = pre ++ [m] := by
  intro bound
  induction bound with
  | zero =>
    intro start channel pre m _ _ _ _ _ _ hpend hback
    exfalso
    have hz : backlog p channel = 0 := Nat.le_zero.mp hback
    simp only [backlog, Nat.add_eq_zero, mul_eq_zero, OfNat.ofNat_ne_zero, false_or,
      List.length_eq_zero] at hz
    rw [pending_eq, hz.1, hz.2] at hpend
    simp at hpend
  | succ bound ih =>
    intro start channel pre m hmean hvar hw h0 hn hdue hpend hback
    obtain ⟨res, channel1, k1, hd, hw1, hpn, hp1, hstamp, _, hdrain, hpop⟩ :=
      Deliver_step (envs start) p channel 0 hw h0 hn
    obtain ⟨hmean1, hvar1⟩ := Deliver_params hd
    rw [hmean] at hmean1
    rw [hvar] at hvar1
    have hdue1 : ∀ x ∈ bufferOf p channel1, ∀ t, x.deliveryTime < (envs (start + 1)).now t := by
      intro x hx t
      rcases hstamp x hx with hold | ⟨s, hs⟩
      · have h1 := hdue x hold 0
        have h2 := hmono start 0 t
        omega
      · have h1 := hdelay start s
        have h2 := hspace start s t
        simp only [generateDeliveryTime, hmean, hvar] at hs
        omega
    have hless : backlog p channel1 < backlog p channel := by
      cases hb : bufferOf p channel with
      | nil =>
        apply hdrain hb
        rw [hpend]
        simp
      | cons x rest =>
        exact hpop x rest hb (hdue x (by rw [hb]; exact List.mem_cons_self _ _) 0)
    rw [hpend] at hp1
    by_cases hnil : pending p channel1 = []
    · rw [hnil, List.append_nil] at hp1
      cases res with
      | none => simp at hp1
      | some a =>
        simp only [Option.toList_some] at hp1
        have hpre : pre = [] ∧ m = a := by
          cases pre with
          | nil => simpa using hp1
          | cons b pre1 =>
            simp only [List.cons_append, List.cons.injEq] at hp1
            have := hp1.2
            simp at this
        obtain ⟨rfl, rfl⟩ := hpre
        exact ⟨1, [], channel1, Nat.succ_le_succ (Nat.zero_le _),
          by simp [polls, hd], by simp⟩
    · have hnext : ∃ pre1, pre = res.toList ++ pre1 ∧ pending p channel1 = pre1 ++ [m] := by
        cases res with
        | none => exact ⟨pre, by simp, by simpa using hp1.symm⟩
        | some a =>
          simp only [Option.toList_some, List.singleton_append] at hp1
          obtain ⟨pre1, h1, h2⟩ := concat_of_cons_eq hp1.symm hnil
          exact ⟨pre1, by simpa using h1, h2⟩
      obtain ⟨pre1, hpre, hpend1⟩ := hnext
      obtain ⟨count, rs, channel2, hcount, hpolls, hfm⟩ :=
        ih (start + 1) channel1 pre1 m hmean1 hvar1 hw1 h0 (by rw [hpn]; exact hn) hdue1 hpend1
          (by omega)
      refine ⟨count + 1, res :: rs, channel2, Nat.succ_le_succ hcount, ?_, ?_⟩
      · exact polls_succ envs p count start channel channel1 res k1 _ channel2 hd hpolls
      · rw [hpre, List.cons_append, List.filterMap_cons, List.append_assoc, ← hfm]
        cases res <;> simp

end Channel

/-! ## Capacity -/

namespace Channel

theorem wrap64_le (x : Int) (h : 0 ≤ x) : wrap64 x ≤ x := by
  unfold wrap64
  norm_num
  omega

theorem wrap64_eq (x : Int) (h : 0 ≤ x) (hlt : x < 2 ^ 63) : wrap64 x = x := by
  unfold wrap64
  norm_num at hlt ⊢
  omega

theorem wrap64_fits (x : Int) (h0 : -(2 ^ 63) ≤ x) (h1 : x < 2 ^ 63) : wrap64 x = x := by
  unfold wrap64
  norm_num at h0 h1 ⊢
  omega

/-- The capacity of a reachable state is the one computed by `NewChannel`. -/
theorem Reachable.capacity {n mean variance : Int} {channel : Channel}
    (h : Reachable n mean variance channel) : channel.capacity = wrap64 (n * n) := by
  induction h with
  | init channel h =>
    obtain ⟨_, rfl, _⟩ := NewChannel_ok h
    rfl
  | send env message channel k b channel1 k1 _ h ih =>
    rw [(Send_conserve h).2.2.2.2.2.2.1, ih]
  | broadcast env message channel k s _ h ih =>
    exact broadcastLoop_preserves (fun c => c.capacity = wrap64 (n * n))
      (fun env message channel k b channel1 k1 hp hs =>
        ((Send_conserve hs).2.2.2.2.2.2.1).trans hp) h ih
  | deliver env processId channel k res channel1 k1 _ _ _ h ih =>
    rw [(Deliver_conserve h).2.2.2.2.2.2.1, ih]

/-- The drain `receive id` returns on every routed state, whatever `id`. -/
theorem receive_total (env : Env) (id : Int) (channel : Channel) (k : Nat)
    (hr : Routed channel) :
    ∃ channel1 moved, receive env id channel k = Res.ok (channel1, k + moved) ∧
      moved ≤ channel.gochannel.length ∧
      channel1.gochannel.length + moved = channel.gochannel.length ∧
      channel1.messagesBuffer.length = channel.messagesBuffer.length := by
  by_cases hid : id = -1
  · subst hid
    exact ⟨_, 0, receive_initial env channel k, Nat.zero_le _, rfl, rfl⟩
  · refine ⟨_, _, receive_eq env id channel k hid hr, length_movedPrefix_le _ _, ?_, ?_⟩
    · have := length_movedPrefix_le id channel.gochannel
      simp only [List.length_drop]
      omega
    · simp [length_depositFrom]

/-- The delay parameters of a reachable state are those given to `NewChannel`. -/
theorem Reachable.params {n mean variance : Int} {channel : Channel}
    (h : Reachable n mean variance channel) :
    channel.mean = mean ∧ channel.variance = variance := by
  induction h with
  | init channel h =>
    obtain ⟨_, rfl, _⟩ := NewChannel_ok h
    exact ⟨rfl, rfl⟩
  | send env message channel k b channel1 k1 _ h ih =>
    have hp := Send_params h
    exact ⟨hp.1.trans ih.1, hp.2.trans ih.2⟩
  | broadcast env message channel k s _ h ih =>
    exact broadcastLoop_preserves (fun c => c.mean = mean ∧ c.variance = variance)
      (fun env message channel k b channel1 k1 hp hs =>
        ⟨(Send_params hs).1.trans hp.1, (Send_params hs).2.trans hp.2⟩) h ih
  | deliver env processId channel k res channel1 k1 _ _ _ h ih =>
    have hp := Deliver_params h
    exact ⟨hp.1.trans ih.1, hp.2.trans ih.2⟩

end Channel

/-! ## Sends of messages with valid ids -/

namespace Channel

/-- A `Send` with valid ids on a routed state whose wire is within a positive capacity
returns true: it pushes the message, after a full drain when the wire was at capacity. -/
theorem Send_valid (env : Env) (message : Message) (channel : Channel) (k : Nat)
    (hr : Routed channel) (hb : (channel.gochannel.length : Int) ≤ channel.capacity)
    (hc : 0 < channel.capacity) (hv : validIds channel message = true) :
    Send env message channel k =
      if isFull channel then
        Res.ok (true,
          { channel with
            lastClient := -2
            gochannel := [message]
            messagesBuffer :=
              depositFrom (stampFrom env channel.mean channel.variance k channel.gochannel) 0
                channel.messagesBuffer
            sendMessagesCount := channel.sendMessagesCount + 1 },
          k + channel.gochannel.length)
      else
        Res.ok (true,
          { channel with
            lastClient := message.senderId
            gochannel := channel.gochannel ++ [message]
            sendMessagesCount := channel.sendMessagesCount + 1 }, k) := by
  unfold Send
  simp only [isFull_lastClient]
  by_cases hf : isFull channel = true
  · have hr1 : Routed { channel with lastClient := message.senderId } := hr
    simp only [hf, if_true, receiveAll, receiveAll_eq env _ k hr1]
    have hnf : isFull
        { channel with
          lastClient := -2
          gochannel := []
          messagesBuffer :=
            depositFrom (stampFrom env channel.mean channel.variance k channel.gochannel) 0
              channel.messagesBuffer } = false := by
      simp only [isFull, List.length_nil, Nat.cast_zero, beq_eq_false_iff_ne, ne_eq]
      omega
    have hv1 : validIds
        { channel with
          lastClient := -2
          gochannel := []
          messagesBuffer :=
            depositFrom (stampFrom env channel.mean channel.variance k channel.gochannel) 0
              channel.messagesBuffer } message = true := hv
    simp [hnf, hv1, hc]
  · have hv1 : validIds { channel with lastClient := message.senderId } message = true := hv
    have hlt : (channel.gochannel.length : Int) < channel.capacity := by
      have : ¬ (channel.gochannel.length : Int) = channel.capacity := by
        simpa [isFull] using hf
      omega
    have hf1 : isFull { channel with lastClient := message.senderId } = false := by
      rw [isFull_lastClient]
      simpa using hf
    simp [hf, hf1, hv1, hlt]

/-- A `Send` that returns true had valid ids. -/
theorem Send_true_valid {env : Env} {message : Message} {channel channel1 : Channel}
    {k k1 : Nat} (h : Send env message channel k = Res.ok (true, channel1, k1)) :
    validIds channel message = true := by
  obtain ⟨channel2, hd, hcase⟩ := Send_ok h
  rcases hcase with ⟨hfalse, _⟩ | ⟨_, _, hvalid, _, _⟩
  · cases hfalse
  · have hpn : channel2.processesNumber = channel.processesNumber := by
      rcases hd with ⟨_, rfl, _⟩ | ⟨_, hrec⟩
      · rfl
      · exact (receive_conserve hrec).2.2.2.2.2.1
    rw [validIds_iff] at hvalid ⊢
    rw [← hpn]
    exact hvalid

/-- With capacity 0 every `Send` on an empty wire returns false and changes nothing but
`lastClient`. -/
theorem Send_capacity_zero (env : Env) (message : Message) (channel : Channel) (k : Nat)
    (hc : channel.capacity = 0) (hw : channel.gochannel = []) :
    Send env message channel k = Res.ok (false, { channel with lastClient := -2 }, k) := by
  have hf : ∀ c : Int, isFull { channel with lastClient := c } = true := by
    intro c
    simp [isFull, hc, hw]
  have hrec : receive env (-2) { channel with lastClient := message.senderId } k
      = Res.ok ({ channel with lastClient := -2 }, k) := by
    unfold receive
    simp only [hw, receiveLoop]
  unfold Send
  simp only [hf, if_true, receiveAll, hrec]

theorem wrap64_ne_zero (n : Int) (h0 : 0 < n) (hn : n < 2 ^ 32) : wrap64 (n * n) ≠ 0 := by
  have h1 : 1 ≤ n * n := by nlinarith
  have h2 : n * n < 2 ^ 64 := by nlinarith
  unfold wrap64
  norm_num at h2 ⊢
  omega

/-- The state returned by `NewChannel`, when it returns. -/
theorem NewChannel_eq (n mean variance : Int) (h0 : 0 ≤ n) (hc : 0 ≤ wrap64 (n * n))
    (hs : messageSize * wrap64 (n * n) ≤ maxAlloc - hchanSize) (hq : queueSize * n ≤ maxAlloc) :
    NewChannel n mean variance =
      Res.ok
        { processesNumber := n, capacity := wrap64 (n * n), gochannel := [],
          messagesBuffer := List.replicate n.toNat NewMessagesQueue, mean := mean,
          variance := variance, sendMessagesCount := 0, deliverMessagesCount := 0,
          nilMessagesCount := 0, lastClient := -1 } := by
  unfold NewChannel
  simp only
  rw [if_neg, if_neg]
  · simp only [not_not, sliceLenOk, Bool.and_eq_true, decide_eq_true_eq]
    exact ⟨h0, hq⟩
  · simp only [not_not, chanSizeOk, Bool.and_eq_true, decide_eq_true_eq]
    exact ⟨hc, hs⟩

/-- The constructor panics when a wire of `n * n` messages is larger than the largest
buffer that `make` allocates. -/
theorem NewChannel_fault (n mean variance : Int)
    (h : maxAlloc - hchanSize < messageSize * wrap64 (n * n)) :
    NewChannel n mean variance = Res.fault Fault.chanSizeOutOfRange := by
  unfold NewChannel
  simp only
  rw [if_pos]
  simp only [chanSizeOk, Bool.and_eq_true, decide_eq_true_eq]
  intro hc
  exact absurd hc.2 (not_le.mpr h)

theorem buffered_replicate (j : Nat) :
    buffered (List.replicate j NewMessagesQueue) = [] := by
  induction j with
  | zero => rfl
  | succ j ih =>
    simp only [List.replicate_succ, buffered, List.flatten_cons, NewMessagesQueue,
      List.nil_append] at ih ⊢
    exact ih

end Channel

/-! ## Filling the wire -/

namespace Channel

theorem wide_new : NewChannel twoPow32 10 0 = Res.ok wide := by
  have hc : wrap64 (twoPow32 * twoPow32) = 0 := by decide
  rw [NewChannel_eq twoPow32 10 0 (by decide) (by decide) (by decide) (by decide), hc]
  rfl

theorem wide_reachable : Reachable twoPow32 10 0 wide :=
  Reachable.init wide wide_new

/-- Sends that all return true on a wire with enough free slots: no drain takes place, the
messages are appended to the wire in order and they all have valid ids. -/
theorem sendAll_fill (env : Env) :
    ∀ (msgs : List Message) (channel : Channel) (k : Nat) (bs : List Bool)
      (channel1 : Channel) (k1 : Nat),
      ((channel.gochannel.length + msgs.length : Nat) : Int) ≤ channel.capacity →
      sendAll env msgs channel k = Res.ok (bs, channel1, k1) → (∀ b ∈ bs, b = true) →
      channel1.gochannel = channel.gochannel ++ msgs ∧
        channel1.messagesBuffer = channel.messagesBuffer ∧ k1 = k ∧
        channel1.capacity = channel.capacity ∧
        channel1.processesNumber = channel.processesNumber ∧
        channel1.sendMessagesCount = channel.sendMessagesCount + (msgs.length : Int) ∧
        ∀ m ∈ msgs, validIds channel m = true := by
  intro msgs
  induction msgs with
  | nil =>
    intro channel k bs channel1 k1 _ h _
    simp only [sendAll, Res.ok.injEq, Prod.mk.injEq] at h
    obtain ⟨_, rfl, rfl⟩ := h
    simp
  | cons m rest ih =>
    intro channel k bs channel1 k1 hcap h hall
    simp only [sendAll] at h
    split at h
    · cases h
    · rename_i b channel2 k2 hsend
      split at h
      · cases h
      · rename_i bs1 channel3 k3 hrest
        simp only [Res.ok.injEq, Prod.mk.injEq] at h
        obtain ⟨rfl, rfl, rfl⟩ := h
        have hb : b = true := hall b (List.mem_cons_self _ _)
        subst hb
        have hvalid := Send_true_valid hsend
        obtain ⟨channel0, hd, hcase⟩ := Send_ok hsend
        have hnf : isFull channel = false := by
          simp only [isFull, beq_eq_false_iff_ne, ne_eq]
          simp only [List.length_cons] at hcap
          push_cast at hcap
          omega
        rcases hd with ⟨_, rfl, rfl⟩ | ⟨hfull, _⟩
        · rcases hcase with ⟨hfalse, _⟩ | ⟨_, _, _, _, rfl⟩
          · cases hfalse
          · obtain ⟨e1, e2, e3, e4, e5, e6, e7⟩ := ih _ _ _ _ _
              (by
                dsimp only
                simp only [List.length_append, List.length_singleton, List.length_cons,
                  List.length_nil] at hcap ⊢
                push_cast at hcap ⊢
                omega)
              hrest (fun b hb => hall b (List.mem_cons_of_mem _ hb))
            refine ⟨by simpa using e1, e2, e3, e4, e5, ?_, ?_⟩
            · rw [e6]
              simp only [List.length_cons]
              push_cast
              ring
            · intro m1 hm1
              rcases List.mem_cons.mp hm1 with rfl | hm1
              · exact hvalid
              · exact e7 m1 hm1
        · rw [hnf] at hfull
          cases hfull

/-- Sends of messages with valid ids on a well-formed state whose wire has enough free slots
all return true. -/
theorem sendAll_valid (env : Env) :
    ∀ (msgs : List Message) (channel : Channel) (k : Nat), WellFormed channel →
      ((channel.gochannel.length + msgs.length : Nat) : Int) ≤ channel.capacity →
      (∀ m ∈ msgs, validIds channel m = true) →
      ∃ channel1, sendAll env msgs channel k
        = Res.ok (List.replicate msgs.length true, channel1, k) := by
  intro msgs
  induction msgs with
  | nil =>
    intro channel k _ _ _
    exact ⟨channel, rfl⟩
  | cons m rest ih =>
    intro channel k hw hcap hvalid
    simp only [List.length_cons] at hcap
    push_cast at hcap
    have hnf : isFull channel = false := by
      simp only [isFull, beq_eq_false_iff_ne, ne_eq]
      omega
    have hsend := Send_valid env m channel k hw.routed (by omega) (by omega)
      (hvalid m (List.mem_cons_self _ _))
    simp only [hnf, Bool.false_eq_true, if_false] at hsend
    obtain ⟨channel1, h1⟩ := ih
      { channel with
        lastClient := m.senderId
        gochannel := channel.gochannel ++ [m]
        sendMessagesCount := channel.sendMessagesCount + 1 } k
      (Send_wellFormed hw hsend)
      (by
        dsimp only
        simp only [List.length_append, List.length_singleton]
        push_cast
        omega)
      (fun m1 hm1 => hvalid m1 (List.mem_cons_of_mem _ hm1))
    refine ⟨channel1, ?_⟩
    simp only [sendAll, hsend, h1, List.length_cons, List.replicate_succ]

end Channel

/-! ## A poll that drains -/

namespace Channel

theorem movedPrefix_split (p : Int) (pre post : List Message) (x : Message)
    (hpre : ∀ m ∈ pre, m.receiverId ≠ p) (hx : x.receiverId = p) :
    movedPrefix p (pre ++ x :: post) = pre ++ [x] := by
  induction pre with
  | nil => simp [movedPrefix, hx]
  | cons a rest ih =>
    have ha : ¬ a.receiverId = p := hpre a (List.mem_cons_self _ _)
    have e := ih (fun m hm => hpre m (List.mem_cons_of_mem _ hm))
    rw [List.cons_append]
    simp only [movedPrefix, if_neg ha, List.cons_append]
    exact congrArg (List.cons a) e

theorem stampFrom_append (env : Env) (mean variance : Int) (k : Nat) (a b : List Message) :
    stampFrom env mean variance k (a ++ b)
      = stampFrom env mean variance k a ++ stampFrom env mean variance (k + a.length) b := by
  induction a generalizing k with
  | nil => simp [stampFrom]
  | cons m rest ih =>
    have e := ih (k + 1)
    have hk : k + 1 + rest.length = k + (rest.length + 1) := by omega
    rw [hk] at e
    rw [List.cons_append]
    simp only [stampFrom, List.length_cons, List.cons_append]
    exact congrArg (List.cons _) e

theorem stampFrom_filter_none (env : Env) (mean variance : Int) (k : Nat)
    (pre : List Message) (p : Int)
    (hpre : ∀ m ∈ pre, m.receiverId ≠ p) :
    (stampFrom env mean variance k pre).filter (fun x => decide (x.message.receiverId = p))
      = [] := by
  rw [List.filter_eq_nil_iff]
  intro x hx
  have := hpre _ (mem_stampFrom hx)
  simpa using this

/-- A poll by `p` whose buffer is empty, on a routed state whose wire holds a first message
`x` for `p` after the messages `pre`: `x` is stamped at step `k + pre.length` and the `Pop`
reads the clock at the next step; the poll returns `x` exactly when the stamp is before that
reading. -/
theorem Deliver_drains (env : Env) (p : Int) (channel : Channel) (k : Nat)
    (pre post : List Message) (x : Message) (hr : Routed channel)
    (hbuf : bufferAt channel.messagesBuffer p = some [])
    (hwire : channel.gochannel = pre ++ x :: post)
    (hpre : ∀ m ∈ pre, m.receiverId ≠ p) (hx : x.receiverId = p) :
    Deliver env p channel k =
      if generateDeliveryTime env channel.mean channel.variance (k + pre.length)
          < env.now (k + pre.length + 1) then
        Res.ok (some x,
          { channel with
            lastClient := p
            gochannel := post
            messagesBuffer :=
              (depositFrom (stampFrom env channel.mean channel.variance k (pre ++ [x])) 0
                channel.messagesBuffer).set p.toNat []
            deliverMessagesCount := channel.deliverMessagesCount + 1 },
          k + pre.length + 2)
      else
        Res.ok (none,
          { channel with
            lastClient := p
            gochannel := post
            messagesBuffer :=
              (depositFrom (stampFrom env channel.mean channel.variance k (pre ++ [x])) 0
                channel.messagesBuffer).set p.toNat
                [⟨x, generateDeliveryTime env channel.mean channel.variance (k + pre.length)⟩]
            nilMessagesCount := channel.nilMessagesCount + 1 },
          k + pre.length + 2) := by
  obtain ⟨h0, _⟩ := bufferAt_eq_some hbuf
  have hr1 : Routed { channel with lastClient := p } := hr
  have hmoved : movedPrefix p channel.gochannel = pre ++ [x] := by
    rw [hwire]
    exact movedPrefix_split p pre post x hpre hx
  have hrec := receive_eq env p { channel with lastClient := p } k (by omega) hr1
  simp only [hmoved] at hrec
  have hdrop : channel.gochannel.drop (pre ++ [x]).length = post := by
    rw [hwire]
    simp
  rw [hdrop] at hrec
  have hq2 :
      bufferAt (depositFrom (stampFrom env channel.mean channel.variance k (pre ++ [x])) 0
          channel.messagesBuffer) p
        = some [⟨x, generateDeliveryTime env channel.mean channel.variance (k + pre.length)⟩] := by
    rw [bufferAt_depositFrom, hbuf, stampFrom_append, List.filter_append,
      stampFrom_filter_none env _ _ k pre p hpre]
    simp [stampFrom, newMessageDeliveryTime, hx]
  have hlen : k + (pre ++ [x]).length = k + pre.length + 1 := by
    simp only [List.length_append, List.length_singleton]
    omega
  rw [hlen] at hrec
  have hb1 : bufferAt ({ channel with lastClient := p }).messagesBuffer p = some [] := hbuf
  unfold Deliver
  simp only [hb1, IsEmpty_nil, if_true, hrec, hq2]
  by_cases hdue : generateDeliveryTime env channel.mean channel.variance (k + pre.length)
      < env.now (k + pre.length + 1)
  · simp [MessagesQueue.Pop, IsEmpty_cons, hdue]
  · simp [MessagesQueue.Pop, IsEmpty_cons, hdue]

end Channel

/-! ## Verified claims -/

namespace Channel

theorem fresh1_reachable : Reachable 1 10 0 fresh1 :=
  Reachable.init fresh1 (by decide)

theorem fresh2_reachable : Reachable 2 10 0 fresh2 :=
  Reachable.init fresh2 (by decide)

theorem full1_reachable : Reachable 1 10 0 full1 :=
  Reachable.send tickingEnv report00 fresh1 0 true full1 0 fresh1_reachable (by decide)

theorem loaded2_reachable : Reachable 2 10 0 loaded2 :=
  Reachable.send tickingEnv report01 _ 0 true loaded2 0
    (Reachable.send tickingEnv report00 _ 0 true
      { fresh2 with gochannel := [report00, report00], sendMessagesCount := 2, lastClient := 0 }
      0
      (Reachable.send tickingEnv report00 fresh2 0 true
        { fresh2 with gochannel := [report00], sendMessagesCount := 1, lastClient := 0 } 0
        fresh2_reachable (by decide))
      (by decide))
    (by decide)

/-- In every reachable state the counters balance the messages in flight. -/
theorem Reachable.balanced {n mean variance : Int} {channel : Channel}
    (h : Reachable n mean variance channel) :
    channel.sendMessagesCount =
      channel.deliverMessagesCount + (channel.gochannel.length : Int)
        + (bufferedCount channel : Int) := by
  induction h with
  | init channel h =>
    obtain ⟨_, rfl, _⟩ := NewChannel_ok h
    simp [bufferedCount, NewMessagesQueue]
  | send env message channel k b channel1 k1 _ h ih =>
    obtain ⟨_, e2, e3, e4, _⟩ := Send_conserve h
    rw [e3, e4, ih]
    cases b
    · simp only [Bool.false_eq_true, if_false, add_zero] at e2 ⊢
      omega
    · simp only [if_true] at e2 ⊢
      omega
  | broadcast env message channel k s _ h ih =>
    obtain ⟨calls1, _, _, e2, e3, e4, _⟩ := broadcastLoop_conserve h
    simp only at e2 e3 e4
    rw [e3, e4, ih]
    omega
  | deliver env processId channel k res channel1 k1 _ _ _ h ih =>
    obtain ⟨_, e2, e3, e4, _⟩ := Deliver_conserve h
    rw [e3, e4, ih]
    cases res
    · simp only [Option.isSome_none, Bool.false_eq_true, if_false, add_zero] at e2 ⊢
      omega
    · simp only [Option.isSome_some, if_true] at e2 ⊢
      omega

/-- C1: in every state reachable from `NewChannel n mean variance` by sequential calls of
`Send`, `BroadcastSend` and `Deliver` (with `0 ≤ processId < n`), `sendMessagesCount` equals
`deliverMessagesCount` plus the number of messages on the wire plus the number of messages in
all delivery buffers; and no operation duplicates or drops a message: a `Send` adds exactly
the sent message (when it returns true) to the multiset of messages in flight, a
`BroadcastSend` adds exactly the copies whose `Send` returned true, and a `Deliver` removes
exactly the returned envelope. -/
theorem C1_sent_eq_delivered_plus_in_flight (n mean variance : Int) (channel : Channel)
    (h : Reachable n mean variance channel) :
    channel.sendMessagesCount =
        channel.deliverMessagesCount + (channel.gochannel.length : Int)
          + (bufferedCount channel : Int) ∧
      (∀ env message k b channel1 k1,
        Send env message channel k = Res.ok (b, channel1, k1) →
          inFlight channel1 = inFlight channel + (if b then {message} else 0)) ∧
      (∀ env message k s,
        BroadcastSend env message channel k = Res.ok s →
          inFlight s.channel
            = inFlight channel + (sentCopies message s.calls : Multiset Message)) ∧
      (∀ env processId k res channel1 k1,
        Deliver env processId channel k = Res.ok (res, channel1, k1) →
          inFlight channel = delivered res + inFlight channel1) := by
  refine ⟨h.balanced, ?_, ?_, ?_⟩
  · intro env message k b channel1 k1 hs
    exact (Send_conserve hs).1
  · intro env message k s hs
    obtain ⟨calls1, hc, hin, _⟩ := broadcastLoop_conserve hs
    simp only [List.nil_append] at hc
    rw [hin, hc]
  · intro env processId k res channel1 k1 hd
    exact (Deliver_conserve hd).1

/-- C1 at the one-process channel whose wire holds one message. -/
theorem C1_witness :
    full1.sendMessagesCount =
        full1.deliverMessagesCount + (full1.gochannel.length : Int)
          + (bufferedCount full1 : Int) ∧
      (∀ env message k b channel1 k1,
        Send env message full1 k = Res.ok (b, channel1, k1) →
          inFlight channel1 = inFlight full1 + (if b then {message} else 0)) ∧
      (∀ env message k s,
        BroadcastSend env message full1 k = Res.ok s →
          inFlight s.channel
            = inFlight full1 + (sentCopies message s.calls : Multiset Message)) ∧
      (∀ env processId k res channel1 k1,
        Deliver env processId full1 k = Res.ok (res, channel1, k1) →
          inFlight full1 = delivered res + inFlight channel1) :=
  C1_sent_eq_delivered_plus_in_flight 1 10 0 full1 full1_reachable

end Channel

namespace Channel

/-- A call of `Send` with a sender or receiver id that is not a process id, on a routed
state: the result and the state it leaves. -/
theorem Send_invalid (env : Env) (message : Message) (channel : Channel) (k : Nat)
    (hr : Routed channel) (hv : validIds channel message = false) :
    Send env message channel k =
      if isFull channel then
        Res.ok (false,
          { channel with
            lastClient := -2
            gochannel := []
            messagesBuffer :=
              depositFrom (stampFrom env channel.mean channel.variance k channel.gochannel) 0
                channel.messagesBuffer },
          k + channel.gochannel.length)
      else Res.ok (false, { channel with lastClient := message.senderId }, k) := by
  unfold Send
  simp only [isFull_lastClient]
  by_cases hf : isFull channel = true
  · have hr1 : Routed { channel with lastClient := message.senderId } := hr
    simp only [hf, if_true, receiveAll, receiveAll_eq env _ k hr1]
    have hv1 : validIds
        { channel with
          lastClient := -2
          gochannel := []
          messagesBuffer :=
            depositFrom (stampFrom env channel.mean channel.variance k channel.gochannel) 0
              channel.messagesBuffer } message = false := hv
    split
    · rfl
    · simp [hv1]
  · have hv1 : validIds { channel with lastClient := message.senderId } message = false := hv
    simp [hf, hv1]

/-- C2: for every channel state (whose wire holds only messages addressed to existing
buffers) and every message whose `senderId` or `receiverId` lies outside
`[0, processesNumber)`, `Send` returns false, does not enqueue the message (the wire is
left as it was, or emptied by the drain when it was at capacity) and leaves
`sendMessagesCount` unchanged. -/
theorem C2_send_invalid_id_fails (env : Env) (message : Message) (channel : Channel) (k : Nat)
    (hr : Routed channel)
    (hid : ¬ ((0 ≤ message.senderId ∧ message.senderId < channel.processesNumber) ∧
      (0 ≤ message.receiverId ∧ message.receiverId < channel.processesNumber))) :
    ∃ channel1 k1, Send env message channel k = Res.ok (false, channel1, k1) ∧
      channel1.gochannel = (if isFull channel then [] else channel.gochannel) ∧
      message ∉ channel1.gochannel.drop channel.gochannel.length ∧
      channel1.sendMessagesCount = channel.sendMessagesCount := by
  have hv : validIds channel message = false := by
    rw [← Bool.not_eq_true, validIds_iff]
    exact hid
  rw [Send_invalid env message channel k hr hv]
  by_cases hf : isFull channel = true
  · simp only [hf, if_true]
    exact ⟨_, _, rfl, rfl, by simp, rfl⟩
  · simp only [hf, if_false]
    exact ⟨_, _, rfl, by simp, by simp, rfl⟩

/-- C2 at a wire that is at capacity and at one that is not, for the sender id 5. -/
theorem C2_witness :
    (∃ channel1 k1, Send tickingEnv strayReport full1 0 = Res.ok (false, channel1, k1) ∧
      channel1.gochannel = (if isFull full1 then [] else full1.gochannel) ∧
      strayReport ∉ channel1.gochannel.drop full1.gochannel.length ∧
      channel1.sendMessagesCount = full1.sendMessagesCount) ∧
    (∃ channel1 k1, Send tickingEnv strayReport fresh1 0 = Res.ok (false, channel1, k1) ∧
      channel1.gochannel = (if isFull fresh1 then [] else fresh1.gochannel) ∧
      strayReport ∉ channel1.gochannel.drop fresh1.gochannel.length ∧
      channel1.sendMessagesCount = fresh1.sendMessagesCount) :=
  ⟨C2_send_invalid_id_fails tickingEnv strayReport full1 0 (by decide) (by decide),
    C2_send_invalid_id_fails tickingEnv strayReport fresh1 0 (by decide) (by decide)⟩

/-- C3 fails: on the one-process channel whose wire is at capacity, the `Send` of a message
with sender id 5 returns false after having drained the wire into buffer 0: the wire and
the buffers are not what they were. -/
theorem C3_counterexample :
    Reachable 1 10 0 full1 ∧
      ¬ (0 ≤ strayReport.senderId ∧ strayReport.senderId < full1.processesNumber) ∧
      Send tickingEnv strayReport full1 0 = Res.ok (false, drained1, 1) ∧
      drained1.gochannel ≠ full1.gochannel ∧
      drained1.messagesBuffer ≠ full1.messagesBuffer :=
  ⟨full1_reachable, by decide, by decide, by decide, by decide⟩

/-- C3, amended: a `Send` that fails because `senderId` or `receiverId` is outside
`[0, processesNumber)` changes none of the three counters.  When the wire is not at
capacity it changes nothing but `lastClient`.  When the wire is at capacity it has first
drained the whole wire into the delivery buffers, each message appended to the buffer of its
receiver with a fresh delivery time, so that the messages in flight are the same. -/
theorem C3_failed_send_effect (env : Env) (message : Message) (channel : Channel) (k : Nat)
    (hr : Routed channel)
    (hid : ¬ ((0 ≤ message.senderId ∧ message.senderId < channel.processesNumber) ∧
      (0 ≤ message.receiverId ∧ message.receiverId < channel.processesNumber))) :
    ∃ channel1 k1, Send env message channel k = Res.ok (false, channel1, k1) ∧
      channel1.sendMessagesCount = channel.sendMessagesCount ∧
      channel1.deliverMessagesCount = channel.deliverMessagesCount ∧
      channel1.nilMessagesCount = channel.nilMessagesCount ∧
      inFlight channel1 = inFlight channel ∧
      (isFull channel = false →
        channel1 = { channel with lastClient := message.senderId } ∧ k1 = k) ∧
      (isFull channel = true →
        channel1 = { channel with
          lastClient := -2
          gochannel := []
          messagesBuffer :=
            depositFrom (stampFrom env channel.mean channel.variance k channel.gochannel) 0
              channel.messagesBuffer } ∧ k1 = k + channel.gochannel.length) := by
  have hv : validIds channel message = false := by
    rw [← Bool.not_eq_true, validIds_iff]
    exact hid
  have he := Send_invalid env message channel k hr hv
  by_cases hf : isFull channel = true
  · simp only [hf, if_true] at he
    obtain ⟨e1, _, e3, e4, e5, _⟩ := Send_conserve he
    refine ⟨_, _, he, ?_, e4, e5, ?_, by simp [hf], fun _ => ⟨rfl, rfl⟩⟩
    · rw [e3]
    · simp at e1
      exact e1
  · simp only [hf, if_false] at he
    exact ⟨_, _, he, rfl, rfl, rfl, rfl, fun _ => ⟨rfl, rfl⟩, fun h => absurd h hf⟩

/-- C3, amended, at a wire that is at capacity. -/
theorem C3_witness :
    ∃ channel1 k1, Send tickingEnv strayReport full1 0 = Res.ok (false, channel1, k1) ∧
      channel1.sendMessagesCount = full1.sendMessagesCount ∧
      channel1.deliverMessagesCount = full1.deliverMessagesCount ∧
      channel1.nilMessagesCount = full1.nilMessagesCount ∧
      inFlight channel1 = inFlight full1 ∧
      (isFull full1 = false →
        channel1 = { full1 with lastClient := strayReport.senderId } ∧ k1 = 0) ∧
      (isFull full1 = true →
        channel1 = { full1 with
          lastClient := -2
          gochannel := []
          messagesBuffer :=
            depositFrom (stampFrom tickingEnv full1.mean full1.variance 0 full1.gochannel) 0
              full1.messagesBuffer } ∧ k1 = 0 + full1.gochannel.length) :=
  C3_failed_send_effect tickingEnv strayReport full1 0 (by decide) (by decide)

end Channel

namespace Channel

/-- The two logs of `BroadcastSend` on a reachable state.  `Send` is called for the
destination ids 0, 1, 2, ... in this order, up to and including the first destination whose
`Send` returns false, and for no destination after it; the error of a destination is built
for that destination and for every one after it.  The result is true exactly when `Send`
was called for every destination id and every call returned true. -/
theorem BroadcastSend_logs (n mean variance : Int) (channel : Channel)
    (h : Reachable n mean variance channel) (env : Env) (message : Message) (k : Nat) :
    ∃ s, BroadcastSend env message channel k = Res.ok s ∧
      ((s.res = true ∧
          s.calls = (List.range n.toNat).map (fun (t : Nat) => ((t : Int), true)) ∧
          s.errors = []) ∨
        (s.res = false ∧ ∃ j, j < n.toNat ∧
          s.calls = (List.range j).map (fun (t : Nat) => ((t : Int), true))
            ++ [((j : Int), false)] ∧
          s.errors
            = (List.range (n.toNat - j)).map (fun (t : Nat) => (j : Int) + (t : Int)))) := by
  obtain ⟨hw, hn⟩ := h.wellFormed
  obtain ⟨s, hs⟩ := broadcastLoop_total env channel.processesNumber.toNat 0
    { res := true, message := message, channel := channel, k := k, calls := [], errors := [] }
    hw
  refine ⟨s, hs, ?_⟩
  have hcalls := broadcastLoop_calls rfl hs
  have herrors := broadcastLoop_errors rfl hs
  simp only [hn, List.nil_append, zero_add, List.length_nil] at hcalls herrors
  rcases hcalls with ⟨hres, hc⟩ | ⟨hres, j, hj, hc⟩
  · left
    rcases herrors with ⟨_, he⟩ | ⟨hres1, _⟩
    · exact ⟨hres, hc, he⟩
    · rw [hres] at hres1
      cases hres1
  · right
    rcases herrors with ⟨hres1, _⟩ | ⟨_, j1, _, hlen, he⟩
    · rw [hres] at hres1
      cases hres1
    · have hjj : j1 = j := by
        rw [hc] at hlen
        simp only [List.length_append, List.length_map, List.length_range,
          List.length_singleton] at hlen
        omega
      subst hjj
      exact ⟨hres, j1, hj, hc, he⟩

/-- C4 fails on the code: on the fresh two-process channel, the broadcast of a message whose
sender id is -1 calls `Send` for destination 0 only, which returns false; for destination 1
the short-circuit `res && channel.Send(message)` does not call `Send`, while the loop, which
has no `break`, goes on to destination 1, overwrites the receiver id with 1 and builds the
error of a failed send to 1, as it did for 0. -/
theorem C4_send_skipped_after_failure :
    NewChannel 2 10 0 = Res.ok fresh2 ∧
      (∀ env k, BroadcastSend env unsetReport fresh2 k =
        Res.ok { res := false, message := { unsetReport with receiverId := 1 },
                 channel := { fresh2 with lastClient := -1 }, k := k,
                 calls := [(0, false)], errors := [0, 1] }) ∧
      (1 : Int) ∉ ([(0, false)] : List (Int × Bool)).map Prod.fst ∧
      (1 : Int) ∈ ([0, 1] : List Int) :=
  ⟨by decide, fun _ _ => rfl, by decide, by decide⟩

/-- C5: for every reachable state and every message `m`, if `BroadcastSend m` returns true
then `sendMessagesCount` has increased by exactly `processesNumber`, and the messages newly
in flight are exactly one copy per receiver id `i` in `0..processesNumber-1`, the copy for
`i` having `receiverId = i` and the other fields of `m`; the caller's message, whose
`receiverId` has been overwritten up to `processesNumber - 1`, shares nothing with the
enqueued copies. -/
theorem C5_broadcast_one_copy_each (n mean variance : Int) (channel : Channel)
    (h : Reachable n mean variance channel) (env : Env) (message : Message) (k : Nat)
    (s : BroadcastState) (hs : BroadcastSend env message channel k = Res.ok s)
    (hres : s.res = true) :
    s.channel.sendMessagesCount = channel.sendMessagesCount + n ∧
      inFlight s.channel = inFlight channel +
        (((List.range n.toNat).map
          (fun (i : Nat) => { message with receiverId := (i : Int) }) : List Message)
            : Multiset Message) ∧
      (0 < n → s.message = { message with receiverId := n - 1 }) := by
  obtain ⟨hw, hn⟩ := h.wellFormed
  have hn0 : 0 ≤ n := hn ▸ hw.nonneg
  unfold BroadcastSend at hs
  rw [hn] at hs
  have hcalls : s.calls = (List.range n.toNat).map (fun (t : Nat) => ((t : Int), true)) := by
    rcases broadcastLoop_calls rfl hs with ⟨_, hc⟩ | ⟨hf, _⟩
    · simpa using hc
    · rw [hres] at hf
      cases hf
  obtain ⟨calls1, hc, hin, _, hcount, _⟩ := broadcastLoop_conserve hs
  simp only [List.nil_append] at hc
  have hcopies : sentCopies message calls1 =
      (List.range n.toNat).map (fun (i : Nat) => { message with receiverId := (i : Int) }) := by
    rw [← hc, hcalls]
    simp [sentCopies, List.filter_map, Function.comp_def]
  refine ⟨?_, ?_, ?_⟩
  · rw [hcount, hcopies]
    simp [Int.toNat_of_nonneg hn0]
  · rw [hin, hcopies]
  · intro hpos
    rw [broadcastLoop_message hs]
    have hne : n.toNat ≠ 0 := by omega
    simp [hne, Int.toNat_of_nonneg hn0]

/-- C5 at the fresh two-process channel, for a broadcast by process 0. -/
theorem C5_witness :
    ∃ s, BroadcastSend tickingEnv report00 fresh2 0 = Res.ok s ∧ s.res = true ∧
      s.channel.sendMessagesCount = fresh2.sendMessagesCount + 2 ∧
      inFlight s.channel = inFlight fresh2 +
        (((List.range (2 : Int).toNat).map
          (fun (i : Nat) => { report00 with receiverId := (i : Int) }) : List Message)
            : Multiset Message) ∧
      ((0 : Int) < 2 → s.message = { report00 with receiverId := 2 - 1 }) :=
  ⟨{ res := true, message := { report00 with receiverId := 1 },
     channel := { fresh2 with
       gochannel := [report00, report01], sendMessagesCount := 2, lastClient := 0 },
     k := 0, calls := [(0, true), (1, true)], errors := [] }, by decide, rfl,
    C5_broadcast_one_copy_each 2 10 0 fresh2 fresh2_reachable tickingEnv report00 0 _
      (by decide) rfl⟩

end Channel

namespace Channel

/-- C8: `MessagesQueue.Pop` inspects only the head.  On an empty queue it returns nil; on a
queue whose head's `deliveryTime` has not yet elapsed it returns nil and leaves the queue
unchanged, whatever the later elements are; when the head's `deliveryTime` has elapsed it
returns the head's message and the queue becomes the former tail; and an envelope that is
returned is the head's, with a delivery time before the clock reading of the call. -/
theorem C8_pop_inspects_head_only (env : Env) (k : Nat) (queue : MessagesQueue) :
    (queue = [] → queue.Pop env k = (none, [], k)) ∧
      (∀ head rest, queue = head :: rest → ¬ head.deliveryTime < env.now k →
        queue.Pop env k = (none, head :: rest, k + 1)) ∧
      (∀ head rest, queue = head :: rest → head.deliveryTime < env.now k →
        queue.Pop env k = (some head.message, rest, k + 1)) ∧
      (∀ message queue1 k1, queue.Pop env k = (some message, queue1, k1) →
        ∃ head, queue = head :: queue1 ∧ head.message = message ∧
          head.deliveryTime < env.now k) := by
  refine ⟨?_, ?_, ?_, ?_⟩
  · intro hq
    subst hq
    simp [MessagesQueue.Pop, IsEmpty_nil]
  · intro head rest hq hnot
    subst hq
    simp [MessagesQueue.Pop, IsEmpty_cons, hnot]
  · intro head rest hq hdue
    subst hq
    simp [MessagesQueue.Pop, IsEmpty_cons, hdue]
  · intro message queue1 k1 hpop
    rcases Pop_cases env queue k with ⟨_, hp⟩ | ⟨x, rest, _, _, hp⟩ | ⟨x, rest, hx, hdue, hp⟩
    · rw [hp] at hpop
      cases hpop
    · rw [hp] at hpop
      cases hpop
    · rw [hp] at hpop
      simp only [Prod.mk.injEq, Option.some.injEq] at hpop
      obtain ⟨rfl, rfl, _⟩ := hpop
      exact ⟨x, hx, rfl, hdue⟩

/-- C8 on a queue whose head is due at 200 and whose second element is due at 50, read at
the clock value 100: nothing is returned and the queue is unchanged. -/
theorem C8_witness :
    MessagesQueue.Pop tickingEnv [⟨report00, 200⟩, ⟨report01, 50⟩] 0
      = (none, [⟨report00, 200⟩, ⟨report01, 50⟩], 1) :=
  (C8_pop_inspects_head_only tickingEnv 0 [⟨report00, 200⟩, ⟨report01, 50⟩]).2.1
    ⟨report00, 200⟩ [⟨report01, 50⟩] rfl (by decide)

/-- C9: for every reachable state and every `p` in `[0, processesNumber)`, `Deliver p`
returns and changes exactly one of the two counters by exactly one: `deliverMessagesCount`
when it returns an envelope, `nilMessagesCount` when it returns nil.  When no message with
`receiverId = p` is in buffer `p` or on the wire, it returns nil and increments
`nilMessagesCount`. -/
theorem C9_deliver_counts_one (n mean variance : Int) (channel : Channel)
    (h : Reachable n mean variance channel) (env : Env) (p : Int) (k : Nat)
    (h0 : 0 ≤ p) (hn : p < n) :
    ∃ res channel1 k1, Deliver env p channel k = Res.ok (res, channel1, k1) ∧
      (res.isSome = true →
        channel1.deliverMessagesCount = channel.deliverMessagesCount + 1 ∧
          channel1.nilMessagesCount = channel.nilMessagesCount) ∧
      (res = none →
        channel1.nilMessagesCount = channel.nilMessagesCount + 1 ∧
          channel1.deliverMessagesCount = channel.deliverMessagesCount) ∧
      ((∀ x ∈ (bufferAt channel.messagesBuffer p).getD [], x.message.receiverId ≠ p) →
        (∀ m ∈ channel.gochannel, m.receiverId ≠ p) →
          res = none ∧ channel1.nilMessagesCount = channel.nilMessagesCount + 1) := by
  obtain ⟨hw, hpn⟩ := h.wellFormed
  obtain ⟨res, channel1, k1, hd⟩ := Deliver_total env p channel k hw h0 (by rw [hpn]; exact hn)
  obtain ⟨_, _, _, e4, e5, _⟩ := Deliver_conserve hd
  refine ⟨res, channel1, k1, hd, ?_, ?_, ?_⟩
  · intro hsome
    rw [e4, e5]
    simp [hsome]
  · intro hnone
    rw [e4, e5]
    simp [hnone]
  · intro hbuf hwire
    have hlen : p < (channel.messagesBuffer.length : Int) := by
      rw [hw.buffers, Int.toNat_of_nonneg hw.nonneg, hpn]
      exact hn
    obtain ⟨q, hq, hget⟩ := bufferAt_of_lt h0 hlen
    have hqnil : q = [] := by
      cases q with
      | nil => rfl
      | cons x rest =>
        exfalso
        have hx := hw.sorted p.toNat _ hget x (List.mem_cons_self _ _)
        rw [Int.toNat_of_nonneg h0] at hx
        rw [hq] at hbuf
        exact hbuf x (List.mem_cons_self _ _) hx
    have hpend : pending p channel = [] := by
      simp only [pending, hq, hqnil, Option.getD_some, List.map_nil, List.nil_append,
        List.filter_eq_nil_iff, decide_eq_true_eq]
      exact hwire
    have hres : res = none := by
      have := (Deliver_pending hw hd).1
      rw [hpend] at this
      cases res with
      | none => rfl
      | some m => simp at this
    refine ⟨hres, ?_⟩
    rw [e5]
    simp [hres]

/-- C9 at the freshly created two-process channel, polled by process 1. -/
theorem C9_witness :
    ∃ res channel1 k1, Deliver tickingEnv 1 fresh2 0 = Res.ok (res, channel1, k1) ∧
      (res.isSome = true →
        channel1.deliverMessagesCount = fresh2.deliverMessagesCount + 1 ∧
          channel1.nilMessagesCount = fresh2.nilMessagesCount) ∧
      (res = none →
        channel1.nilMessagesCount = fresh2.nilMessagesCount + 1 ∧
          channel1.deliverMessagesCount = fresh2.deliverMessagesCount) ∧
      ((∀ x ∈ (bufferAt fresh2.messagesBuffer 1).getD [], x.message.receiverId ≠ 1) →
        (∀ m ∈ fresh2.gochannel, m.receiverId ≠ 1) →
          res = none ∧ channel1.nilMessagesCount = fresh2.nilMessagesCount + 1) :=
  C9_deliver_counts_one 2 10 0 fresh2 fresh2_reachable tickingEnv 1 0 (by decide) (by decide)

end Channel

namespace Channel

/-- C10: `receive targetId` with `targetId` a process id moves off the wire exactly the
shortest initial segment that ends with the first message whose `receiverId` equals
`targetId` (the whole wire if there is none), appends each moved message to the buffer of
its own `receiverId` in wire order and leaves the rest on the wire; `receive (-2)` moves the
entire wire.  Scenario: with two processes, after `Send` to 0, `Send` to 0, `Send` to 1 and
no `Deliver`, the drain triggered by `Deliver 1` leaves two entries in buffer 0 and one in
buffer 1. -/
theorem C10_receive_moves_initial_segment (env : Env) (channel : Channel) (k : Nat)
    (hr : Routed channel) :
    (∀ targetId, 0 ≤ targetId →
      receive env targetId channel k =
          Res.ok ({ channel with
              lastClient := targetId
              gochannel := channel.gochannel.drop (movedPrefix targetId channel.gochannel).length
              messagesBuffer :=
                depositFrom
                  (stampFrom env channel.mean channel.variance k
                    (movedPrefix targetId channel.gochannel)) 0
                  channel.messagesBuffer },
            k + (movedPrefix targetId channel.gochannel).length) ∧
        movedPrefix targetId channel.gochannel
            ++ channel.gochannel.drop (movedPrefix targetId channel.gochannel).length
          = channel.gochannel ∧
        (∀ m ∈ (movedPrefix targetId channel.gochannel).dropLast, m.receiverId ≠ targetId) ∧
        ((∃ m ∈ channel.gochannel, m.receiverId = targetId) →
          ∃ m, (movedPrefix targetId channel.gochannel).getLast? = some m ∧
            m.receiverId = targetId) ∧
        ((∀ m ∈ channel.gochannel, m.receiverId ≠ targetId) →
          movedPrefix targetId channel.gochannel = channel.gochannel)) ∧
      receive env (-2) channel k =
        Res.ok ({ channel with
            lastClient := -2
            gochannel := []
            messagesBuffer :=
              depositFrom (stampFrom env channel.mean channel.variance k channel.gochannel) 0
                channel.messagesBuffer },
          k + channel.gochannel.length) ∧
      (∀ (xs : List MessageDeliveryTime) (i : Nat),
        (depositFrom xs 0 channel.messagesBuffer)[i]? =
          (channel.messagesBuffer[i]?).map
            (fun q => q ++ xs.filter (fun x => decide (x.message.receiverId = (i : Int))))) ∧
      (NewChannel 2 10 0 = Res.ok fresh2 ∧
        ∃ c1 c2, Send env report00 fresh2 k = Res.ok (true, c1, k) ∧
          Send env report00 c1 k = Res.ok (true, c2, k) ∧
          Send env report01 c2 k = Res.ok (true, loaded2, k) ∧
          ∃ c4, receive env 1 { loaded2 with lastClient := 1 } k = Res.ok (c4, k + 3) ∧
            c4.gochannel = [] ∧ c4.messagesBuffer.map List.length = [2, 1] ∧
            ∃ res c5 k5, Deliver env 1 loaded2 k = Res.ok (res, c5, k5) ∧
              c5.messagesBuffer.map List.length = [2, if res.isSome then 0 else 1]) := by
  refine ⟨?_, receiveAll_eq env channel k hr, ?_, by decide, ?_⟩
  · intro targetId h0
    exact ⟨receive_eq env targetId channel k (by omega) hr,
      movedPrefix_append_drop _ _, movedPrefix_dropLast _ _, movedPrefix_getLast _ _,
      movedPrefix_eq_self _ _⟩
  · intro xs i
    rw [getElem?_depositFrom, Nat.zero_add]
  · refine ⟨_, _, rfl, rfl, rfl, _, rfl, rfl, rfl, ?_⟩
    by_cases hdue : generateDeliveryTime env 10 0 (k + 2) < env.now (k + 3)
    · refine ⟨some report01,
        { loaded2 with
          lastClient := 1
          gochannel := []
          messagesBuffer :=
            [[⟨report00, generateDeliveryTime env 10 0 k⟩,
              ⟨report00, generateDeliveryTime env 10 0 (k + 1)⟩], []]
          deliverMessagesCount := 1 }, k + 4, ?_, rfl⟩
      simp [Deliver, bufferAt, loaded2, fresh2, receive, receiveLoop, addAt, IsEmpty_nil,
        MessagesQueue.Add, MessagesQueue.Pop, IsEmpty_cons, newMessageDeliveryTime,
        Message.GetReceiver, report00, report01, NewMessage, hdue]
    · refine ⟨none,
        { loaded2 with
          lastClient := 1
          gochannel := []
          messagesBuffer :=
            [[⟨report00, generateDeliveryTime env 10 0 k⟩,
              ⟨report00, generateDeliveryTime env 10 0 (k + 1)⟩],
             [⟨report01, generateDeliveryTime env 10 0 (k + 2)⟩]]
          nilMessagesCount := 1 }, k + 4, ?_, rfl⟩
      simp [Deliver, bufferAt, loaded2, fresh2, receive, receiveLoop, addAt, IsEmpty_nil,
        MessagesQueue.Add, MessagesQueue.Pop, IsEmpty_cons, newMessageDeliveryTime,
        Message.GetReceiver, report00, report01, NewMessage, hdue]

/-- C10 at the two-process channel whose wire holds two messages for 0 and one for 1. -/
theorem C10_witness :
    receive tickingEnv 1 loaded2 0 =
      Res.ok ({ loaded2 with
          lastClient := 1
          gochannel := []
          messagesBuffer :=
            [[⟨report00, 10000100⟩, ⟨report00, 10000101⟩], [⟨report01, 10000102⟩]] }, 3) :=
  ((C10_receive_moves_initial_segment tickingEnv loaded2 0 (by decide)).1 1 (by decide)).1.trans
    (by decide)

end Channel

namespace Channel

theorem posted2_reachable : Reachable 2 10 0 posted2 :=
  Reachable.send tickingEnv report01 fresh2 0 true posted2 0 fresh2_reachable (by decide)

theorem drained1_reachable : Reachable 1 10 0 drained1 :=
  Reachable.send tickingEnv strayReport full1 0 false drained1 1 full1_reachable (by decide)

/-- The bound of four polls is reached on the one-process channel with one message in the
buffer and one on the wire: the first and third polls return nothing. -/
theorem polls_reposted1 :
    polls spacedEnvs 0 4 0 reposted1
      = Res.ok ([none, some report00, none, some report00],
          { fresh1 with
            sendMessagesCount := 2, deliverMessagesCount := 2, nilMessagesCount := 2,
            lastClient := 0 }) := by
  decide

/-- C6: after a successful `Send m` (so with sender and receiver ids in
`[0, processesNumber)`), when only calls `Deliver m.receiverId` follow, the clock does not go
back, every assigned delay (the 64-bit `delay` of `generateDeliveryTime`, for the `mean` and
`variance` of the channel) is at most `D` and every clock reading of a poll is more than `D`
after every reading of the poll before it, one of the first `2 * (j + 1)` polls returns `m`,
where `j` is the number of messages pending for that receiver ahead of `m`; the polls before
it return exactly those `j` messages, in order. -/
theorem C6_send_then_polls_deliver (n mean variance : Int) (channel : Channel)
    (hr : Reachable n mean variance channel) (env : Env) (k : Nat) (message : Message)
    (channel1 : Channel) (k1 : Nat)
    (hsend : Send env message channel k = Res.ok (true, channel1, k1))
    (envs : Nat → Env) (D : Int)
    (hmono : ∀ i s t, (envs i).now s ≤ (envs (i + 1)).now t)
    (hdelay : ∀ i t, delayAt (envs i) mean variance t ≤ D)
    (hold : ∀ x ∈ bufferOf message.receiverId channel1, x.deliveryTime ≤ (envs 0).now 0 + D)
    (hspace : ∀ i s t, (envs i).now s + D < (envs (i + 1)).now t) :
    ((0 ≤ message.senderId ∧ message.senderId < n) ∧
        (0 ≤ message.receiverId ∧ message.receiverId < n)) ∧
      ∃ count rs channel2,
        count ≤ 2 * ((pending message.receiverId channel).length + 1) ∧
        count = rs.length + 1 ∧
        polls envs message.receiverId count 0 channel1 = Res.ok (rs ++ [some message], channel2) ∧
        (rs ++ [some message]).filterMap id = pending message.receiverId channel ++ [message] := by
  obtain ⟨hw, hpn⟩ := hr.wellFormed
  obtain ⟨hmean, hvar⟩ := hr.params
  obtain ⟨hmean1, hvar1⟩ := Send_params hsend
  rw [hmean] at hmean1
  rw [hvar] at hvar1
  have hw1 := Send_wellFormed hw hsend
  have hpn1 : channel1.processesNumber = channel.processesNumber :=
    (Send_conserve hsend).2.2.2.2.2.1
  obtain ⟨channel0, _, hcase⟩ := Send_ok hsend
  rcases hcase with ⟨hfalse, _⟩ | ⟨_, _, hvalid, _, hch1⟩
  · cases hfalse
  have hpn0 : channel0.processesNumber = channel.processesNumber := by
    rw [← hpn1, hch1]
  have hids := (validIds_iff channel0 message).mp hvalid
  rw [hpn0, hpn] at hids
  refine ⟨hids, ?_⟩
  obtain ⟨h0, hn⟩ := hids.2
  have hpend1 : pending message.receiverId channel1
      = pending message.receiverId channel ++ [message] := by
    rw [Send_pending hw hsend _ h0 (by rw [hpn]; exact hn)]
    simp [sentTo]
  have hwire : 1 ≤ (channel1.gochannel.filter
      (fun m => decide (m.receiverId = message.receiverId))).length := by
    rw [hch1]
    simp [List.filter_append]
  have hlen : (pending message.receiverId channel).length + 1
      = (bufferOf message.receiverId channel1).length
        + (channel1.gochannel.filter
          (fun m => decide (m.receiverId = message.receiverId))).length := by
    have := congrArg List.length hpend1
    rw [pending_eq] at this
    simp only [List.length_append, List.length_map, List.length_singleton] at this
    omega
  obtain ⟨res, channel2, k2, hd, hw2, hpn2, hp2, hstamp, hle, hdrain, _⟩ :=
    Deliver_step (envs 0) message.receiverId channel1 0 hw1 h0 (by rw [hpn1, hpn]; exact hn)
  have hdue2 : ∀ x ∈ bufferOf message.receiverId channel2, ∀ t,
      x.deliveryTime < (envs (0 + 1)).now t := by
    intro x hx t
    rcases hstamp x hx with hx1 | ⟨s, hs⟩
    · have h1 := hold x hx1
      have h2 := hspace 0 0 t
      omega
    · have h1 := hdelay 0 s
      have h2 := hspace 0 s t
      simp only [generateDeliveryTime, hmean1, hvar1] at hs
      omega
  rw [hpend1] at hp2
  by_cases hnil : pending message.receiverId channel2 = []
  · rw [hnil, List.append_nil] at hp2
    cases res with
    | none => simp at hp2
    | some a =>
      simp only [Option.toList_some] at hp2
      have hpre : pending message.receiverId channel = [] ∧ message = a := by
        cases hpre : pending message.receiverId channel with
        | nil =>
          rw [hpre] at hp2
          simpa using hp2
        | cons b pre1 =>
          rw [hpre] at hp2
          simp only [List.cons_append, List.cons.injEq] at hp2
          have := hp2.2
          simp at this
      obtain ⟨hpre, rfl⟩ := hpre
      refine ⟨1, [], channel2, by omega, rfl, by simp [polls, hd], ?_⟩
      rw [hpre]
      rfl
  · have hnext : ∃ pre1, pending message.receiverId channel = res.toList ++ pre1 ∧
        pending message.receiverId channel2 = pre1 ++ [message] := by
      cases res with
      | none =>
        exact ⟨pending message.receiverId channel, by simp, by simpa using hp2.symm⟩
      | some a =>
        simp only [Option.toList_some, List.singleton_append] at hp2
        obtain ⟨pre1, h1, h2⟩ := concat_of_cons_eq hp2.symm hnil
        exact ⟨pre1, by simpa using h1, h2⟩
    obtain ⟨pre1, hpre, hpend2⟩ := hnext
    obtain ⟨count, rs, channel3, hcount, hpolls, hfm⟩ :=
      polls_drain envs mean variance message.receiverId D hmono hdelay hspace
        (backlog message.receiverId channel2) (0 + 1) channel2 pre1 message
        ((Deliver_params hd).1.trans hmean1) ((Deliver_params hd).2.trans hvar1) hw2 h0
        (by rw [hpn2, hpn1, hpn]; exact hn) hdue2 hpend2 (le_refl _)
    have hplen := polls_length hpolls
    refine ⟨count + 1, res :: rs, channel3, ?_, ?_, ?_, ?_⟩
    · have hback : backlog message.receiverId channel1
          = 2 * (channel1.gochannel.filter
              (fun m => decide (m.receiverId = message.receiverId))).length
            + (bufferOf message.receiverId channel1).length := rfl
      cases hb : bufferOf message.receiverId channel1 with
      | nil =>
        have hlt := hdrain hb (by rw [hpend1]; simp)
        rw [hb] at hback hlen
        simp only [List.length_nil] at hback hlen
        omega
      | cons x rest =>
        rw [hb] at hback hlen
        simp only [List.length_cons] at hback hlen
        omega
    · simp only [List.length_append, List.length_singleton] at hplen
      simp only [List.length_cons]
      omega
    · exact polls_succ envs message.receiverId count 0 channel1 channel2 res k2 _ channel3 hd
        hpolls
    · rw [hpre, List.cons_append, List.filterMap_cons, List.append_assoc, ← hfm]
      cases res <;> simp

/-- C6 on the one-process channel with mean 10 and variance 0, one message being already
in buffer 0: the message sent next is returned within four polls made 20 ms apart, every
delay being 10 ms. -/
theorem C6_witness :
    ((0 ≤ report00.senderId ∧ report00.senderId < 1) ∧
        (0 ≤ report00.receiverId ∧ report00.receiverId < 1)) ∧
      ∃ count rs channel2,
        count ≤ 2 * ((pending report00.receiverId drained1).length + 1) ∧
        count = rs.length + 1 ∧
        polls spacedEnvs report00.receiverId count 0 reposted1
          = Res.ok (rs ++ [some report00], channel2) ∧
        (rs ++ [some report00]).filterMap id
          = pending report00.receiverId drained1 ++ [report00] :=
  C6_send_then_polls_deliver 1 10 0 drained1 drained1_reachable tickingEnv 0 report00 reposted1
    0 (by decide) spacedEnvs 10000000
    (by intro i s t; simp only [spacedEnvs]; push_cast; omega)
    (by intro i t; rw [delayAt_exact _ 10 t (by decide) (by decide)]; decide)
    (by
      intro x hx
      have hb : bufferOf report00.receiverId reposted1 = [⟨report00, 10000100⟩] := by decide
      rw [hb, List.mem_singleton] at hx
      subst hx
      decide)
    (by intro i s t; simp only [spacedEnvs]; push_cast; omega)

/-- C7: per-destination FIFO.  In every sequential run from a fresh channel and for every
process id `p`, the envelopes returned by `Deliver p` form, in order, an initial segment of
the successfully sent messages with `receiverId = p` taken in send order, whatever delivery
times are assigned; the messages sent to `p` and not yet returned are exactly those still
pending for `p`, in send order, so none is reordered, skipped or returned twice. -/
theorem C7_per_destination_fifo (n mean variance : Int) (channel : Channel)
    (sent : List Message) (got : List (Int × Message))
    (h : Run n mean variance channel sent got) (p : Int) :
    returnedTo p got <+: sentTo p sent ∧
      (0 ≤ p → p < n → returnedTo p got ++ pending p channel = sentTo p sent) := by
  obtain ⟨_, hgot, hord⟩ := h.order
  refine ⟨?_, hord p⟩
  by_cases hp : 0 ≤ p ∧ p < n
  · exact ⟨pending p channel, hord p hp.1 hp.2⟩
  · have hnone : returnedTo p got = [] := by
      simp only [returnedTo, List.map_eq_nil_iff, List.filter_eq_nil_iff, decide_eq_true_eq]
      intro e he hep
      exact hp (hep ▸ hgot e he)
    rw [hnone]
    exact List.nil_prefix

/-- C7 on the run `Send report01`, `Deliver 1` of the two-process channel, the clock
having advanced by 20 ms, more than the delay of 10 ms, between the drain and the `Pop`. -/
theorem C7_witness :
    returnedTo 1 [(1, report01)] <+: sentTo 1 [report01] ∧
      ((0 : Int) ≤ 1 → (1 : Int) < 2 →
        returnedTo 1 [(1, report01)] ++ pending 1 polled2 = sentTo 1 [report01]) :=
  C7_per_destination_fifo 2 10 0 polled2 [report01] [(1, report01)]
    (Run.deliver leapingEnv 1 posted2 0 (some report01) polled2 2 [report01] []
      (Run.send tickingEnv report01 fresh2 0 true posted2 0 [] []
        (Run.init fresh2 (by decide)) (by decide))
      (by decide) (by decide) (by decide)) 1

end Channel

namespace Channel

/-- A poll on a routed state by an index of a buffer returns, after at most one clock reading
per message on the wire and one more for the `Pop`. -/
theorem Deliver_returns (env : Env) (p : Int) (channel : Channel) (k : Nat)
    (hr : Routed channel) (h0 : 0 ≤ p) (hn : p < channel.messagesBuffer.length) :
    ∃ res channel1 k1, Deliver env p channel k = Res.ok (res, channel1, k1) ∧
      k1 ≤ k + channel.gochannel.length + 1 := by
  obtain ⟨queue, hq, _⟩ := bufferAt_of_lt h0 hn
  have hr1 : Routed { channel with lastClient := p } := hr
  have hdrain : ∃ channel2 moved,
      (if queue.IsEmpty then receive env p { channel with lastClient := p } k
        else Res.ok ({ channel with lastClient := p }, k))
        = Res.ok (channel2, k + moved) ∧ moved ≤ channel.gochannel.length ∧
          channel2.messagesBuffer.length = channel.messagesBuffer.length := by
    by_cases hf : queue.IsEmpty = true
    · rw [if_pos hf]
      obtain ⟨channel2, moved, he, hle, _, hlen⟩ :=
        receive_total env p { channel with lastClient := p } k hr1
      exact ⟨channel2, moved, he, hle, hlen⟩
    · rw [if_neg hf]
      exact ⟨_, 0, rfl, Nat.zero_le _, rfl⟩
  obtain ⟨channel2, moved, he, hle, hlen2⟩ := hdrain
  obtain ⟨queue2, hq2, _⟩ := bufferAt_of_lt h0 (by rw [hlen2]; exact hn)
  unfold Deliver
  simp only [hq, he, hq2]
  rcases Pop_cases env queue2 (k + moved) with ⟨_, hp⟩ | ⟨x, rest, _, _, hp⟩ | ⟨x, rest, _, _, hp⟩
  · rw [hp]
    exact ⟨_, _, _, rfl, by omega⟩
  · rw [hp]
    exact ⟨_, _, _, rfl, by omega⟩
  · rw [hp]
    exact ⟨_, _, _, rfl, by omega⟩

/-- C13: `Deliver` always terminates.  On every state whose wire messages are addressed to
existing buffers, the drain loop run by `receive` with any id (a process id, -2 or any
other) returns after a number of iterations (one clock reading each) that is at most the
number of messages on the wire at entry, each iteration having removed exactly one message
from the wire; and `Deliver p` returns for every index `p` of a buffer, after at most that
many readings plus the one of `Pop`. -/
theorem C13_drain_terminates (env : Env) (channel : Channel) (k : Nat) (hr : Routed channel) :
    (∀ id, ∃ channel1 iterations,
      receive env id channel k = Res.ok (channel1, k + iterations) ∧
        iterations ≤ channel.gochannel.length ∧
        channel1.gochannel.length + iterations = channel.gochannel.length) ∧
      (∀ p, 0 ≤ p → p < (channel.messagesBuffer.length : Int) →
        ∃ res channel1 k1, Deliver env p channel k = Res.ok (res, channel1, k1) ∧
          k1 ≤ k + channel.gochannel.length + 1) := by
  constructor
  · intro id
    obtain ⟨channel1, moved, he, hle, hlen, _⟩ := receive_total env id channel k hr
    exact ⟨channel1, moved, he, hle, hlen⟩
  · intro p h0 hn
    exact Deliver_returns env p channel k hr h0 hn

/-- C13 on the two-process channel whose wire holds three messages. -/
theorem C13_witness :
    (∀ id, ∃ channel1 iterations,
      receive tickingEnv id loaded2 0 = Res.ok (channel1, 0 + iterations) ∧
        iterations ≤ loaded2.gochannel.length ∧
        channel1.gochannel.length + iterations = loaded2.gochannel.length) ∧
      (∀ p, 0 ≤ p → p < (loaded2.messagesBuffer.length : Int) →
        ∃ res channel1 k1, Deliver tickingEnv p loaded2 0 = Res.ok (res, channel1, k1) ∧
          k1 ≤ 0 + loaded2.gochannel.length + 1) :=
  C13_drain_terminates tickingEnv loaded2 0 (by decide)

/-- C17: `Deliver` drains only when the caller's buffer is empty.  In every state in which
buffer `p` is not empty, `Deliver p` returns after the single clock reading of `Pop`, leaves
the wire and every buffer other than `p` unchanged, and leaves buffer `p` unchanged (when it
returns nil) or without its head (when it returns the head's message). -/
theorem C17_deliver_nonempty_buffer (env : Env) (p : Int) (channel : Channel) (k : Nat)
    (head : MessageDeliveryTime) (rest : MessagesQueue)
    (h : bufferAt channel.messagesBuffer p = some (head :: rest)) :
    ∃ res channel1, Deliver env p channel k = Res.ok (res, channel1, k + 1) ∧
      channel1.gochannel = channel.gochannel ∧
      (∀ i : Nat, i ≠ p.toNat → channel1.messagesBuffer[i]? = channel.messagesBuffer[i]?) ∧
      ((res = none ∧ bufferAt channel1.messagesBuffer p = some (head :: rest)) ∨
        (res = some head.message ∧ bufferAt channel1.messagesBuffer p = some rest)) := by
  have h1 : bufferAt ({ channel with lastClient := p }).messagesBuffer p
      = some (head :: rest) := h
  unfold Deliver
  simp only [h1, IsEmpty_cons, Bool.false_eq_true, if_false]
  by_cases hdue : head.deliveryTime < env.now k
  · have hp : MessagesQueue.Pop env (head :: rest) k = (some head.message, rest, k + 1) := by
      simp [MessagesQueue.Pop, IsEmpty_cons, hdue]
    rw [hp]
    refine ⟨_, _, rfl, rfl, ?_, Or.inr ⟨rfl, bufferAt_set_self _ _ _ rest h⟩⟩
    intro i hi
    simp only [List.getElem?_set]
    rw [if_neg (fun hh => hi hh.symm)]
  · have hp : MessagesQueue.Pop env (head :: rest) k = (none, head :: rest, k + 1) := by
      simp [MessagesQueue.Pop, IsEmpty_cons, hdue]
    rw [hp]
    refine ⟨_, _, rfl, rfl, ?_, Or.inl ⟨rfl, bufferAt_set_self _ _ _ (head :: rest) h⟩⟩
    intro i hi
    simp only [List.getElem?_set]
    rw [if_neg (fun hh => hi hh.symm)]

/-- C17 on the one-process channel with one message in buffer 0 and one on the wire. -/
theorem C17_witness :
    ∃ res channel1, Deliver tickingEnv 0 reposted1 0 = Res.ok (res, channel1, 0 + 1) ∧
      channel1.gochannel = reposted1.gochannel ∧
      (∀ i : Nat, i ≠ (0 : Int).toNat →
        channel1.messagesBuffer[i]? = reposted1.messagesBuffer[i]?) ∧
      ((res = none ∧
          bufferAt channel1.messagesBuffer 0 = some ((⟨report00, 10000100⟩ : MessageDeliveryTime) :: [])) ∨
        (res = some (⟨report00, 10000100⟩ : MessageDeliveryTime).message ∧
          bufferAt channel1.messagesBuffer 0 = some [])) :=
  C17_deliver_nonempty_buffer tickingEnv 0 reposted1 0 ⟨report00, 10000100⟩ [] (by decide)

/-- C19: routing invariant.  In every state reachable from `NewChannel n ..`, every message
on the wire has `receiverId` in `[0, n)`, there are `n` buffers and every message held in
buffer `i` has `receiverId = i`; hence the drain `receive` never indexes a buffer out of
range (it returns, whatever its argument), and every envelope returned by `Deliver p` has
`receiverId = p`. -/
theorem C19_routing_invariant (n mean variance : Int) (channel : Channel)
    (h : Reachable n mean variance channel) :
    (∀ m ∈ channel.gochannel, 0 ≤ m.receiverId ∧ m.receiverId < n) ∧
      (channel.messagesBuffer.length : Int) = n ∧
      (∀ (i : Nat) (q : MessagesQueue), channel.messagesBuffer[i]? = some q →
        ∀ x ∈ q, x.message.receiverId = (i : Int)) ∧
      (∀ env id k, ∃ channel1 k1, receive env id channel k = Res.ok (channel1, k1)) ∧
      (∀ env p k m channel1 k1,
        Deliver env p channel k = Res.ok (some m, channel1, k1) → m.receiverId = p) := by
  obtain ⟨hw, hpn⟩ := h.wellFormed
  refine ⟨?_, ?_, hw.sorted, ?_, ?_⟩
  · intro m hm
    rw [← hpn]
    exact hw.wire m hm
  · rw [hw.buffers, Int.toNat_of_nonneg hw.nonneg, hpn]
  · intro env id k
    obtain ⟨channel1, moved, he, _⟩ := receive_total env id channel k hw.routed
    exact ⟨channel1, _, he⟩
  · intro env p k m channel1 k1 hd
    have hpend := (Deliver_pending hw hd).1
    have hmem : m ∈ pending p channel := by
      rw [hpend]
      simp
    obtain ⟨queue, _, _, _, _, hq, _⟩ := Deliver_ok hd
    obtain ⟨h0, hget⟩ := bufferAt_eq_some hq
    simp only [pending, hq, Option.getD_some, List.mem_append, List.mem_map, List.mem_filter,
      decide_eq_true_eq] at hmem
    rcases hmem with ⟨x, hx, rfl⟩ | ⟨_, hm⟩
    · rw [hw.sorted _ _ hget x hx, Int.toNat_of_nonneg h0]
    · exact hm

/-- C19 on the two-process channel whose wire holds three messages. -/
theorem C19_witness :
    (∀ m ∈ loaded2.gochannel, 0 ≤ m.receiverId ∧ m.receiverId < 2) ∧
      (loaded2.messagesBuffer.length : Int) = 2 ∧
      (∀ (i : Nat) (q : MessagesQueue), loaded2.messagesBuffer[i]? = some q →
        ∀ x ∈ q, x.message.receiverId = (i : Int)) ∧
      (∀ env id k, ∃ channel1 k1, receive env id loaded2 k = Res.ok (channel1, k1)) ∧
      (∀ env p k m channel1 k1,
        Deliver env p loaded2 k = Res.ok (some m, channel1, k1) → m.receiverId = p) :=
  C19_routing_invariant 2 10 0 loaded2 loaded2_reachable

end Channel

namespace Channel

/-- C11 fails for `n = 3000000` and for `n = 2^32`.  For `n = 3000000` the wire of `n * n`
messages of 40 bytes exceeds the largest buffer that `make` allocates, and `NewChannel`
panics: there is no channel.  For `n = 2^32` the product `n * n` computed by `NewChannel`
wraps to 0, the wire of the channel has capacity 0, not `n * n`, and no `Send` on it ever
returns true. -/
theorem C11_counterexample :
    ((1 : Int) ≤ threeMillion ∧
        NewChannel threeMillion 10 0 = Res.fault Fault.chanSizeOutOfRange) ∧
      (1 : Int) ≤ twoPow32 ∧ NewChannel twoPow32 10 0 = Res.ok wide ∧ wide.capacity = 0 ∧
      wide.capacity ≠ twoPow32 * twoPow32 ∧
      ∀ env message k, ∃ channel1,
        Send env message wide k = Res.ok (false, channel1, k) :=
  ⟨⟨by decide, NewChannel_fault threeMillion 10 0 (by decide)⟩, by decide, wide_new, rfl,
    by decide, fun env message k => ⟨_, Send_capacity_zero env message wide k rfl rfl⟩⟩

/-- C11, amended: for every `n ≥ 1` for which a wire of `n * n` messages is within the
largest buffer that `make` allocates (`40 * n * n ≤ 2^48 - 96`, that is `n ≤ 2652710`),
`NewChannel n ..` returns a channel whose wire has capacity exactly `n * n`.  Any `n * n`
messages with valid ids sent on the fresh channel with no intervening `Deliver` are all
accepted; the wire then holds these `n * n` messages, in order, every buffer is empty and
the wire is at capacity.  One more `Send` with valid ids then runs a full drain (one
delivery time per drained message) and returns true, after which the wire holds exactly the
new message and the buffers together hold the `n * n` earlier messages. -/
theorem C11_capacity_is_square (n mean variance : Int) (h1 : 1 ≤ n)
    (hsize : messageSize * (n * n) ≤ maxAlloc - hchanSize)
    (env : Env) (msgs : List Message) (k : Nat) (hlen : (msgs.length : Int) = n * n)
    (hvalid : ∀ m ∈ msgs,
      (0 ≤ m.senderId ∧ m.senderId < n) ∧ (0 ≤ m.receiverId ∧ m.receiverId < n)) :
    ∃ channel0 channel1,
      NewChannel n mean variance = Res.ok channel0 ∧ channel0.capacity = n * n ∧
      sendAll env msgs channel0 k = Res.ok (List.replicate msgs.length true, channel1, k) ∧
      channel1.gochannel = msgs ∧ (∀ q ∈ channel1.messagesBuffer, q = []) ∧
      isFull channel1 = true ∧
      ∀ env1 message k1,
        (0 ≤ message.senderId ∧ message.senderId < n) ∧
          (0 ≤ message.receiverId ∧ message.receiverId < n) →
        ∃ channel2,
          Send env1 message channel1 k1 = Res.ok (true, channel2, k1 + msgs.length) ∧
          channel2.gochannel = [message] ∧
          channel2.messagesBuffer
            = depositFrom (stampFrom env1 mean variance k1 msgs) 0 channel1.messagesBuffer ∧
          (buffered channel2.messagesBuffer : Multiset Message) = (msgs : Multiset Message) := by
  have hn0 : 0 ≤ n := by omega
  have hsq0 : 0 ≤ n * n := mul_self_nonneg n
  have hnsq : n ≤ n * n := by nlinarith
  have hsize1 : 40 * (n * n) ≤ 2 ^ 48 - 96 := hsize
  have hsq : n * n < 2 ^ 63 := by
    norm_num at hsize1 ⊢
    omega
  have hw64 : wrap64 (n * n) = n * n := wrap64_eq _ hsq0 hsq
  have hqueue : queueSize * n ≤ maxAlloc := by
    show 32 * n ≤ 2 ^ 48
    norm_num at hsize1 ⊢
    omega
  have hnew := NewChannel_eq n mean variance hn0 (by rw [hw64]; exact hsq0)
    (by rw [hw64]; exact hsize) hqueue
  obtain ⟨hw0, hpn0⟩ := NewChannel_wellFormed hnew
  have hcap0 : ((List.length ([] : List Message) + msgs.length : Nat) : Int) ≤ wrap64 (n * n) := by
    rw [hw64, ← hlen]
    simp
  obtain ⟨channel1, hsends⟩ := sendAll_valid env msgs _ k hw0 hcap0
    (fun m hm => (validIds_iff _ m).mpr (hvalid m hm))
  obtain ⟨e1, e2, _, e4, e5, _, _⟩ := sendAll_fill env msgs _ k _ channel1 k hcap0 hsends
    (fun b hb => List.eq_of_mem_replicate hb)
  simp only [List.nil_append] at e1 e2 e4 e5
  have hr1 : Reachable n mean variance channel1 := by
    have hgen : ∀ (l : List Message) (c : Channel) (j : Nat) (bs : List Bool) (c1 : Channel)
        (j1 : Nat), Reachable n mean variance c →
        sendAll env l c j = Res.ok (bs, c1, j1) → Reachable n mean variance c1 := by
      intro l
      induction l with
      | nil =>
        intro c j bs c1 j1 hc h
        simp only [sendAll, Res.ok.injEq, Prod.mk.injEq] at h
        obtain ⟨_, rfl, _⟩ := h
        exact hc
      | cons m rest ih =>
        intro c j bs c1 j1 hc h
        simp only [sendAll] at h
        split at h
        · cases h
        · rename_i b c2 j2 hsend
          split at h
          · cases h
          · rename_i bs1 c3 j3 hrest
            simp only [Res.ok.injEq, Prod.mk.injEq] at h
            obtain ⟨_, rfl, _⟩ := h
            exact ih _ _ _ _ _ (Reachable.send env m c j b c2 j2 hc hsend) hrest
    exact hgen msgs _ k _ channel1 k (Reachable.init _ hnew) hsends
  obtain ⟨hw1, hpn1⟩ := hr1.wellFormed
  have hfull : isFull channel1 = true := by
    simp only [isFull, beq_iff_eq]
    rw [e1, e4, hw64, hlen]
  have hempty : ∀ q ∈ channel1.messagesBuffer, q = [] := by
    intro q hq
    rw [e2] at hq
    exact List.eq_of_mem_replicate hq
  refine ⟨_, channel1, hnew, hw64, hsends, e1, hempty, hfull, ?_⟩
  intro env1 message k1 hids
  have hcpos : 0 < channel1.capacity := by
    rw [e4, hw64]
    nlinarith
  have hsend := Send_valid env1 message channel1 k1 hw1.routed hw1.bounded hcpos
    ((validIds_iff _ _).mpr (by rw [hpn1]; exact hids))
  simp only [hfull, if_true, e1] at hsend
  obtain ⟨hmean1, hvar1⟩ := hr1.params
  refine ⟨_, hsend, rfl, by rw [← hmean1, ← hvar1], ?_⟩
  have hcons := (Send_conserve hsend).1
  simp only [inFlight, if_true, e1, e2, buffered_replicate, Multiset.coe_nil, add_zero] at hcons
  have hcomm : ((msgs : Multiset Message) + {message})
      = (([message] : List Message) : Multiset Message) + (msgs : Multiset Message) := by
    rw [add_comm, Multiset.coe_singleton]
  rw [hcomm] at hcons
  show (buffered (depositFrom (stampFrom env1 channel1.mean channel1.variance k1 msgs) 0
    channel1.messagesBuffer) : Multiset Message) = (msgs : Multiset Message)
  rw [e2]
  exact add_left_cancel hcons

/-- C11, amended, on the two-process channel: four messages fill the wire, the next `Send`
drains them. -/
theorem C11_witness :
    ∃ channel0 channel1,
      NewChannel 2 10 0 = Res.ok channel0 ∧ channel0.capacity = 2 * 2 ∧
      sendAll tickingEnv [report00, report01, report01, report00] channel0 0
        = Res.ok (List.replicate [report00, report01, report01, report00].length true,
            channel1, 0) ∧
      channel1.gochannel = [report00, report01, report01, report00] ∧
      (∀ q ∈ channel1.messagesBuffer, q = []) ∧
      isFull channel1 = true ∧
      ∀ env1 message k1,
        (0 ≤ message.senderId ∧ message.senderId < 2) ∧
          (0 ≤ message.receiverId ∧ message.receiverId < 2) →
        ∃ channel2,
          Send env1 message channel1 k1
            = Res.ok (true, channel2,
                k1 + [report00, report01, report01, report00].length) ∧
          channel2.gochannel = [message] ∧
          channel2.messagesBuffer
            = depositFrom
                (stampFrom env1 10 0 k1 [report00, report01, report01, report00]) 0
                channel1.messagesBuffer ∧
          (buffered channel2.messagesBuffer : Multiset Message)
            = (([report00, report01, report01, report00] : List Message)
                : Multiset Message) :=
  C11_capacity_is_square 2 10 0 (by decide) (by decide) tickingEnv
    [report00, report01, report01, report00] 0 (by decide) (by decide)

end Channel

namespace Channel

/-- C18 fails for `n = 2^32`: the channel returned by `NewChannel` has capacity 0, so that a
`Send` whose sender and receiver ids are both the process id 0 returns false. -/
theorem C18_counterexample :
    Reachable twoPow32 10 0 wide ∧
      ((0 ≤ report00.senderId ∧ report00.senderId < twoPow32) ∧
        (0 ≤ report00.receiverId ∧ report00.receiverId < twoPow32)) ∧
      Send tickingEnv report00 wide 0 = Res.ok (false, { wide with lastClient := -2 }, 0) :=
  ⟨wide_reachable, by decide, Send_capacity_zero tickingEnv report00 wide 0 rfl rfl⟩

/-- C18, amended: for every number of processes `0 ≤ n < 2^32` and every state reachable
from `NewChannel n ..`, `Send m` returns, and returns true if and only if
`0 ≤ m.senderId < n` and `0 ≤ m.receiverId < n`: in sequential execution the full-channel
failure is not reached for valid input.  When it returns true, the message has been appended
at the tail of the wire (emptied first by the full drain if it was at capacity) and
`sendMessagesCount` has increased by exactly 1. -/
theorem C18_send_true_iff_valid (n mean variance : Int) (channel : Channel)
    (h : Reachable n mean variance channel) (hn : n < 2 ^ 32) (env : Env) (message : Message)
    (k : Nat) :
    ∃ b channel1 k1, Send env message channel k = Res.ok (b, channel1, k1) ∧
      (b = true ↔
        (0 ≤ message.senderId ∧ message.senderId < n) ∧
          (0 ≤ message.receiverId ∧ message.receiverId < n)) ∧
      (b = true →
        channel1.gochannel = (if isFull channel then [] else channel.gochannel) ++ [message] ∧
          channel1.sendMessagesCount = channel.sendMessagesCount + 1) := by
  obtain ⟨hw, hpn⟩ := h.wellFormed
  have hcap := h.capacity
  by_cases hv : validIds channel message = true
  · have hids := (validIds_iff channel message).mp hv
    rw [hpn] at hids
    have hpos : 0 < n := by omega
    have hc : 0 < channel.capacity := by
      have h1 := wrap64_ne_zero n hpos hn
      have h2 := hw.bounded
      rw [hcap] at h2 ⊢
      omega
    have hsend := Send_valid env message channel k hw.routed hw.bounded hc hv
    by_cases hf : isFull channel = true
    · simp only [hf, if_true] at hsend ⊢
      exact ⟨true, _, _, hsend, by simp [hids], fun _ => ⟨rfl, rfl⟩⟩
    · simp only [hf, if_false] at hsend ⊢
      exact ⟨true, _, _, hsend, by simp [hids], fun _ => ⟨rfl, rfl⟩⟩
  · obtain ⟨b, channel1, k1, hsend⟩ := Send_total env message channel k hw
    have hb : b = false := by
      cases b with
      | false => rfl
      | true => exact absurd (Send_true_valid hsend) hv
    subst hb
    refine ⟨false, channel1, k1, hsend, ?_, fun hh => by cases hh⟩
    rw [validIds_iff, hpn] at hv
    simp [hv]

/-- C18, amended, on the one-process channel whose wire is at capacity. -/
theorem C18_witness :
    ∃ b channel1 k1, Send tickingEnv report00 full1 0 = Res.ok (b, channel1, k1) ∧
      (b = true ↔
        (0 ≤ report00.senderId ∧ report00.senderId < 1) ∧
          (0 ≤ report00.receiverId ∧ report00.receiverId < 1)) ∧
      (b = true →
        channel1.gochannel = (if isFull full1 then [] else full1.gochannel) ++ [report00] ∧
          channel1.sendMessagesCount = full1.sendMessagesCount + 1) :=
  C18_send_true_iff_valid 1 10 0 full1 full1_reachable (by decide) tickingEnv report00 0

/-- C20 fails for `n = 2^32`: the state returned by `NewChannel` is reachable and its
capacity is 0, the 64-bit product, not `n * n`. -/
theorem C20_counterexample :
    Reachable twoPow32 10 0 wide ∧ wide.capacity = 0 ∧
      wide.capacity ≠ twoPow32 * twoPow32 :=
  ⟨wide_reachable, rfl, by decide⟩

/-- C20, amended: capacity invariant.  In every state reachable from `NewChannel n ..` the
capacity is the one computed at creation (the 64-bit product `n * n`, which is `n * n`
itself when `n * n < 2^63` and never more than `n * n`), and the number of messages on the
wire is at most the capacity, hence at most `n * n`.  Every `Send` returns, so its push
never blocks, and it pushes only onto a wire that holds fewer messages than the capacity. -/
theorem C20_wire_within_capacity (n mean variance : Int) (channel : Channel)
    (h : Reachable n mean variance channel) :
    channel.capacity = wrap64 (n * n) ∧ channel.capacity ≤ n * n ∧
      (n * n < 2 ^ 63 → channel.capacity = n * n) ∧
      (channel.gochannel.length : Int) ≤ channel.capacity ∧
      (channel.gochannel.length : Int) ≤ n * n ∧
      ∀ env message k, ∃ b channel1 k1,
        Send env message channel k = Res.ok (b, channel1, k1) ∧
          (b = true → ∃ wire0, channel1.gochannel = wire0 ++ [message] ∧
            (wire0.length : Int) < channel.capacity ∧ (wire0.length : Int) < n * n) := by
  obtain ⟨hw, _⟩ := h.wellFormed
  have hcap := h.capacity
  have hsq0 : 0 ≤ n * n := mul_self_nonneg n
  have hle : channel.capacity ≤ n * n := by
    rw [hcap]
    exact wrap64_le _ hsq0
  refine ⟨hcap, hle, ?_, hw.bounded, le_trans hw.bounded hle, ?_⟩
  · intro hlt
    rw [hcap]
    exact wrap64_eq _ hsq0 hlt
  · intro env message k
    obtain ⟨b, channel1, k1, hsend⟩ := Send_total env message channel k hw
    refine ⟨b, channel1, k1, hsend, ?_⟩
    intro hb
    subst hb
    obtain ⟨channel2, _, hcase⟩ := Send_ok hsend
    rcases hcase with ⟨hfalse, _⟩ | ⟨_, _, _, hlt, rfl⟩
    · cases hfalse
    · have hc2 : channel2.capacity = channel.capacity := by
        have := (Send_conserve hsend).2.2.2.2.2.2.1
        exact this
      refine ⟨channel2.gochannel, rfl, ?_, ?_⟩
      · rw [← hc2]
        exact hlt
      · rw [hc2] at hlt
        omega

/-- C20, amended, on the one-process channel whose wire is at capacity. -/
theorem C20_witness :
    full1.capacity = wrap64 (1 * 1) ∧ full1.capacity ≤ 1 * 1 ∧
      ((1 : Int) * 1 < 2 ^ 63 → full1.capacity = 1 * 1) ∧
      (full1.gochannel.length : Int) ≤ full1.capacity ∧
      (full1.gochannel.length : Int) ≤ 1 * 1 ∧
      ∀ env message k, ∃ b channel1 k1,
        Send env message full1 k = Res.ok (b, channel1, k1) ∧
          (b = true → ∃ wire0, channel1.gochannel = wire0 ++ [message] ∧
            (wire0.length : Int) < full1.capacity ∧ (wire0.length : Int) < 1 * 1) :=
  C20_wire_within_capacity 1 10 0 full1 full1_reachable

end Channel

namespace Channel

/-- C12 fails at the boundary: in the scenario with three processes, mean 10 and variance 0,
so with every delay 10 ms, the first `Deliver 1`, made at time `t = 100`, stamps the
proposal with the delivery time `t + 10 ms` and returns nil; a second `Deliver 1` made at
time `t + 10 ms` exactly returns nil again, the delivery time not being before the clock
reading. -/
theorem C12_counterexample :
    NewChannel 3 10 0 = Res.ok fresh3 ∧
      Send tickingEnv proposal01 fresh3 0 = Res.ok (true, posted3, 0) ∧
      Deliver (frozenEnv 100) 1 posted3 0 = Res.ok (none, waiting3 10000100, 2) ∧
      (frozenEnv 10000100).now 0 ≥ (frozenEnv 100).now 0 + 10 * Millisecond ∧
      Deliver (frozenEnv 10000100) 1 (waiting3 10000100) 0
        = Res.ok (none, { waiting3 10000100 with nilMessagesCount := 2 }, 1) :=
  ⟨by decide, by decide, by decide, by decide, by decide⟩

/-- C12, amended: scenario with three processes, mean 10 and variance 0, so that every
assigned delay is exactly 10 ms.  On the fresh channel `Send` of the proposal of 0 to 1
returns true.  A `Deliver 1` whose drain reads the clock at `t` and whose `Pop` reads it no
later than `t + 10 ms` returns nil.  A later `Deliver 1` whose clock reading is after
`t + 10 ms` (strictly) returns the envelope `{0, 1, PROPOSAL, 1, 5}`, after which
`deliverMessagesCount` is 1. -/
theorem C12_scenario (env0 env1 env2 : Env) (k0 : Nat)
    (himm : env1.now 1 ≤ env1.now 0 + 10 * Millisecond)
    (hlater : env1.now 0 + 10 * Millisecond < env2.now 0) :
    NewChannel 3 10 0 = Res.ok fresh3 ∧
      Send env0 proposal01 fresh3 k0 = Res.ok (true, posted3, k0) ∧
      Deliver env1 1 posted3 0
        = Res.ok (none, waiting3 (env1.now 0 + 10 * Millisecond), 2) ∧
      Deliver env2 1 (waiting3 (env1.now 0 + 10 * Millisecond)) 0
        = Res.ok (some proposal01, served3, 1) ∧
      proposal01 = ⟨0, 1, MessageType.PROPOSAL, 1, 5⟩ ∧
      served3.deliverMessagesCount = 1 := by
  refine ⟨by decide, rfl, ?_, ?_, rfl, rfl⟩
  · have hnot : ¬ env1.now 0 + 10 * Millisecond < env1.now 1 := not_lt.mpr himm
    have hgen : generateDeliveryTime env1 10 0 0 = env1.now 0 + 10 * Millisecond := by
      unfold generateDeliveryTime
      rw [delayAt_exact env1 10 0 (by decide) (by decide)]
      rfl
    simp [Deliver, bufferAt, posted3, fresh3, receive, receiveLoop, addAt, IsEmpty_nil,
      MessagesQueue.Add, MessagesQueue.Pop, IsEmpty_cons, newMessageDeliveryTime,
      Message.GetReceiver, proposal01, NewMessage, hgen, waiting3, hnot]
  · simp [Deliver, bufferAt, posted3, fresh3, waiting3, served3, MessagesQueue.Pop,
      IsEmpty_cons, hlater]

/-- C12, amended, with the first poll at time 100 and the second one nanosecond after the
delivery time. -/
theorem C12_witness :
    NewChannel 3 10 0 = Res.ok fresh3 ∧
      Send tickingEnv proposal01 fresh3 0 = Res.ok (true, posted3, 0) ∧
      Deliver (frozenEnv 100) 1 posted3 0
        = Res.ok (none, waiting3 ((frozenEnv 100).now 0 + 10 * Millisecond), 2) ∧
      Deliver (frozenEnv 10000101) 1 (waiting3 ((frozenEnv 100).now 0 + 10 * Millisecond)) 0
        = Res.ok (some proposal01, served3, 1) ∧
      proposal01 = ⟨0, 1, MessageType.PROPOSAL, 1, 5⟩ ∧
      served3.deliverMessagesCount = 1 :=
  C12_scenario tickingEnv (frozenEnv 100) (frozenEnv 10000101) 0 (by decide) (by decide)

/-- C14 fails on the code: in every call of `Send` and of `Deliver`, and in `receive`, the
first access is the write of `lastClient`, made before any `Lock`, and `Deliver` increments
`deliverMessagesCount` or `nilMessagesCount` after the last `Unlock`; only
`sendMessagesCount` is incremented while the mutex is held. -/
theorem C14_writes_outside_mutex :
    (∀ env message channel k, guarded (SendAccesses env message channel k) = false) ∧
      (∀ env processId channel k, guarded (DeliverAccesses env processId channel k) = false) ∧
      guarded receiveAccesses = false ∧
      SendAccesses tickingEnv report00 fresh1 0
        = [Access.setLastClient, Access.lock, Access.incSend, Access.unlock] ∧
      DeliverAccesses tickingEnv 0 fresh1 0
        = [Access.setLastClient, Access.setLastClient, Access.lock, Access.unlock,
            Access.incNil] ∧
      guarded [Access.lock, Access.incSend, Access.unlock] = true :=
  ⟨fun _ _ _ _ => rfl, fun _ _ _ _ => rfl, rfl, by decide, by decide, rfl⟩

/-- C15 fails on the code: on the one-process channel whose wire is at capacity, `Send` of a
message of sender 0 returns true and leaves `lastClient` equal to -2, the id with which the
full drain was run, not to the sender id 0. -/
theorem C15_last_client_after_drain :
    Reachable 1 10 0 full1 ∧ report00.senderId = 0 ∧
      Send tickingEnv report00 full1 0 = Res.ok (true, refilled1, 1) ∧
      refilled1.lastClient = -2 :=
  ⟨full1_reachable, rfl, by decide, rfl⟩

/-- The product of the draw by `time.Millisecond` wraps: on a channel with mean 10 and
variance 3, a draw of 9223372036855 ms is a negative delay, and one of -1 ms is the delay
of -1000000 ns. -/
theorem delayAt_wraps :
    delayAt farEnv 10 3 0 = -9223372036854551616 ∧
      delayAt ⟨fun _ => 0, fun _ => -1⟩ 10 3 0 = -1000000 :=
  ⟨by decide, by decide⟩

/-- C16 fails for the delay 0: on the two-process channel with mean 0 and variance 0, whose
wire holds one message for process 1, with a clock that advances by one nanosecond per
reading, the `Deliver 1` that drains the message, assigned the delay 0, returns it in the
same call. -/
theorem C16_counterexample :
    Reachable 2 0 0 (posted2With 0) ∧ bufferAt (posted2With 0).messagesBuffer 1 = some [] ∧
      (posted2With 0).gochannel = [report01] ∧
      delayAt tickingEnv (posted2With 0).mean (posted2With 0).variance 0 = 0 ∧
      Deliver tickingEnv 1 (posted2With 0) 0 = Res.ok (some report01, polled2With 0, 2) :=
  ⟨Reachable.send tickingEnv report01 (fresh2With 0) 0 true (posted2With 0) 0
      (Reachable.init (fresh2With 0) (by decide)) (by decide),
    by decide, rfl, by decide, by decide⟩

/-- C16, amended: when buffer `p` is empty and the first message `x` on the wire with
`receiverId = p` comes after the messages `pre`, the call `Deliver p` stamps `x` at the clock
step `t = k + pre.length` and compares at step `t + 1`: it returns `x` exactly when the clock
reading of step `t` plus the assigned delay is before the reading of step `t + 1`.  The
assigned delay is the 64-bit product of the draw by the number of nanoseconds in a
millisecond; it is that product itself when the product fits 64 bits.  So with a negative
delay and a clock that does not go back the same call returns `x` (`deliverMessagesCount`
increases by 1); with a delay of zero or more the same call returns nil provided the clock
has not advanced by more than the delay between the two readings. -/
theorem C16_delay_in_same_call (env : Env) (p : Int) (channel : Channel) (k : Nat)
    (pre post : List Message) (x : Message) (hr : Routed channel)
    (hbuf : bufferAt channel.messagesBuffer p = some [])
    (hwire : channel.gochannel = pre ++ x :: post)
    (hpre : ∀ m ∈ pre, m.receiverId ≠ p) (hx : x.receiverId = p) :
    ∃ res channel1, Deliver env p channel k = Res.ok (res, channel1, k + pre.length + 2) ∧
      (res = some x ↔
        env.now (k + pre.length) + delayAt env channel.mean channel.variance (k + pre.length)
          < env.now (k + pre.length + 1)) ∧
      (res = some x ∨ res = none) ∧
      (res = some x →
        channel1.deliverMessagesCount = channel.deliverMessagesCount + 1 ∧
          channel1.nilMessagesCount = channel.nilMessagesCount) ∧
      (res = none →
        channel1.nilMessagesCount = channel.nilMessagesCount + 1 ∧
          channel1.deliverMessagesCount = channel.deliverMessagesCount) ∧
      (delayAt env channel.mean channel.variance (k + pre.length) < 0 →
        env.now (k + pre.length) ≤ env.now (k + pre.length + 1) → res = some x) ∧
      (0 ≤ delayAt env channel.mean channel.variance (k + pre.length) →
        env.now (k + pre.length + 1)
          ≤ env.now (k + pre.length)
            + delayAt env channel.mean channel.variance (k + pre.length) →
        res = none) ∧
      (-(2 ^ 63)
          ≤ drawRandInt env channel.mean channel.variance (k + pre.length) * Millisecond →
        drawRandInt env channel.mean channel.variance (k + pre.length) * Millisecond < 2 ^ 63 →
        delayAt env channel.mean channel.variance (k + pre.length)
          = drawRandInt env channel.mean channel.variance (k + pre.length) * Millisecond) := by
  have hd := Deliver_drains env p channel k pre post x hr hbuf hwire hpre hx
  have hfit : -(2 ^ 63) ≤ drawRandInt env channel.mean channel.variance (k + pre.length)
        * Millisecond →
      drawRandInt env channel.mean channel.variance (k + pre.length) * Millisecond < 2 ^ 63 →
      delayAt env channel.mean channel.variance (k + pre.length)
        = drawRandInt env channel.mean channel.variance (k + pre.length) * Millisecond := by
    intro h0 h1
    exact wrap64_fits _ h0 h1
  by_cases hdue : generateDeliveryTime env channel.mean channel.variance (k + pre.length)
      < env.now (k + pre.length + 1)
  · rw [if_pos hdue] at hd
    refine ⟨_, _, hd, ?_, Or.inl rfl, fun _ => ⟨rfl, rfl⟩, ?_, fun _ _ => rfl, ?_, hfit⟩
    · simp only [true_iff]
      exact hdue
    · intro h
      cases h
    · intro _ hle
      simp only [generateDeliveryTime] at hdue
      omega
  · rw [if_neg hdue] at hd
    refine ⟨_, _, hd, ?_, Or.inr rfl, ?_, fun _ => ⟨rfl, rfl⟩, ?_, fun _ _ => rfl, hfit⟩
    · simp only [generateDeliveryTime] at hdue
      simp [hdue]
    · intro h
      cases h
    · intro hneg hmono
      exfalso
      apply hdue
      simp only [generateDeliveryTime]
      omega

/-- C16, amended, on the two-process channel with mean -1 and variance 0, whose wire holds
one message for process 1: the delay is -1 ms. -/
theorem C16_witness :
    ∃ res channel1, Deliver tickingEnv 1 (posted2With (-1)) 0
        = Res.ok (res, channel1, 0 + ([] : List Message).length + 2) ∧
      (res = some report01 ↔
        tickingEnv.now (0 + ([] : List Message).length)
            + delayAt tickingEnv (posted2With (-1)).mean (posted2With (-1)).variance
                (0 + ([] : List Message).length)
          < tickingEnv.now (0 + ([] : List Message).length + 1)) ∧
      (res = some report01 ∨ res = none) ∧
      (res = some report01 →
        channel1.deliverMessagesCount = (posted2With (-1)).deliverMessagesCount + 1 ∧
          channel1.nilMessagesCount = (posted2With (-1)).nilMessagesCount) ∧
      (res = none →
        channel1.nilMessagesCount = (posted2With (-1)).nilMessagesCount + 1 ∧
          channel1.deliverMessagesCount = (posted2With (-1)).deliverMessagesCount) ∧
      (delayAt tickingEnv (posted2With (-1)).mean (posted2With (-1)).variance
            (0 + ([] : List Message).length) < 0 →
        tickingEnv.now (0 + ([] : List Message).length)
          ≤ tickingEnv.now (0 + ([] : List Message).length + 1) → res = some report01) ∧
      (0 ≤ delayAt tickingEnv (posted2With (-1)).mean (posted2With (-1)).variance
            (0 + ([] : List Message).length) →
        tickingEnv.now (0 + ([] : List Message).length + 1)
          ≤ tickingEnv.now (0 + ([] : List Message).length)
            + delayAt tickingEnv (posted2With (-1)).mean (posted2With (-1)).variance
                (0 + ([] : List Message).length) →
        res = none) ∧
      (-(2 ^ 63) ≤ drawRandInt tickingEnv (posted2With (-1)).mean (posted2With (-1)).variance
            (0 + ([] : List Message).length) * Millisecond →
        drawRandInt tickingEnv (posted2With (-1)).mean (posted2With (-1)).variance
            (0 + ([] : List Message).length) * Millisecond < 2 ^ 63 →
        delayAt tickingEnv (posted2With (-1)).mean (posted2With (-1)).variance
            (0 + ([] : List Message).length)
          = drawRandInt tickingEnv (posted2With (-1)).mean (posted2With (-1)).variance
              (0 + ([] : List Message).length) * Millisecond) :=
  C16_delay_in_same_call tickingEnv 1 (posted2With (-1)) 0 [] [] report01 (by decide)
    (by decide) rfl (by decide) rfl

end Channel
